import Mathlib

/-! # Freestanding Mersenne Twister: shallow embedding

The engine of `include/freestanding_mersenne_twister.h` is embedded as pure functions on an
explicit state.  Unsigned machine integers are natural numbers; every place where the C++
arithmetic can wrap carries an explicit `% 2 ^ bits`.

Conventions
* `Params.bits` is `bits_in_type<result_type>()`, the width of the native type `UIntType`.
  The operations are embedded for a native type at least as wide as `unsigned int`, on
  which no integral promotion to a signed type takes place.  Whether the header accepts a
  narrower native type at all is decided by the declaration of `max_value`, which
  `max_value_initializer` and `accepted` embed with the promotion.
* `Params.size_bits` is the width of `size_t`.  Index expressions such as `i + 1u` and
  `i + shift_size` are computed exactly: an array of `n` words is an object, so `2 * n` is
  representable in `size_t`.  The one place where the source relies on wrap-around of
  `size_t` (`i -= state_size; i += z` in `discard`) is modelled with the wrap.
* The array `X[state_size]` is a list; `X[k]` is `X.getD k 0` and `X[k] = v` is `X.set k v`.
-/

namespace freestanding_mersenne_twister

/-- The template parameters of `mersenne_twister_engine`, with the widths of the native
result type (`bits`) and of `size_t` (`size_bits`). -/
structure Params where
  bits : Nat
  size_bits : Nat
  w : Nat
  n : Nat
  m : Nat
  r : Nat
  a : Nat
  u : Nat
  d : Nat
  s : Nat
  b : Nat
  t : Nat
  c : Nat
  l : Nat
  f : Nat
  deriving DecidableEq, Repr

/-- The struct `mersenne_twister_state`: the words `X[state_size]` and the cursor `i`. -/
structure mersenne_twister_state where
  X : List Nat
  i : Nat
  deriving DecidableEq, Repr

namespace mersenne_twister_engine

/-- `max_value{ (~result_type{0}) >> (result_type_bits - w) }`. -/
def max_value (P : Params) : Nat := (2 ^ P.bits - 1) >>> (P.bits - P.w)

/-- `rshift<Amount>(value)`. -/
def rshift (P : Params) (amount value : Nat) : Nat :=
  if amount ≥ P.w then 0 else value >>> amount

/-- `lshift<Amount>(value)`; the native shift drops the bits above the native width. -/
def lshift (P : Params) (amount value : Nat) : Nat :=
  if amount ≥ P.w then 0 else (value <<< amount) % 2 ^ P.bits

/-- `upper_bits_mask{ lshift<mask_bits>(max()) & max() }`. -/
def upper_bits_mask (P : Params) : Nat := lshift P P.r (max_value P) &&& max_value P

/-- `lower_bits_mask{ max() ^ upper_bits_mask }`. -/
def lower_bits_mask (P : Params) : Nat := max_value P ^^^ upper_bits_mask P

/-- The static assertions of `mersenne_twister_engine`, in the order of the source.  They
are not all that the header asks of a parameter set: see `accepted`. -/
def static_asserts (P : Params) : Prop :=
  P.w ≤ P.bits ∧ 0 < P.m ∧ P.m ≤ P.n ∧ 2 < P.w ∧ P.r ≤ P.w ∧
  P.u ≤ P.w ∧ P.s ≤ P.w ∧ P.t ≤ P.w ∧ P.l ≤ P.w ∧
  P.a ≤ max_value P ∧ P.b ≤ max_value P ∧ P.c ≤ max_value P ∧ P.d ≤ max_value P ∧
  P.f ≤ max_value P

instance (P : Params) : Decidable (static_asserts P) := by
  unfold static_asserts
  infer_instance

/-- A valid parameter set: the template argument `n` is a value of `size_t`, and the static
assertions hold.  The header accepts no parameter set that fails an assertion (`accepted`
adds the condition on the native type), so what is proved of the valid sets covers every
engine type that can be instantiated. -/
def Valid (P : Params) : Prop := P.n < 2 ^ P.size_bits ∧ static_asserts P

instance (P : Params) : Decidable (Valid P) := by
  unfold Valid
  infer_instance

/-- One iteration of the loop of `transition_algorithm`, for the loop index `i`. -/
def transition_step (P : Params) (X : List Nat) (i : Nat) : List Nat :=
  let Y := (X.getD i 0 &&& upper_bits_mask P) ||| (X.getD ((i + 1) % P.n) 0 &&& lower_bits_mask P)
  let alpha := (P.a * (Y &&& 1)) % 2 ^ P.bits
  X.set i (X.getD ((i + P.m) % P.n) 0 ^^^ (Y >>> 1) ^^^ alpha)

/-- `transition_algorithm()`: `for (size_t i = 0; i < state_size; ++i)`, in place. -/
def transition_algorithm (P : Params) (X : List Nat) : List Nat :=
  (List.range P.n).foldl (transition_step P) X

/-- `scramble(x)`, the tempering transform. -/
def scramble (P : Params) (x : Nat) : Nat :=
  let z := x
  let z := z ^^^ (rshift P P.u z &&& P.d)
  let z := z ^^^ (lshift P P.s z &&& P.b)
  let z := z ^^^ (lshift P P.t z &&& P.c)
  let z := z &&& max_value P
  let z := z ^^^ rshift P P.l z
  z

/-- One iteration of the loop of `seed(result_type)`, for the loop index `j`.  The product
wraps in the native type; the sum with the `size_t` index may be taken in a wider type,
whose bits above the native width are dropped by the mask and the store. -/
def seed_step (P : Params) (X : List Nat) (j : Nat) : List Nat :=
  X.set j (((P.f * (X.getD (j - 1) 0 ^^^ (X.getD (j - 1) 0 >>> (P.w - 2))) + j) % 2 ^ P.bits)
    &&& max_value P)

/-- `seed(value)`: fills the words in place, runs the transition and resets the cursor. -/
def seed (P : Params) (st : mersenne_twister_state) (value : Nat) : mersenne_twister_state :=
  let X := st.X.set 0 (value &&& max_value P)
  let X := (List.range' 1 (P.n - 1)).foldl (seed_step P) X
  { X := transition_algorithm P X, i := 0 }

/-- The constructor `mersenne_twister_engine(result_type value)`: `state_type{}` and `seed`. -/
def mk (P : Params) (value : Nat) : mersenne_twister_state :=
  seed P { X := List.replicate P.n 0, i := 0 } value

/-- `operator()()`: the value returned and the state left behind. -/
def next (P : Params) (st : mersenne_twister_state) : Nat × mersenne_twister_state :=
  let z := scramble P (st.X.getD st.i 0)
  let i := st.i + 1
  if i = P.n then (z, { X := transition_algorithm P st.X, i := 0 })
  else (z, { X := st.X, i := i })

/-- The loop `while (z >= state_size) { transition_algorithm(); z -= state_size; }` of
`discard`.  It does not terminate for `state_size = 0`, which no engine type has. -/
def discard_loop (P : Params) (X : List Nat) (z : Nat) : List Nat × Nat :=
  if _h : 0 < P.n ∧ z ≥ P.n then discard_loop P (transition_algorithm P X) (z - P.n)
  else (X, z)
termination_by z
decreasing_by omega

/-- `discard(z)`.  The cursor update `i -= state_size; i += z` wraps in `size_t`; the
difference `(state_size - 1u) - i` is exact for a cursor below `state_size`. -/
def discard (P : Params) (st : mersenne_twister_state) (z : Nat) : mersenne_twister_state :=
  let (X, z) := discard_loop P st.X z
  if z > (P.n - 1) - st.i then
    let X := transition_algorithm P X
    let i := (st.i + 2 ^ P.size_bits - P.n) % 2 ^ P.size_bits
    { X := X, i := (i + z) % 2 ^ P.size_bits }
  else
    { X := X, i := st.i + z }

/-- The first part of `generate_multiple`: the check `if (first == last) return;` and the
loop `for (; i < state_size-1u;)`, with `count` destination slots left and the cursor `i`.
Returns the values written, the cursor, and the number of slots left; no slot is left
exactly when the source returns from inside this part. -/
def generate_for (P : Params) (X : List Nat) : Nat → Nat → List Nat × Nat × Nat
  | 0, i => ([], i, 0)
  | count + 1, i =>
    if i < P.n - 1 then
      let r := generate_for P X count (i + 1)
      (scramble P (X.getD i 0) :: r.1, r.2.1, r.2.2)
    else ([], i, count + 1)

/-- `generate_multiple(first, last)` for a destination of `count` slots: each round of the
`while (true)` loop costs one unit of fuel.  Returns the values written and the state. -/
def generate_multiple (P : Params) :
    Nat → mersenne_twister_state → Nat → List Nat × mersenne_twister_state
  | 0, st, _ => ([], st)
  | fuel + 1, st, count =>
    match generate_for P st.X count st.i with
    | (out, i, 0) => (out, { X := st.X, i := i })
    | (out, _, rest + 1) =>
      let z := scramble P (st.X.getD (P.n - 1) 0)
      let r := generate_multiple P fuel { X := transition_algorithm P st.X, i := 0 } rest
      (out ++ z :: r.1, r.2)

/-- The bulk operation `operator()(first, last)` on a destination of `count` slots.  Every
round of the outer loop either returns or writes a value, so `count + 1` rounds suffice. -/
def fill (P : Params) (st : mersenne_twister_state) (count : Nat) :
    List Nat × mersenne_twister_state :=
  generate_multiple P (count + 1) st count

/-- `peek(distance)`, a `const` member: the value returned. -/
def peek (P : Params) (st : mersenne_twister_state) (distance : Nat) : Nat :=
  if distance ≠ 0 ∧ distance ≥ P.n - st.i then
    let copy := discard P st (distance - 1)
    scramble P (copy.X.getD copy.i 0)
  else scramble P (st.X.getD (st.i + distance) 0)

/-- The first loop of the range `peek`, `for (size_t i = copy->i; i < state_size; ++i)`,
preceded by the check `if (first == last) return first;`.  The words `X` read by
`scramble(X[i])` are those of the engine itself.  Returns the values written and the
number of slots left. -/
def peek_for (P : Params) (X : List Nat) : Nat → Nat → List Nat × Nat
  | 0, _ => ([], 0)
  | count + 1, i =>
    if i < P.n then
      let r := peek_for P X count (i + 1)
      (scramble P (X.getD i 0) :: r.1, r.2)
    else ([], count + 1)

/-- The loop `while (true) { copy.transition_algorithm(); for (result_type x : copy.X) ... }`
of the range `peek`, entered with `count` slots left; one unit of fuel for each round. -/
def peek_blocks (P : Params) : Nat → List Nat → Nat → List Nat
  | 0, _, _ => []
  | fuel + 1, X, count =>
    let X := transition_algorithm P X
    let out := (X.map (scramble P)).take count
    if count ≤ X.length then out else out ++ peek_blocks P fuel X (count - X.length)

/-- `peek(first, last, distance)` on a destination of `count` slots, a `const` member: the
values written.  The member access `copy->i` of the source is read as `copy.i`. -/
def peek_range (P : Params) (st : mersenne_twister_state) (count distance : Nat) : List Nat :=
  let copy := discard P st distance
  let r := peek_for P st.X count copy.i
  if r.2 = 0 then r.1 else r.1 ++ peek_blocks P r.2 copy.X r.2

/-- The state of the engine after `k` calls of `operator()()`. -/
def advance (P : Params) (k : Nat) (st : mersenne_twister_state) : mersenne_twister_state :=
  (fun s => (next P s).2)^[k] st

/-- The values returned by `count` successive calls of `operator()()`, and the state left. -/
def next_many (P : Params) : Nat → mersenne_twister_state → List Nat × mersenne_twister_state
  | 0, st => ([], st)
  | count + 1, st =>
    let r := next_many P count (next P st).2
    ((next P st).1 :: r.1, r.2)

/-- The standard 32-bit engine `mt19937<std::uint32_t>`. -/
def mt19937 : Params :=
  { bits := 32, size_bits := 64, w := 32, n := 624, m := 397, r := 31, a := 0x9908b0df,
    u := 11, d := 0xffffffff, s := 7, b := 0x9d2c5680, t := 15, c := 0xefc60000, l := 18,
    f := 1812433253 }

/-- The standard 64-bit engine `mt19937_64<std::uint64_t>`. -/
def mt19937_64 : Params :=
  { bits := 64, size_bits := 64, w := 64, n := 312, m := 156, r := 31,
    a := 0xb5026f5aa96619e9, u := 29, d := 0x5555555555555555, s := 17,
    b := 0x71d67fffeda60000, t := 37, c := 0xfff7eee000000000, l := 43,
    f := 6364136223846793005 }

/-! ## The canonical recurrence -/

/-- The upper mask of the recurrence, `(max_value << r) & max_value` on `w`-bit words. -/
def reference_upper_mask (P : Params) : Nat := ((2 ^ P.w - 1) <<< P.r) &&& (2 ^ P.w - 1)

/-- The lower mask of the recurrence, `max_value XOR upper_mask`. -/
def reference_lower_mask (P : Params) : Nat := (2 ^ P.w - 1) ^^^ reference_upper_mask P

/-- The canonical linear recurrence of the Mersenne Twister for the seed `v`:
`x_0 = v mod 2^w`, `x_j = (f * (x_{j-1} xor (x_{j-1} >> (w-2))) + j) mod 2^w` for
`1 ≤ j < n`, and `x_{j+n} = x_{j + (m mod n)} xor (Y_j >> 1) xor (a if Y_j is odd, else 0)`
with `Y_j = (x_j and upper_mask) or (x_{j+1} and lower_mask)`.  The recurrence needs
`n ≥ 2`; for smaller `n` the words past the first `n` are set to 0. -/
def reference_sequence (P : Params) (v : Nat) (j : Nat) : Nat :=
  if h0 : j = 0 then v % 2 ^ P.w
  else if hj : j < P.n then
    let x := reference_sequence P v (j - 1)
    (P.f * (x ^^^ (x >>> (P.w - 2))) + j) % 2 ^ P.w
  else if _hn : 2 ≤ P.n then
    let Y := (reference_sequence P v (j - P.n) &&& reference_upper_mask P) |||
      (reference_sequence P v (j - P.n + 1) &&& reference_lower_mask P)
    reference_sequence P v (j - P.n + P.m % P.n) ^^^ (Y >>> 1) ^^^ (if Y % 2 = 1 then P.a else 0)
  else 0
termination_by j
decreasing_by
  · omega
  · omega
  · omega
  · have := Nat.mod_lt P.m (show P.n > 0 by omega)
    omega

/-- The word written by one iteration of the transition loop, from the three words read. -/
def twist_word (P : Params) (x0 x1 xm : Nat) : Nat :=
  xm ^^^ (((x0 &&& upper_bits_mask P) ||| (x1 &&& lower_bits_mask P)) >>> 1) ^^^
    ((P.a * (((x0 &&& upper_bits_mask P) ||| (x1 &&& lower_bits_mask P)) &&& 1)) % 2 ^ P.bits)

/-- The words that `seed(value)` hands to the transition. -/
def seed_words (P : Params) (st : mersenne_twister_state) (value : Nat) : List Nat :=
  (List.range' 1 (P.n - 1)).foldl (seed_step P) (st.X.set 0 (value &&& max_value P))

/-! ## Evaluation of the recurrence on a sliding window

The definitions of this section compute words of the canonical recurrence without
well-founded recursion and with every intermediate word reduced to a numeral before it
is used again; they are proved equal to `reference_sequence` below. -/

/-- Continue with `v` once it is known to be zero or a successor. -/
def force_nat {α : Type} (v : Nat) (k : Nat → α) : α :=
  match v with
  | 0 => k 0
  | n + 1 => k (n + 1)

/-- Continue with the list once each of its words has gone through `force_nat`. -/
def force_list {α : Type} : List Nat → (List Nat → α) → α
  | [], k => k []
  | x :: xs, k => force_nat x fun v => force_list xs fun vs => k (v :: vs)

/-- The words `x_j, x_{j+1}, ...` (`fuel` of them) of the seeding recurrence, from `x_j`. -/
def eval_seed_go (P : Params) : Nat → Nat → Nat → List Nat
  | 0, _, _ => []
  | fuel + 1, j, x =>
    force_nat x fun x =>
      x :: eval_seed_go P fuel (j + 1) ((P.f * (x ^^^ (x >>> (P.w - 2))) + (j + 1)) % 2 ^ P.w)

/-- The first `n` words of the canonical recurrence for the seed `v`. -/
def eval_seed (P : Params) (v : Nat) : List Nat := eval_seed_go P P.n 0 (v % 2 ^ P.w)

/-- The words `twist_word x0 x1 xm` for the words of three lists taken in parallel. -/
def twist_zip (P : Params) : List Nat → List Nat → List Nat → List Nat
  | x0 :: l0, x1 :: l1, xm :: lm => twist_word P x0 x1 xm :: twist_zip P l0 l1 lm
  | _, _, _ => []

/-- Slide a window of `n` consecutive words of the recurrence forward by `n - m` words. -/
def eval_window (P : Params) (W : List Nat) : List Nat :=
  force_list W fun W => W.drop (P.n - P.m) ++ twist_zip P W W.tail (W.drop P.m)

/-- The word `x_j` of the canonical recurrence for the seed `v`, for `j ≥ n`, read from the
window that starts at the last multiple of `n - m` for which `x_j` is not in the first
`m` words. -/
def eval_word (P : Params) (v j : Nat) : Nat :=
  ((eval_window P)^[(j - P.m) / (P.n - P.m)] (eval_seed P v)).getD
    (j - (j - P.m) / (P.n - P.m) * (P.n - P.m)) 0

/-- The engine type `test` of `test/initial_sequence.cpp`: 47-bit words in
`unsigned long long`, `n = 17`, the constants masked with `(1 << 3) - 1`. -/
def test_engine : Params :=
  { bits := 64, size_bits := 64, w := 47, n := 17, m := 13, r := 23, a := 0, u := 13, d := 3,
    s := 2, b := 6, t := 0, c := 3, l := 31, f := 6 }

/-! ## Calls of the `const` members and the seeding recurrence -/

/-- The two engine objects that the bodies of the `peek` members name: the engine `*this`
on which the member is called, and the local variable `copy`. -/
inductive peek_object where
  | self
  | copy
  deriving DecidableEq, Repr

/-- Where the destination range `[first, last)` of the range `peek` lies: in storage that is
no part of the engine, or in the array `X` of the engine itself, from `X[offset]` on. -/
inductive destination where
  | buffer
  | words (offset : Nat)
  deriving DecidableEq, Repr

/-- The storage that a call of `peek` works on: the engine `*this`, the local `copy`, and the
values stored so far in a destination that is no part of the engine. -/
structure peek_store where
  self : mersenne_twister_state
  copy : mersenne_twister_state
  buffer : List Nat
  deriving DecidableEq, Repr

/-- The object `o` of the store. -/
def peek_store.get (s : peek_store) : peek_object → mersenne_twister_state
  | .self => s.self
  | .copy => s.copy

/-- The store in which the object `o` has the value `v`. -/
def peek_store.put (s : peek_store) (o : peek_object) (v : mersenne_twister_state) :
    peek_store :=
  match o with
  | .self => { s with self := v }
  | .copy => { s with copy := v }

/-- The declaration `mersenne_twister_engine copy = *this;` in a call on the engine `st`:
the store of the call, with nothing stored through the destination yet. -/
def declare_copy (st : mersenne_twister_state) : peek_store :=
  { self := st, copy := st, buffer := [] }

/-- A call `o.discard(z)` of the member `discard` on the object `o`. -/
def call_discard (P : Params) (o : peek_object) (z : Nat) (s : peek_store) : peek_store :=
  s.put o (discard P (s.get o) z)

/-- A call `o.transition_algorithm()` on the object `o`. -/
def call_transition_algorithm (P : Params) (o : peek_object) (s : peek_store) : peek_store :=
  s.put o { X := transition_algorithm P (s.get o).X, i := (s.get o).i }

/-- The store `*first = value` through the destination iterator, which stands `j` slots
past the start of the destination range. -/
def store_through (dest : destination) (j value : Nat) (s : peek_store) : peek_store :=
  match dest with
  | .buffer => { s with buffer := s.buffer ++ [value] }
  | .words offset => { s with self := { X := s.self.X.set (offset + j) value, i := s.self.i } }

/-- A call `e.peek(distance)` on the engine `st`: the value returned and the engine after
the call.  The first branch declares `copy`, calls `copy.discard(distance-1u)` and reads
`copy.X[copy.i]`; the second only reads `X[i+distance]`. -/
def peek_call (P : Params) (st : mersenne_twister_state) (distance : Nat) :
    Nat × mersenne_twister_state :=
  if distance ≠ 0 ∧ distance ≥ P.n - st.i then
    let s := declare_copy st
    let s := call_discard P .copy (distance - 1) s
    (scramble P ((s.get .copy).X.getD (s.get .copy).i 0), s.get .self)
  else (scramble P (st.X.getD (st.i + distance) 0), st)

/-- The loop `for (...; i < state_size; ++i) { *first = scramble(o.X[i]); ++first;
if (first == last) return first; }` over the words of the object `o`, entered with `count`
slots left, the destination iterator `j` slots past its start, and the index `i`; the check
`if (first == last) return first;` precedes it.  Returns the store and the number of slots
left; no slot is left exactly when the source returns from inside the loop. -/
def peek_for_store (P : Params) (dest : destination) (o : peek_object) :
    Nat → Nat → Nat → peek_store → peek_store × Nat
  | 0, _, _, s => (s, 0)
  | count + 1, j, i, s =>
    if i < P.n then
      peek_for_store P dest o count (j + 1) (i + 1)
        (store_through dest j (scramble P ((s.get o).X.getD i 0)) s)
    else (s, count + 1)

/-- The loop `while (true) { copy.transition_algorithm(); for (result_type x : copy.X)
{ *first = scramble(x); ++first; if (first == last) return first; } }`, entered with
`count` slots left; one unit of fuel for each round.  Returns the store and the number of
slots left. -/
def peek_while_store (P : Params) (dest : destination) :
    Nat → Nat → Nat → peek_store → peek_store × Nat
  | 0, count, _, s => (s, count)
  | fuel + 1, count, j, s =>
    let s := call_transition_algorithm P .copy s
    let r := peek_for_store P dest .copy count j 0 s
    if r.2 = 0 then r else peek_while_store P dest fuel r.2 (j + (count - r.2)) r.1

/-- The body of `peek(first, last, distance)` on a destination of `count` slots, called on
the engine `st`.  The member access `copy->i` that starts the first loop does not compile
(`copy` is no pointer and the class has no `operator->`); the loop is taken to start at the
index `start s` read from the store `s`.  The first loop reads the words `X[i]` of the
engine itself.  Every round of the second loop stores at least one value when
`state_size` is not 0, so a unit of fuel for each slot left suffices.  Returns the store
and the number of slots left. -/
def peek_range_from (P : Params) (st : mersenne_twister_state) (dest : destination)
    (count distance : Nat) (start : peek_store → Nat) : peek_store × Nat :=
  let s := declare_copy st
  let s := call_discard P .copy distance s
  let r := peek_for_store P dest .self count 0 (start s) s
  if r.2 = 0 then r else peek_while_store P dest r.2 r.2 (count - r.2) r.1

/-- A call `e.peek(first, last, distance)` with the member access `copy->i` read as
`copy.i`: the store and the number of slots left.  The engine after the call is the object
`self` of the store. -/
def peek_range_call (P : Params) (st : mersenne_twister_state) (dest : destination)
    (count distance : Nat) : peek_store × Nat :=
  peek_range_from P st dest count distance fun s => (s.get .copy).i

/-- The array `y` of scalar seeding in exact integer arithmetic: `y_0 = v mod 2^w` and
`y_j = (f * (y_{j-1} xor floor(y_{j-1} / 2^(w-2))) + j) mod 2^w`. -/
def seed_recurrence (P : Params) (v : Nat) : Nat → Nat
  | 0 => v % 2 ^ P.w
  | j + 1 =>
    (P.f * (seed_recurrence P v j ^^^ (seed_recurrence P v j / 2 ^ (P.w - 2))) + (j + 1)) % 2 ^ P.w

/-! ## Tempering on `w`-bit words -/

/-- The tempering transform on `w`-bit words in exact arithmetic:
`z1 = x xor (floor(x / 2^u) and d)`, `z2 = z1 xor ((z1 * 2^s mod 2^w) and b)`,
`z3 = z2 xor ((z2 * 2^t mod 2^w) and c)`, `z4 = z3 xor floor(z3 / 2^l)`. -/
def temper_reference (P : Params) (x : Nat) : Nat :=
  let z1 := x ^^^ ((x / 2 ^ P.u) &&& P.d)
  let z2 := z1 ^^^ ((z1 * 2 ^ P.s % 2 ^ P.w) &&& P.b)
  let z3 := z2 ^^^ ((z2 * 2 ^ P.t % 2 ^ P.w) &&& P.c)
  z3 ^^^ (z3 / 2 ^ P.l)

/-! ## The state invariant -/

/-- The invariant of `mersenne_twister_state`: the array has `state_size` words, each word
has at most `word_size` bits, and `i < n`. -/
def state_invariant (P : Params) (st : mersenne_twister_state) : Prop :=
  st.X.length = P.n ∧ (∀ x ∈ st.X, x ≤ max_value P) ∧ st.i < P.n

instance (P : Params) (st : mersenne_twister_state) : Decidable (state_invariant P st) := by
  unfold state_invariant
  infer_instance

/-! ## Seeding from a seed sequence -/

/-- The number `k` of 32-bit words per state word in `seed(Sseq&)`:
`w % 32u == 0u ? w / 32u : (w / 32u) + 1u`. -/
def seed_seq_k (P : Params) : Nat := if P.w % 32 = 0 then P.w / 32 else P.w / 32 + 1

/-- The state word with index `idx` packed from the scratch buffer `A`:
`x = min(); for (j < k) x |= static_cast<result_type>(*p++) << (32u * j); x &= max();`. -/
def pack_word (P : Params) (A : List Nat) (idx : Nat) : Nat :=
  ((List.range (seed_seq_k P)).foldl
    (fun x j => x ||| ((A.getD (idx * seed_seq_k P + j) 0 % 2 ^ P.bits) <<< (32 * j)) % 2 ^ P.bits)
    0) &&& max_value P

/-- The words of the state after the first part of `seed(Sseq&)`.  The seed sequence is given
by the words `q 0, q 1, ...` that its `generate` writes to a destination of `n * k` words;
`standard_type` tells whether `UIntType` is one of `unsigned char`, `unsigned short`,
`unsigned`, `unsigned long`, `unsigned long long`.  Every word of the state is overwritten,
so the words do not depend on the state before. -/
def seed_seq_fill (P : Params) (standard_type : Bool) (q : Nat → Nat) : List Nat :=
  if seed_seq_k P = 1 ∧ P.bits ≥ 32 ∧ standard_type = true then
    (List.range (P.n * seed_seq_k P)).map fun p => q p % 2 ^ P.bits
  else
    (List.range P.n).map (pack_word P ((List.range (P.n * seed_seq_k P)).map q))

/-- The words that `seed(Sseq&)` hands to the transition: the filled words, with `X[0]`
replaced by `max()` when `rshift<r>(X[0])` is zero and the words `X[1], ..., X[n-1]` are
all zero. -/
def seed_seq_words (P : Params) (standard_type : Bool) (q : Nat → Nat) : List Nat :=
  let X := seed_seq_fill P standard_type q
  if rshift P P.r (X.getD 0 0) = 0 ∧ (List.range' 1 (P.n - 1)).all (fun i => X.getD i 0 == 0)
  then X.set 0 (max_value P)
  else X

/-- `seed(Sseq&)`: fill, correct the degenerate state, run the transition, reset the cursor. -/
def seed_seq (P : Params) (standard_type : Bool) (q : Nat → Nat) : mersenne_twister_state :=
  { X := transition_algorithm P (seed_seq_words P standard_type q), i := 0 }

/-- The engine type `mt` of `test/equality.cpp` and `test/copy.cpp`: 3-bit words in
`unsigned long long`, `n = 32`, `m = 1`, every other parameter 0. -/
def mt : Params :=
  { bits := 64, size_bits := 64, w := 3, n := 32, m := 1, r := 0, a := 0, u := 0, d := 0,
    s := 0, b := 0, t := 0, c := 0, l := 0, f := 0 }

/-- The parameter sets for which `seed(Sseq&)` leaves the all-zero state when the seed sequence
generates only zero words: the word 0 written by the first transition step is zero. -/
def degenerate_params (P : Params) : Prop :=
  (P.m = P.n ∧ (P.n = 1 ∨ P.r = 0) ∧ P.a = 2 ^ (P.w - 1)) ∨
  (P.m < P.n ∧ (P.r = P.w ∨ (P.r = 0 ∧ P.a = (2 ^ P.w - 1) / 2)))

instance (P : Params) : Decidable (degenerate_params P) := by
  unfold degenerate_params
  infer_instance

/-- A valid parameter set with `r = w`: 3-bit words, `n = 2`, `m = 1`. -/
def full_mask_engine : Params :=
  { bits := 64, size_bits := 64, w := 3, n := 2, m := 1, r := 3, a := 5, u := 1, d := 7,
    s := 1, b := 6, t := 2, c := 4, l := 1, f := 5 }

/-- A valid parameter set with `r = 0` and `a = max_value >> 1`: 3-bit words, `n = 2`, `m = 1`. -/
def cancelling_engine : Params :=
  { bits := 64, size_bits := 64, w := 3, n := 2, m := 1, r := 0, a := 3, u := 1, d := 7,
    s := 1, b := 6, t := 2, c := 4, l := 1, f := 5 }
/-! ## Equality and serialization -/

/-- The loop of `operator==` of `mersenne_twister_state` over the indices still to compare:
`if (x.X[i] != y.X[i]) return false;`, and `return x.i == y.i;` after the loop. -/
def operator_eq_loop (x y : mersenne_twister_state) : List Nat → Bool
  | [] => x.i == y.i
  | j :: js => if x.X.getD j 0 != y.X.getD j 0 then false else operator_eq_loop x y js

/-- `operator==` of two engines of the same type, which is that of their states:
`for (size_t i = 0; i < state_size; ++i)`. -/
def operator_eq (P : Params) (x y : mersenne_twister_state) : Bool :=
  operator_eq_loop x y (List.range P.n)

/-- `operator!=`: `return !operator==(x, y);`. -/
def operator_ne (P : Params) (x y : mersenne_twister_state) : Bool :=
  !operator_eq P x y

/-- `operator<<` of a state, as the sequence of the fields written: the words of `X` in
index order, then the cursor. -/
def operator_write (st : mersenne_twister_state) : List Nat := st.X ++ [st.i]

/-- `operator>>` of a state, from the sequence of the fields read, each representable in its
type: `state_size` words, then the cursor.  Every field of the state is overwritten. -/
def state_read (P : Params) (fields : List Nat) : mersenne_twister_state :=
  { X := (List.range P.n).map fun j => fields.getD j 0, i := fields.getD P.n 0 }

/-- `operator>>` of an engine: read the state, and `if (x.i == state_size)` run the
transition and reset the cursor. -/
def operator_read (P : Params) (fields : List Nat) : mersenne_twister_state :=
  let x := state_read P fields
  if x.i = P.n then { X := transition_algorithm P x.X, i := 0 } else x

/-- The engine type `mt` of the tests with a single state word: `n = 1`, `m = 1`. -/
def single_word_engine : Params :=
  { bits := 64, size_bits := 64, w := 3, n := 1, m := 1, r := 0, a := 0, u := 0, d := 0,
    s := 0, b := 0, t := 0, c := 0, l := 0, f := 0 }

/-! ## Conversion, default construction and tempering variants -/

/-- The converting constructor and `operator=` from an engine with the same parameters and
another native type `UIntType2`, into the native type of `N` bits:
`X[i] = static_cast<UIntType>(other.X[i])` for every `i < state_size`, and `i = other.i`. -/
def convert (P : Params) (N : Nat) (other : mersenne_twister_state) : mersenne_twister_state :=
  { X := (List.range P.n).map fun j => other.X.getD j 0 % 2 ^ N, i := other.i }

/-- `default_seed{ static_cast<result_type>(5489u) & max() }`. -/
def default_seed (P : Params) : Nat := (5489 % 2 ^ P.bits) &&& max_value P

/-- The default constructor: `mersenne_twister_engine(default_seed)`. -/
def mk_default (P : Params) : mersenne_twister_state := mk P (default_seed P)

/-- The value `z` of `scramble(x)` after its third step, `z = z xor (lshift<t>(z) bitand c)`,
before `z = z & max()`. -/
def scramble_third (P : Params) (x : Nat) : Nat :=
  let z := x
  let z := z ^^^ (rshift P P.u z &&& P.d)
  let z := z ^^^ (lshift P P.s z &&& P.b)
  let z := z ^^^ (lshift P P.t z &&& P.c)
  z

/-- The transform `scramble(x)` with the step `z = z & max()` left out. -/
def scramble_without_remask (P : Params) (x : Nat) : Nat :=
  let z := scramble_third P x
  z ^^^ rshift P P.l z

/-- The sum `c_{j*k} + c_{j*k+1} * 2^32 + ... + c_{j*k+k-1} * 2^(32*(k-1))` of `k` consecutive
chunks of the words `c` generated by a seed sequence, chunk 0 the least significant. -/
def chunk_sum (c : Nat → Nat) (j k : Nat) : Nat :=
  ((List.range k).map fun q => c (j * k + q) * 2 ^ (32 * q)).sum

/-! ## Array accesses with a bounds check

The operations once more, with every access to the array `X[state_size]` checked against
`state_size`: an operation returns `none` when it reads or writes at an index outside
`[0, n)`, and otherwise the result of the operation. -/

/-- The read `X[k]` of the array `X[state_size]`. -/
def read_checked (P : Params) (X : List Nat) (k : Nat) : Option Nat :=
  if k < P.n then some (X.getD k 0) else none

/-- The write `X[k] = v` to the array `X[state_size]`. -/
def write_checked (P : Params) (X : List Nat) (k v : Nat) : Option (List Nat) :=
  if k < P.n then some (X.set k v) else none

/-- One iteration of the loop of `transition_algorithm`, with checked accesses. -/
def transition_step_checked (P : Params) (X : List Nat) (i : Nat) : Option (List Nat) := do
  let x0 ← read_checked P X i
  let x1 ← read_checked P X ((i + 1) % P.n)
  let Y := (x0 &&& upper_bits_mask P) ||| (x1 &&& lower_bits_mask P)
  let alpha := (P.a * (Y &&& 1)) % 2 ^ P.bits
  let xm ← read_checked P X ((i + P.m) % P.n)
  write_checked P X i (xm ^^^ (Y >>> 1) ^^^ alpha)

/-- `transition_algorithm()`, with checked accesses. -/
def transition_algorithm_checked (P : Params) (X : List Nat) : Option (List Nat) :=
  (List.range P.n).foldlM (transition_step_checked P) X

/-- `operator()()`, with checked accesses. -/
def next_checked (P : Params) (st : mersenne_twister_state) :
    Option (Nat × mersenne_twister_state) := do
  let x ← read_checked P st.X st.i
  let z := scramble P x
  let i := st.i + 1
  if i = P.n then do
    let X ← transition_algorithm_checked P st.X
    pure (z, { X := X, i := 0 })
  else pure (z, { X := st.X, i := i })

/-- The loop of `discard`, with checked accesses. -/
def discard_loop_checked (P : Params) (X : List Nat) (z : Nat) : Option (List Nat × Nat) :=
  if _h : 0 < P.n ∧ z ≥ P.n then
    match transition_algorithm_checked P X with
    | none => none
    | some X => discard_loop_checked P X (z - P.n)
  else some (X, z)
termination_by z
decreasing_by omega

/-- `discard(z)`, with checked accesses. -/
def discard_checked (P : Params) (st : mersenne_twister_state) (z : Nat) :
    Option mersenne_twister_state := do
  let (X, z) ← discard_loop_checked P st.X z
  if z > (P.n - 1) - st.i then do
    let X ← transition_algorithm_checked P X
    let i := (st.i + 2 ^ P.size_bits - P.n) % 2 ^ P.size_bits
    pure { X := X, i := (i + z) % 2 ^ P.size_bits }
  else pure { X := X, i := st.i + z }

/-- The first part of `generate_multiple`, with checked accesses. -/
def generate_for_checked (P : Params) (X : List Nat) : Nat → Nat → Option (List Nat × Nat × Nat)
  | 0, i => some ([], i, 0)
  | count + 1, i =>
    if i < P.n - 1 then do
      let x ← read_checked P X i
      let r ← generate_for_checked P X count (i + 1)
      pure (scramble P x :: r.1, r.2.1, r.2.2)
    else some ([], i, count + 1)

/-- `generate_multiple(first, last)`, with checked accesses. -/
def generate_multiple_checked (P : Params) :
    Nat → mersenne_twister_state → Nat → Option (List Nat × mersenne_twister_state)
  | 0, st, _ => some ([], st)
  | fuel + 1, st, count => do
    match ← generate_for_checked P st.X count st.i with
    | (out, i, 0) => pure (out, { X := st.X, i := i })
    | (out, _, rest + 1) =>
      let x ← read_checked P st.X (P.n - 1)
      let z := scramble P x
      let X ← transition_algorithm_checked P st.X
      let r ← generate_multiple_checked P fuel { X := X, i := 0 } rest
      pure (out ++ z :: r.1, r.2)

/-- The bulk operation `operator()(first, last)`, with checked accesses. -/
def fill_checked (P : Params) (st : mersenne_twister_state) (count : Nat) :
    Option (List Nat × mersenne_twister_state) :=
  generate_multiple_checked P (count + 1) st count

/-- `peek(distance)`, with checked accesses. -/
def peek_checked (P : Params) (st : mersenne_twister_state) (distance : Nat) : Option Nat :=
  if distance ≠ 0 ∧ distance ≥ P.n - st.i then do
    let copy ← discard_checked P st (distance - 1)
    let x ← read_checked P copy.X copy.i
    pure (scramble P x)
  else do
    let x ← read_checked P st.X (st.i + distance)
    pure (scramble P x)

/-! ## Acceptance of a parameter set -/

/-- The value of the initialiser `(~result_type{0}) >> (result_type_bits - w)` of
`max_value`, in the type in which the expression is evaluated; `int_bits` is the width of
`int`.  The operand of `~` undergoes integral promotion: a native type narrower than `int`
becomes `int`, so that `~result_type{0}` is the `int` -1, which the arithmetic right shift
leaves at -1.  A native type at least as wide as `int` is promoted, if at all, to an
unsigned type of its own width, and the value is the one of `max_value`. -/
def max_value_initializer (int_bits : Nat) (P : Params) : Int :=
  if P.bits < int_bits then (-1 : Int) >>> (P.bits - P.w)
  else (((2 ^ P.bits - 1) >>> (P.bits - P.w) : Nat) : Int)

/-- The list-initialisation `result_type max_value{ ... }` is well-formed: converting the
constant initialiser to `result_type` is not a narrowing conversion, which is to say that
its value is a value of `result_type`. -/
def max_value_well_formed (int_bits : Nat) (P : Params) : Prop :=
  0 ≤ max_value_initializer int_bits P ∧ max_value_initializer int_bits P < 2 ^ P.bits

instance (int_bits : Nat) (P : Params) : Decidable (max_value_well_formed int_bits P) := by
  unfold max_value_well_formed
  infer_instance

/-- The class `mersenne_twister_engine<UIntType, w, n, ...>` can be instantiated: the
declaration of `max_value` is well-formed and every static assertion holds.  (The first
assertion, `static_cast<result_type>(-1) >= result_type{0}`, holds of every unsigned
type, and the initialisers of `default_seed` and of the two bit masks have values of
`result_type`.) -/
def accepted (int_bits : Nat) (P : Params) : Prop :=
  max_value_well_formed int_bits P ∧ static_asserts P

instance (int_bits : Nat) (P : Params) : Decidable (accepted int_bits P) := by
  unfold accepted
  infer_instance

/-- The conditions on a parameter set under which the specification has it accepted. -/
def parameters_consistent (P : Params) : Prop :=
  (0 < P.m ∧ P.m ≤ P.n) ∧ (3 ≤ P.w ∧ P.w ≤ P.bits) ∧ P.r ≤ P.w ∧
    (P.u ≤ P.w ∧ P.s ≤ P.w ∧ P.t ≤ P.w ∧ P.l ≤ P.w) ∧
    (P.a ≤ 2 ^ P.w - 1 ∧ P.b ≤ 2 ^ P.w - 1 ∧ P.c ≤ 2 ^ P.w - 1 ∧ P.d ≤ 2 ^ P.w - 1 ∧
      P.f ≤ 2 ^ P.w - 1)

instance (P : Params) : Decidable (parameters_consistent P) := by
  unfold parameters_consistent
  infer_instance

/-- An engine over `unsigned short` (16 bits, where `int` has 32): 16-bit words, `n = 4`,
`m = 2`, `r = 8`, and constants that fit in 16 bits. -/
def short_engine : Params :=
  { bits := 16, size_bits := 64, w := 16, n := 4, m := 2, r := 8, a := 0x9908, u := 5,
    d := 0xffff, s := 3, b := 0x9d2c, t := 7, c := 0xefc6, l := 9, f := 1 }

/-! # Theorems -/

/-! ## Word arithmetic -/

theorem max_value_eq (P : Params) (h : P.w ≤ P.bits) : max_value P = 2 ^ P.w - 1 := by
  unfold max_value
  rw [Nat.shiftRight_eq_div_pow]
  have hsplit : 2 ^ P.bits = 2 ^ P.w * 2 ^ (P.bits - P.w) := by
    rw [← Nat.pow_add]
    congr 1
    omega
  have hK : 0 < 2 ^ (P.bits - P.w) := Nat.two_pow_pos _
  have hW : 0 < 2 ^ P.w := Nat.two_pow_pos _
  rw [hsplit]
  apply Nat.div_eq_of_lt_le
  · have : (2 ^ P.w - 1) * 2 ^ (P.bits - P.w) = 2 ^ P.w * 2 ^ (P.bits - P.w) - 2 ^ (P.bits - P.w) := by
      rw [Nat.sub_mul, Nat.one_mul]
    omega
  · have : (2 ^ P.w - 1 + 1) * 2 ^ (P.bits - P.w) = 2 ^ P.w * 2 ^ (P.bits - P.w) := by
      congr 1
      omega
    have hpos : 0 < 2 ^ P.w * 2 ^ (P.bits - P.w) := Nat.mul_pos hW hK
    omega

theorem and_max_value (P : Params) (h : P.w ≤ P.bits) (x : Nat) :
    x &&& max_value P = x % 2 ^ P.w := by
  rw [max_value_eq P h, Nat.and_pow_two_sub_one_eq_mod]

theorem mod_bits_mod_w (P : Params) (h : P.w ≤ P.bits) (x : Nat) :
    (x % 2 ^ P.bits) % 2 ^ P.w = x % 2 ^ P.w :=
  Nat.mod_mod_of_dvd x (Nat.pow_dvd_pow 2 h)

theorem max_value_lt (P : Params) (h : P.w ≤ P.bits) : max_value P < 2 ^ P.w := by
  have hW : 0 < 2 ^ P.w := Nat.two_pow_pos _
  rw [max_value_eq P h]
  omega

theorem le_max_value_iff (P : Params) (h : P.w ≤ P.bits) (x : Nat) :
    x ≤ max_value P ↔ x < 2 ^ P.w := by
  have hW : 0 < 2 ^ P.w := Nat.two_pow_pos _
  rw [max_value_eq P h]
  omega



/-! ## The transition as a recurrence -/

theorem transition_step_eq (P : Params) (X : List Nat) (i : Nat) :
    transition_step P X i = X.set i (twist_word P (X.getD i 0) (X.getD ((i + 1) % P.n) 0)
      (X.getD ((i + P.m) % P.n) 0)) := rfl

theorem getD_set (X : List Nat) (i j v : Nat) (hi : i < X.length) :
    (X.set i v).getD j 0 = if j = i then v else X.getD j 0 := by
  simp only [List.getD_eq_getElem?_getD, List.getElem?_set]
  by_cases h : i = j
  · subst h
    simp [hi]
  · have h' : ¬ j = i := fun e => h e.symm
    simp [h, h']

/-- Loop invariant of the transition: after `k` iterations the first `k` words hold the next
block of the recurrence `e` and the others are untouched. -/
theorem transition_prefix (P : Params) (hn : 2 ≤ P.n) (hm : P.m ≤ P.n) (e : Nat → Nat)
    (he : ∀ p, p < P.n → e (P.n + p) = twist_word P (e p) (e (p + 1)) (e (p + P.m % P.n)))
    (X : List Nat) (hlen : X.length = P.n) (hX : ∀ p, p < P.n → X.getD p 0 = e p) :
    ∀ k, k ≤ P.n →
      ((List.range k).foldl (transition_step P) X).length = P.n ∧
      ∀ p, p < P.n → ((List.range k).foldl (transition_step P) X).getD p 0 =
        if p < k then e (P.n + p) else e p := by
  intro k
  induction k with
  | zero =>
    intro _
    refine ⟨by simpa using hlen, fun p hp => ?_⟩
    simpa using hX p hp
  | succ k ih =>
    intro hk
    obtain ⟨hl, hg⟩ := ih (by omega)
    rw [List.range_succ, List.foldl_append]
    simp only [List.foldl_cons, List.foldl_nil]
    set Xk := (List.range k).foldl (transition_step P) X with hXk
    rw [transition_step_eq]
    refine ⟨by simpa using hl, fun p hp => ?_⟩
    rw [getD_set _ _ _ _ (by omega)]
    by_cases hpk : p = k
    · subst hpk
      rw [if_pos rfl, if_pos (by omega), he p hp]
      have h0 : Xk.getD p 0 = e p := by
        rw [hg p hp, if_neg (by omega)]
      have h1 : Xk.getD ((p + 1) % P.n) 0 = e (p + 1) := by
        by_cases hq : p + 1 < P.n
        · rw [Nat.mod_eq_of_lt hq, hg _ hq, if_neg (by omega)]
        · have hq' : p + 1 = P.n := by omega
          rw [hq', Nat.mod_self, hg 0 (by omega), if_pos (by omega)]
          rfl
      have h2 : Xk.getD ((p + P.m) % P.n) 0 = e (p + P.m % P.n) := by
        by_cases hq : P.m = P.n
        · rw [hq, Nat.add_mod_right, Nat.mod_eq_of_lt hp, Nat.mod_self, hg p hp,
            if_neg (by omega)]
          rfl
        · have hmlt : P.m < P.n := by omega
          rw [Nat.mod_eq_of_lt hmlt]
          by_cases hq2 : p + P.m < P.n
          · rw [Nat.mod_eq_of_lt hq2, hg _ hq2, if_neg (by omega)]
          · have hsub : (p + P.m) % P.n = p + P.m - P.n := by
              rw [Nat.mod_eq_sub_mod (by omega), Nat.mod_eq_of_lt (by omega)]
            rw [hsub, hg _ (by omega), if_pos (by omega)]
            congr 1
            omega
      rw [h0, h1, h2]
    · rw [if_neg hpk, hg p hp]
      by_cases hlt : p < k
      · rw [if_pos hlt, if_pos (by omega)]
      · rw [if_neg hlt, if_neg (by omega)]

/-- The transition replaces a block of the recurrence `e` by the next block. -/
theorem transition_block (P : Params) (hn : 2 ≤ P.n) (hm : P.m ≤ P.n) (e : Nat → Nat)
    (he : ∀ p, p < P.n → e (P.n + p) = twist_word P (e p) (e (p + 1)) (e (p + P.m % P.n)))
    (X : List Nat) (hlen : X.length = P.n) (hX : ∀ p, p < P.n → X.getD p 0 = e p) :
    (transition_algorithm P X).length = P.n ∧
      ∀ p, p < P.n → (transition_algorithm P X).getD p 0 = e (P.n + p) := by
  obtain ⟨hl, hg⟩ := transition_prefix P hn hm e he X hlen hX P.n (le_refl _)
  refine ⟨hl, fun p hp => ?_⟩
  have := hg p hp
  rw [if_pos hp] at this
  exact this
/-! ## Sequential generation and discard in closed form -/

theorem div_mod_succ (n s : Nat) (hn : 0 < n) :
    ((s + 1) / n = if s % n + 1 = n then s / n + 1 else s / n) ∧
    ((s + 1) % n = if s % n + 1 = n then 0 else s % n + 1) := by
  have hdm := Nat.div_add_mod s n
  have hlt := Nat.mod_lt s hn
  by_cases h : s % n + 1 = n
  · rw [if_pos h, if_pos h]
    apply (Nat.div_mod_unique hn).2
    refine ⟨?_, hn⟩
    rw [Nat.mul_add]
    omega
  · rw [if_neg h, if_neg h]
    apply (Nat.div_mod_unique hn).2
    refine ⟨?_, by omega⟩
    omega

theorem advance_succ (P : Params) (k : Nat) (st : mersenne_twister_state) :
    advance P (k + 1) st = (next P (advance P k st)).2 := by
  unfold advance
  rw [Function.iterate_succ_apply']

/-- The state after `k` calls of `operator()()`: one transition for each wrap of the cursor. -/
theorem advance_eq (P : Params) (hn : 0 < P.n) (st : mersenne_twister_state)
    (hi : st.i < P.n) (k : Nat) :
    advance P k st =
      { X := (transition_algorithm P)^[(st.i + k) / P.n] st.X, i := (st.i + k) % P.n } := by
  induction k with
  | zero =>
    simp [advance, Nat.div_eq_of_lt hi, Nat.mod_eq_of_lt hi]
  | succ k ih =>
    rw [advance_succ, ih]
    obtain ⟨hd, hmod⟩ := div_mod_succ P.n (st.i + k) hn
    rw [← Nat.add_assoc, hd, hmod]
    unfold next
    by_cases h : (st.i + k) % P.n + 1 = P.n
    · simp only [h, if_true]
      rw [Function.iterate_succ_apply']
    · simp only [h, if_false]

theorem discard_loop_eq (P : Params) (hn : 0 < P.n) (z : Nat) :
    ∀ X, discard_loop P X z = ((transition_algorithm P)^[z / P.n] X, z % P.n) := by
  induction z using Nat.strong_induction_on with
  | _ z ih =>
    intro X
    rw [discard_loop]
    by_cases h : z ≥ P.n
    · rw [dif_pos ⟨hn, h⟩, ih (z - P.n) (by omega)]
      have h1 : z / P.n = (z - P.n) / P.n + 1 := by
        rw [Nat.div_eq_sub_div hn h]
      have h2 : z % P.n = (z - P.n) % P.n := Nat.mod_eq_sub_mod h
      rw [h1, h2, Function.iterate_succ_apply]
    · rw [dif_neg (by omega)]
      have hlt : z < P.n := by omega
      rw [Nat.div_eq_of_lt hlt, Nat.mod_eq_of_lt hlt]
      rfl

theorem size_wrap (T n i z : Nat) (hT : n ≤ T) (hi : i < n) (hz : z < n) (h : n ≤ i + z) :
    ((i + T - n) % T + z) % T = i + z - n := by
  have h1 : (i + T - n) % T = i + T - n := Nat.mod_eq_of_lt (by omega)
  rw [h1]
  have h2 : i + T - n + z = (i + z - n) + T := by omega
  rw [h2, Nat.add_mod_right]
  exact Nat.mod_eq_of_lt (by omega)

/-- `discard(z)` leaves the state of `z` calls of `operator()()`. -/
theorem discard_eq_advance (P : Params) (hn : 0 < P.n) (hsz : P.n < 2 ^ P.size_bits)
    (st : mersenne_twister_state) (hi : st.i < P.n) (z : Nat) :
    discard P st z = advance P z st := by
  rw [advance_eq P hn st hi z]
  unfold discard
  rw [discard_loop_eq P hn z]
  have hzlt := Nat.mod_lt z hn
  have hdm := Nat.div_add_mod z P.n
  simp only
  by_cases h : z % P.n > P.n - 1 - st.i
  · rw [if_pos h, size_wrap _ _ _ _ (le_of_lt hsz) hi hzlt (by omega)]
    have : (st.i + z) / P.n = z / P.n + 1 ∧ (st.i + z) % P.n = st.i + z % P.n - P.n := by
      apply (Nat.div_mod_unique hn).2
      refine ⟨?_, by omega⟩
      rw [Nat.mul_add]
      omega
    rw [this.1, this.2, Function.iterate_succ_apply']
  · rw [if_neg h]
    have : (st.i + z) / P.n = z / P.n ∧ (st.i + z) % P.n = st.i + z % P.n := by
      apply (Nat.div_mod_unique hn).2
      refine ⟨?_, by omega⟩
      omega
    rw [this.1, this.2]

/-! ## Masks and the feedback word -/

theorem reference_upper_mask_eq (P : Params) :
    reference_upper_mask P = ((2 ^ P.w - 1) <<< P.r) % 2 ^ P.w := by
  unfold reference_upper_mask
  rw [Nat.and_pow_two_sub_one_eq_mod]

theorem upper_bits_mask_eq (P : Params) (h : P.w ≤ P.bits) :
    upper_bits_mask P = reference_upper_mask P := by
  rw [reference_upper_mask_eq]
  unfold upper_bits_mask lshift
  by_cases hr : P.r ≥ P.w
  · rw [if_pos hr, Nat.zero_and, Nat.shiftLeft_eq]
    symm
    apply Nat.mod_eq_zero_of_dvd
    exact Dvd.dvd.mul_left (Nat.pow_dvd_pow 2 hr) _
  · rw [if_neg hr, and_max_value P h, mod_bits_mod_w P h, max_value_eq P h]

theorem lower_bits_mask_eq (P : Params) (h : P.w ≤ P.bits) :
    lower_bits_mask P = reference_lower_mask P := by
  unfold lower_bits_mask reference_lower_mask
  rw [upper_bits_mask_eq P h, max_value_eq P h]

theorem feedback_eq (P : Params) (h : P.w ≤ P.bits) (ha : P.a ≤ max_value P) (Y : Nat) :
    (P.a * (Y &&& 1)) % 2 ^ P.bits = if Y % 2 = 1 then P.a else 0 := by
  have hlt : P.a < 2 ^ P.bits :=
    lt_of_lt_of_le ((le_max_value_iff P h _).1 ha) (Nat.pow_le_pow_right (by decide) h)
  rw [Nat.and_one_is_mod]
  by_cases hY : Y % 2 = 1
  · rw [if_pos hY, hY, Nat.mul_one, Nat.mod_eq_of_lt hlt]
  · have : Y % 2 = 0 := by omega
    rw [if_neg hY, this, Nat.mul_zero, Nat.zero_mod]

/-- The word written by the transition loop, in the words of the canonical recurrence. -/
theorem twist_word_eq (P : Params) (h : P.w ≤ P.bits) (ha : P.a ≤ max_value P)
    (x0 x1 xm : Nat) :
    twist_word P x0 x1 xm =
      xm ^^^ (((x0 &&& reference_upper_mask P) ||| (x1 &&& reference_lower_mask P)) >>> 1) ^^^
        (if ((x0 &&& reference_upper_mask P) ||| (x1 &&& reference_lower_mask P)) % 2 = 1
          then P.a else 0) := by
  unfold twist_word
  rw [feedback_eq P h ha, upper_bits_mask_eq P h, lower_bits_mask_eq P h]

/-! ## Scalar seeding -/

/-- The word that `seed` stores at index `j`, given the word stored at index `j - 1`. -/
theorem seed_word_eq (P : Params) (h : P.w ≤ P.bits) (x j : Nat) :
    ((P.f * (x ^^^ (x >>> (P.w - 2))) + j) % 2 ^ P.bits) &&& max_value P =
      (P.f * (x ^^^ (x >>> (P.w - 2))) + j) % 2 ^ P.w := by
  rw [and_max_value P h, mod_bits_mod_w P h]

/-- Loop invariant of the seeding loop: after `k` iterations the words `0 .. k` are those of
the sequence `y`. -/
theorem seed_prefix (P : Params) (h : P.w ≤ P.bits) (y : Nat → Nat)
    (hy : ∀ j, 0 < j → j < P.n → y j = (P.f * (y (j - 1) ^^^ (y (j - 1) >>> (P.w - 2))) + j) % 2 ^ P.w)
    (X : List Nat) (hlen : X.length = P.n) (h0 : X.getD 0 0 = y 0) :
    ∀ k, k + 1 ≤ P.n →
      ((List.range' 1 k).foldl (seed_step P) X).length = P.n ∧
      ∀ p, p ≤ k → ((List.range' 1 k).foldl (seed_step P) X).getD p 0 = y p := by
  intro k
  induction k with
  | zero =>
    intro _
    refine ⟨by simpa using hlen, fun p hp => ?_⟩
    have : p = 0 := by omega
    subst this
    simpa using h0
  | succ k ih =>
    intro hk
    obtain ⟨hl, hg⟩ := ih (by omega)
    rw [List.range'_1_concat, List.foldl_append]
    simp only [List.foldl_cons, List.foldl_nil]
    set Xk := (List.range' 1 k).foldl (seed_step P) X with hXk
    unfold seed_step
    refine ⟨by simpa using hl, fun p hp => ?_⟩
    rw [getD_set _ _ _ _ (by omega)]
    by_cases hpk : p = 1 + k
    · rw [if_pos hpk, seed_word_eq P h, hpk, hy (1 + k) (by omega) (by omega)]
      have : 1 + k - 1 = k := by omega
      rw [this, hg k (le_refl _)]
    · rw [if_neg hpk]
      exact hg p (by omega)

theorem seed_eq (P : Params) (st : mersenne_twister_state) (value : Nat) :
    seed P st value = { X := transition_algorithm P (seed_words P st value), i := 0 } := rfl

theorem seed_words_spec (P : Params) (h : P.w ≤ P.bits) (hn : 0 < P.n) (y : Nat → Nat)
    (value : Nat) (hy0 : y 0 = value % 2 ^ P.w)
    (hy : ∀ j, 0 < j → j < P.n → y j = (P.f * (y (j - 1) ^^^ (y (j - 1) >>> (P.w - 2))) + j) % 2 ^ P.w)
    (st : mersenne_twister_state) (hlen : st.X.length = P.n) :
    (seed_words P st value).length = P.n ∧
      ∀ p, p < P.n → (seed_words P st value).getD p 0 = y p := by
  have h0 : (st.X.set 0 (value &&& max_value P)).getD 0 0 = y 0 := by
    rw [getD_set _ _ _ _ (by omega), if_pos rfl, and_max_value P h, hy0]
  obtain ⟨hl, hg⟩ := seed_prefix P h y hy (st.X.set 0 (value &&& max_value P))
    (by simpa using hlen) h0 (P.n - 1) (by omega)
  exact ⟨hl, fun p hp => hg p (by omega)⟩

/-! ## Reference equivalence -/

theorem next_fst (P : Params) (st : mersenne_twister_state) :
    (next P st).1 = scramble P (st.X.getD st.i 0) := by
  unfold next
  simp only
  split <;> rfl

theorem reference_sequence_zero (P : Params) (v : Nat) :
    reference_sequence P v 0 = v % 2 ^ P.w := by
  rw [reference_sequence]
  simp

theorem reference_sequence_seed (P : Params) (v j : Nat) (h0 : 0 < j) (hj : j < P.n) :
    reference_sequence P v j =
      (P.f * (reference_sequence P v (j - 1) ^^^ (reference_sequence P v (j - 1) >>> (P.w - 2)))
        + j) % 2 ^ P.w := by
  rw [reference_sequence]
  rw [dif_neg (by omega), dif_pos hj]

theorem reference_sequence_twist (P : Params) (hn : 2 ≤ P.n) (v j : Nat) :
    reference_sequence P v (P.n + j) =
      reference_sequence P v (j + P.m % P.n) ^^^
        (((reference_sequence P v j &&& reference_upper_mask P) |||
          (reference_sequence P v (j + 1) &&& reference_lower_mask P)) >>> 1) ^^^
        (if ((reference_sequence P v j &&& reference_upper_mask P) |||
          (reference_sequence P v (j + 1) &&& reference_lower_mask P)) % 2 = 1 then P.a else 0) := by
  rw [reference_sequence]
  rw [dif_neg (by omega), dif_neg (by omega), dif_pos hn]
  have : P.n + j - P.n = j := by omega
  simp only [this]

/-- After `q` transitions the words seeded from `v` are the block `q` of the recurrence. -/
theorem seeded_blocks (P : Params) (hv : Valid P) (hn : 2 ≤ P.n) (v : Nat)
    (st : mersenne_twister_state) (hlen : st.X.length = P.n) (q : Nat) :
    ((transition_algorithm P)^[q] (seed_words P st v)).length = P.n ∧
      ∀ p, p < P.n → ((transition_algorithm P)^[q] (seed_words P st v)).getD p 0 =
        reference_sequence P v (q * P.n + p) := by
  obtain ⟨-, hw, -, hm, -, -, -, -, -, -, ha, -, -, -, -⟩ := hv
  induction q with
  | zero =>
    have := seed_words_spec P hw (by omega) (reference_sequence P v) v
      (reference_sequence_zero P v) (fun j h0 hj => reference_sequence_seed P v j h0 hj) st hlen
    simpa using this
  | succ q ih =>
    obtain ⟨hl, hg⟩ := ih
    rw [Function.iterate_succ_apply']
    have key := transition_block P hn hm (fun p => reference_sequence P v (q * P.n + p))
      (fun p _ => by
        simp only
        rw [twist_word_eq P hw ha]
        have e1 : q * P.n + (P.n + p) = P.n + (q * P.n + p) := by omega
        rw [e1, reference_sequence_twist P hn]
        simp only [Nat.add_assoc])
      _ hl hg
    refine ⟨key.1, fun p hp => ?_⟩
    rw [key.2 p hp]
    have e2 : (q + 1) * P.n + p = q * P.n + (P.n + p) := by
      rw [Nat.add_mul]
      omega
    rw [e2]

/-- The `(k+1)`-th value of the engine constructed from the seed `v` is the tempered word
`x_{n+k}` of the canonical recurrence. -/
theorem next_advance_mk (P : Params) (hv : Valid P) (hn : 2 ≤ P.n) (v k : Nat) :
    (next P (advance P k (mk P v))).1 = scramble P (reference_sequence P v (P.n + k)) := by
  have hpos : 0 < P.n := by omega
  rw [next_fst, mk, seed_eq, advance_eq P hpos _ (by simpa using hpos)]
  simp only [Nat.zero_add]
  rw [← Function.iterate_succ_apply]
  have hb := seeded_blocks P hv hn v { X := List.replicate P.n 0, i := 0 } (by simp)
    (k / P.n + 1)
  rw [hb.2 _ (Nat.mod_lt k hpos)]
  congr 2
  have := Nat.div_add_mod k P.n
  rw [Nat.add_mul, Nat.mul_comm (k / P.n) P.n]
  omega

/-! ## Correctness of the sliding-window evaluation -/

theorem force_nat_eq {α : Type} (v : Nat) (k : Nat → α) : force_nat v k = k v := by
  cases v <;> rfl

theorem force_list_eq {α : Type} (l : List Nat) : ∀ k : List Nat → α, force_list l k = k l := by
  induction l with
  | nil => intro k; rfl
  | cons x xs ih =>
    intro k
    rw [force_list, force_nat_eq, ih]

theorem ext_getD (l1 l2 : List Nat) (hlen : l1.length = l2.length)
    (h : ∀ p, p < l1.length → l1.getD p 0 = l2.getD p 0) : l1 = l2 := by
  apply List.ext_getElem hlen
  intro p h1 h2
  have := h p h1
  simpa [List.getD_eq_getElem?_getD, h1, h2] using this

theorem getD_map_range' (f : Nat → Nat) (j n p : Nat) (hp : p < n) :
    ((List.range' j n).map f).getD p 0 = f (j + p) := by
  simp [List.getD_eq_getElem?_getD, hp]

theorem getD_drop (l : List Nat) (c p : Nat) : (l.drop c).getD p 0 = l.getD (c + p) 0 := by
  simp [List.getD_eq_getElem?_getD]

theorem getD_tail (l : List Nat) (p : Nat) : l.tail.getD p 0 = l.getD (p + 1) 0 := by
  cases l <;> simp [List.getD_eq_getElem?_getD]

theorem twist_zip_length (P : Params) :
    ∀ l0 l1 lm : List Nat,
      (twist_zip P l0 l1 lm).length = min l0.length (min l1.length lm.length) := by
  intro l0
  induction l0 with
  | nil => intro l1 lm; simp [twist_zip]
  | cons x0 l0 ih =>
    intro l1 lm
    cases l1 with
    | nil => simp [twist_zip]
    | cons x1 l1 =>
      cases lm with
      | nil => simp [twist_zip]
      | cons xm lm =>
        simp only [twist_zip, List.length_cons, ih]
        omega

theorem twist_zip_getD (P : Params) :
    ∀ (l0 l1 lm : List Nat) (p : Nat), p < (twist_zip P l0 l1 lm).length →
      (twist_zip P l0 l1 lm).getD p 0 =
        twist_word P (l0.getD p 0) (l1.getD p 0) (lm.getD p 0) := by
  intro l0
  induction l0 with
  | nil => intro l1 lm p hp; simp [twist_zip] at hp
  | cons x0 l0 ih =>
    intro l1 lm p hp
    cases l1 with
    | nil => simp [twist_zip] at hp
    | cons x1 l1 =>
      cases lm with
      | nil => simp [twist_zip] at hp
      | cons xm lm =>
        cases p with
        | zero => simp [twist_zip]
        | succ p =>
          simp only [twist_zip, List.getD_cons_succ]
          apply ih
          simpa [twist_zip] using hp

theorem eval_seed_go_eq (P : Params) (v : Nat) :
    ∀ fuel j, j + fuel ≤ P.n →
      eval_seed_go P fuel j (reference_sequence P v j) =
        (List.range' j fuel).map (reference_sequence P v) := by
  intro fuel
  induction fuel with
  | zero => intro j _; rfl
  | succ fuel ih =>
    intro j hj
    rw [eval_seed_go, force_nat_eq, List.range'_succ, List.map_cons]
    congr 1
    by_cases hf : fuel = 0
    · subst hf
      rfl
    · have hs := reference_sequence_seed P v (j + 1) (by omega) (by omega)
      rw [Nat.add_sub_cancel] at hs
      rw [← hs]
      exact ih (j + 1) (by omega)

theorem eval_seed_eq (P : Params) (v : Nat) :
    eval_seed P v = (List.range' 0 P.n).map (reference_sequence P v) := by
  unfold eval_seed
  rw [← reference_sequence_zero P v]
  exact eval_seed_go_eq P v P.n 0 (by omega)

/-- Sliding the window that starts at `x_j` gives the window that starts at `x_{j+n-m}`. -/
theorem eval_window_eq (P : Params) (hv : Valid P) (hmn : P.m < P.n) (v j : Nat) :
    eval_window P ((List.range' j P.n).map (reference_sequence P v)) =
      (List.range' (j + (P.n - P.m)) P.n).map (reference_sequence P v) := by
  obtain ⟨-, hw, hm0, -, -, -, -, -, -, -, ha, -, -, -, -⟩ := hv
  unfold eval_window
  rw [force_list_eq]
  set W := (List.range' j P.n).map (reference_sequence P v) with hW
  have hWlen : W.length = P.n := by simp [hW]
  have hWget : ∀ p, p < P.n → W.getD p 0 = reference_sequence P v (j + p) :=
    fun p hp => getD_map_range' _ j P.n p hp
  have hzlen : (twist_zip P W W.tail (W.drop P.m)).length = P.n - P.m := by
    rw [twist_zip_length]
    simp only [List.length_tail, List.length_drop, hWlen]
    omega
  apply ext_getD
  · simp only [List.length_append, List.length_drop, hzlen, hWlen, List.length_map,
      List.length_range']
    omega
  · intro p hp
    simp only [List.length_append, List.length_drop, hzlen, hWlen] at hp
    have hpn : p < P.n := by omega
    rw [getD_map_range' _ _ _ _ hpn]
    by_cases hpm : p < P.m
    · rw [List.getD_append _ _ _ _ (by simp only [List.length_drop, hWlen]; omega),
        getD_drop, hWget _ (by omega)]
      congr 1
      omega
    · rw [List.getD_append_right _ _ _ _ (by simp only [List.length_drop, hWlen]; omega)]
      simp only [List.length_drop, hWlen]
      have hq : p - (P.n - (P.n - P.m)) = p - P.m := by omega
      rw [hq, twist_zip_getD P _ _ _ _ (by rw [hzlen]; omega), getD_tail, getD_drop,
        hWget _ (by omega), hWget _ (by omega), hWget _ (by omega), twist_word_eq P hw ha]
      have e1 : j + (P.n - P.m) + p = P.n + (j + (p - P.m)) := by omega
      rw [e1, reference_sequence_twist P (by omega), Nat.mod_eq_of_lt hmn]
      have e2 : j + (P.m + (p - P.m)) = j + (p - P.m) + P.m := by omega
      have e3 : j + (p - P.m + 1) = j + (p - P.m) + 1 := by omega
      rw [e2, e3]

theorem eval_window_iterate (P : Params) (hv : Valid P) (hmn : P.m < P.n) (v t : Nat) :
    (eval_window P)^[t] (eval_seed P v) =
      (List.range' (t * (P.n - P.m)) P.n).map (reference_sequence P v) := by
  induction t with
  | zero => simpa using eval_seed_eq P v
  | succ t ih =>
    rw [Function.iterate_succ_apply', ih, eval_window_eq P hv hmn, Nat.add_mul, Nat.one_mul]

/-- The sliding-window evaluation computes the canonical recurrence. -/
theorem eval_word_eq (P : Params) (hv : Valid P) (hmn : P.m < P.n) (v j : Nat)
    (hj : P.n ≤ j) : eval_word P v j = reference_sequence P v j := by
  unfold eval_word
  rw [eval_window_iterate P hv hmn]
  have hc : 0 < P.n - P.m := by omega
  have h1 := Nat.div_mul_le_self (j - P.m) (P.n - P.m)
  have h2 := Nat.lt_div_mul_add (a := j - P.m) hc
  rw [getD_map_range' _ _ _ _ (by omega)]
  congr 1
  omega

/-! ## The standard engines -/

theorem mk_i (P : Params) (v : Nat) : (mk P v).i = 0 := rfl

set_option maxRecDepth 1000000 in
theorem mt19937_word_10623 : eval_word mt19937 5489 10623 = 2030110473 := by decide!

set_option maxRecDepth 1000000 in
theorem mt19937_64_word_10311 : eval_word mt19937_64 5489 10311 = 10889874523300813204 := by
  decide!

theorem mt19937_valid : Valid mt19937 := by decide

theorem mt19937_64_valid : Valid mt19937_64 := by decide

/-- The value that `operator()()` returns after `discard(9999)` on `mt19937(5489)`. -/
theorem mt19937_after_discard :
    (next mt19937 (discard mt19937 (mk mt19937 5489) 9999)).1 = 4123659995 := by
  rw [discard_eq_advance mt19937 (by decide) (by decide) _ (by rw [mk_i]; decide),
    next_advance_mk mt19937 mt19937_valid (by decide)]
  show scramble mt19937 (reference_sequence mt19937 5489 10623) = 4123659995
  rw [← eval_word_eq mt19937 mt19937_valid (by decide) 5489 10623 (by decide),
    mt19937_word_10623]
  decide

/-- The value that `operator()()` returns after `discard(9999)` on `mt19937_64(5489)`. -/
theorem mt19937_64_after_discard :
    (next mt19937_64 (discard mt19937_64 (mk mt19937_64 5489) 9999)).1 =
      9981545732273789042 := by
  rw [discard_eq_advance mt19937_64 (by decide) (by decide) _ (by rw [mk_i]; decide),
    next_advance_mk mt19937_64 mt19937_64_valid (by decide)]
  show scramble mt19937_64 (reference_sequence mt19937_64 5489 10311) = 9981545732273789042
  rw [← eval_word_eq mt19937_64 mt19937_64_valid (by decide) 5489 10311 (by decide),
    mt19937_64_word_10311]
  decide

/-- C1. For the standard 32-bit parameterization `mt19937` constructed from the scalar seed
5489, `discard(9999)` followed by `operator()()` returns 4123659995: the 10000th generated
value is 4123659995. -/
theorem mt19937_10000th_value :
    (next mt19937 (discard mt19937 (mk mt19937 5489) 9999)).1 = 4123659995 ∧
    (next mt19937 (advance mt19937 9999 (mk mt19937 5489))).1 = 4123659995 := by
  refine ⟨mt19937_after_discard, ?_⟩
  rw [← discard_eq_advance mt19937 (by decide) (by decide) _ (by rw [mk_i]; decide)]
  exact mt19937_after_discard

/-- C2. For the standard 64-bit parameterization `mt19937_64` constructed from the scalar
seed 5489, `discard(9999)` followed by `operator()()` returns 9981545732273789042: the
10000th generated value is 9981545732273789042. -/
theorem mt19937_64_10000th_value :
    (next mt19937_64 (discard mt19937_64 (mk mt19937_64 5489) 9999)).1 =
      9981545732273789042 ∧
    (next mt19937_64 (advance mt19937_64 9999 (mk mt19937_64 5489))).1 =
      9981545732273789042 := by
  refine ⟨mt19937_64_after_discard, ?_⟩
  rw [← discard_eq_advance mt19937_64 (by decide) (by decide) _ (by rw [mk_i]; decide)]
  exact mt19937_64_after_discard

/-- C3. Reference equivalence: for every valid parameter set with `n ≥ 2` and every seed `v`,
the `(k+1)`-th call of `operator()()` on the engine constructed from `v` returns the tempered
word `x_{n+k}` of the canonical linear recurrence; the in-place, lazily run transition is
not observable in the output. -/
theorem reference_equivalence (P : Params) (hv : Valid P) (hn : 2 ≤ P.n) (v k : Nat) :
    (next P (advance P k (mk P v))).1 = scramble P (reference_sequence P v (P.n + k)) :=
  next_advance_mk P hv hn v k

theorem reference_equivalence_witness :
    Valid test_engine ∧ 2 ≤ test_engine.n ∧
      (next test_engine (advance test_engine 40 (mk test_engine 1))).1 =
        scramble test_engine (reference_sequence test_engine 1 (test_engine.n + 40)) :=
  ⟨by decide, by decide, reference_equivalence test_engine (by decide) (by decide) 1 40⟩

/-! ## Successive calls, discard and the bulk operation -/

theorem advance_next (P : Params) (k : Nat) (st : mersenne_twister_state) :
    advance P k (next P st).2 = advance P (k + 1) st := by
  unfold advance
  rw [Function.iterate_succ_apply]

theorem next_many_snd (P : Params) :
    ∀ (k : Nat) (st : mersenne_twister_state), (next_many P k st).2 = advance P k st := by
  intro k
  induction k with
  | zero => intro st; rfl
  | succ k ih =>
    intro st
    rw [next_many]
    simp only
    rw [ih, advance_next]

theorem next_many_fst (P : Params) :
    ∀ (k : Nat) (st : mersenne_twister_state),
      (next_many P k st).1 = (List.range k).map fun j => (next P (advance P j st)).1 := by
  intro k
  induction k with
  | zero => intro st; rfl
  | succ k ih =>
    intro st
    rw [next_many]
    simp only
    rw [ih, List.range_succ_eq_map, List.map_cons, List.map_map]
    congr 1

theorem next_many_length (P : Params) (k : Nat) (st : mersenne_twister_state) :
    (next_many P k st).1.length = k := by
  rw [next_many_fst]
  simp

theorem next_many_getLast (P : Params) (k : Nat) (st : mersenne_twister_state) :
    (next_many P (k + 1) st).1.getLast? = some (next P (advance P k st)).1 := by
  rw [next_many_fst, List.range_succ, List.map_append]
  simp

theorem next_many_add (P : Params) :
    ∀ (a b : Nat) (st : mersenne_twister_state),
      next_many P (a + b) st =
        ((next_many P a st).1 ++ (next_many P b (next_many P a st).2).1,
          (next_many P b (next_many P a st).2).2) := by
  intro a
  induction a with
  | zero => intro b st; simp [next_many]
  | succ a ih =>
    intro b st
    have e : a + 1 + b = (a + b) + 1 := by omega
    rw [e, next_many, next_many]
    simp only
    rw [ih]
    simp

theorem next_of_lt (P : Params) (X : List Nat) (i : Nat) (h : i + 1 ≠ P.n) :
    next P { X := X, i := i } = (scramble P (X.getD i 0), { X := X, i := i + 1 }) := by
  unfold next
  simp only [if_neg h]

theorem next_of_last (P : Params) (X : List Nat) (i : Nat) (h : i + 1 = P.n) :
    next P { X := X, i := i } =
      (scramble P (X.getD i 0), { X := transition_algorithm P X, i := 0 }) := by
  unfold next
  simp only [if_pos h]

/-- The loop `for (; i < state_size-1u;)` writes what successive calls return, and is left
with slots to fill only when the cursor stands on the last word. -/
theorem generate_for_spec (P : Params) (X : List Nat) :
    ∀ (count i : Nat), i < P.n →
      (generate_for P X count i).2.2 ≤ count ∧
      next_many P (count - (generate_for P X count i).2.2) { X := X, i := i } =
        ((generate_for P X count i).1, { X := X, i := (generate_for P X count i).2.1 }) ∧
      ((generate_for P X count i).2.2 ≠ 0 → (generate_for P X count i).2.1 + 1 = P.n) := by
  intro count
  induction count with
  | zero =>
    intro i _
    simp [generate_for, next_many]
  | succ count ih =>
    intro i hi
    rw [generate_for]
    by_cases h : i < P.n - 1
    · rw [if_pos h]
      obtain ⟨h1, h2, h3⟩ := ih (i + 1) (by omega)
      refine ⟨by simp only; omega, ?_, by simpa using h3⟩
      simp only
      have e : count + 1 - (generate_for P X count (i + 1)).2.2 =
          (count - (generate_for P X count (i + 1)).2.2) + 1 := by omega
      rw [e, next_many, next_of_lt P X i (by omega)]
      simp only
      rw [h2]
    · rw [if_neg h]
      refine ⟨le_refl _, ?_, fun _ => by simp only; omega⟩
      simp [next_many]

/-- The bulk operation agrees with successive calls of `operator()()`, whatever fuel above
the number of slots it is given. -/
theorem generate_multiple_spec (P : Params) :
    ∀ (fuel count : Nat) (st : mersenne_twister_state), st.i < P.n → count < fuel →
      generate_multiple P fuel st count = next_many P count st := by
  intro fuel
  induction fuel with
  | zero => intro count st _ h; omega
  | succ fuel ih =>
    intro count st hi hc
    obtain ⟨h1, h2, h3⟩ := generate_for_spec P st.X count st.i hi
    rw [generate_multiple]
    rcases hg : generate_for P st.X count st.i with ⟨out, i', rest⟩
    rw [hg] at h1 h2 h3
    simp only at h1 h2 h3
    cases rest with
    | zero =>
      simp only
      rw [← h2]
      rfl
    | succ rest =>
      simp only
      have hlast := h3 (by omega)
      have e : count = (count - (rest + 1)) + (1 + rest) := by omega
      have hpos : 0 < P.n := by omega
      have hi' : P.n - 1 = i' := by omega
      rw [ih rest _ hpos (by omega)]
      conv_rhs => rw [e, next_many_add, h2, next_many_add]
      simp only [next_many, next_of_last P st.X i' hlast, hi']
      simp

/-- C4. Discard/next equivalence: for every valid parameter set, every engine whose cursor
is below `n` (in particular every engine that satisfies the state invariant) and every
`k`, the value returned by `operator()()` after `discard(k)` equals the value returned by
the last of `k + 1` successive calls of `operator()()` from the same state. -/
theorem discard_next_equivalence (P : Params) (hv : Valid P) (st : mersenne_twister_state)
    (hi : st.i < P.n) (k : Nat) :
    (next_many P (k + 1) st).1.getLast? = some (next P (discard P st k)).1 := by
  rw [next_many_getLast, discard_eq_advance P (by omega) hv.1 st hi]

theorem discard_next_equivalence_witness :
    Valid test_engine ∧ (advance test_engine 5 (mk test_engine 1)).i < test_engine.n ∧
      (next_many test_engine (40 + 1) (advance test_engine 5 (mk test_engine 1))).1.getLast? =
        some (next test_engine
          (discard test_engine (advance test_engine 5 (mk test_engine 1)) 40)).1 :=
  ⟨by decide, by decide,
    discard_next_equivalence test_engine (by decide) _ (by decide) 40⟩

/-- C5. Fill/next equivalence: for every valid parameter set (also with `n = 1`), every engine
with cursor below `n` and every destination length `L`, the bulk operation terminates
(any fuel above `L` gives the same result, and `fill` supplies `L + 1`), writes exactly `L`
values, these are element for element the values of `L` successive calls of `operator()()`,
and the state left behind is the state left by those calls. -/
theorem fill_next_equivalence (P : Params) (st : mersenne_twister_state)
    (hi : st.i < P.n) (L : Nat) :
    fill P st L = next_many P L st ∧ (fill P st L).1.length = L ∧
      (fill P st L).2 = advance P L st ∧
      ∀ fuel, L < fuel → generate_multiple P fuel st L = fill P st L := by
  have hf : fill P st L = next_many P L st := generate_multiple_spec P (L + 1) L st hi (by omega)
  refine ⟨hf, ?_, ?_, fun fuel h => ?_⟩
  · rw [hf, next_many_length]
  · rw [hf, next_many_snd]
  · rw [hf, generate_multiple_spec P fuel L st hi h]

theorem fill_next_equivalence_witness :
    Valid test_engine ∧ (advance test_engine 5 (mk test_engine 1)).i < test_engine.n ∧
      (fill test_engine (advance test_engine 5 (mk test_engine 1)) 51 =
          next_many test_engine 51 (advance test_engine 5 (mk test_engine 1)) ∧
        (fill test_engine (advance test_engine 5 (mk test_engine 1)) 51).1.length = 51 ∧
        (fill test_engine (advance test_engine 5 (mk test_engine 1)) 51).2 =
          advance test_engine 51 (advance test_engine 5 (mk test_engine 1)) ∧
        ∀ fuel, 51 < fuel →
          generate_multiple test_engine fuel (advance test_engine 5 (mk test_engine 1)) 51 =
            fill test_engine (advance test_engine 5 (mk test_engine 1)) 51) :=
  ⟨by decide, by decide, fill_next_equivalence test_engine _ (by decide) 51⟩

/-! ## Peek -/

theorem peek_far (P : Params) (st : mersenne_twister_state) (d : Nat) (hd : d ≠ 0)
    (h : d ≥ P.n - st.i) : peek P st d = (next P (discard P st (d - 1))).1 := by
  unfold peek
  rw [if_pos ⟨hd, h⟩, next_fst]

theorem peek_near (P : Params) (st : mersenne_twister_state) (d : Nat)
    (h : d = 0 ∨ d < P.n - st.i) : peek P st d = scramble P (st.X.getD (st.i + d) 0) := by
  unfold peek
  rw [if_neg]
  intro hc
  omega

theorem test_engine_valid : Valid test_engine := by decide

/-- C6, the code at the failing input.  On the engine of `test/initial_sequence.cpp`
constructed from the seed 1 (`n = 17`, cursor 0), `peek(17)` returns 1737998948273, which
is `peek(16)`, the 17th value; the value that `operator()()` returns after `discard(17)`,
the 18th value, is 97167088281. -/
theorem peek_across_boundary_off_by_one :
    peek test_engine (mk test_engine 1) 17 = 1737998948273 ∧
    peek test_engine (mk test_engine 1) 16 = 1737998948273 ∧
    (next test_engine (discard test_engine (mk test_engine 1) 17)).1 = 97167088281 := by
  rw [peek_far _ _ 17 (by decide) (by decide), peek_near _ _ 16 (by decide),
    discard_eq_advance test_engine (by decide) (by decide) _ (by decide),
    discard_eq_advance test_engine (by decide) (by decide) _ (by decide)]
  decide!

/-- C7. For every parameter set and every engine, `peek(0)` equals the value that the very
next call of `operator()()` returns. -/
theorem peek_zero_eq_next (P : Params) (st : mersenne_twister_state) :
    peek P st 0 = (next P st).1 := by
  rw [peek_near P st 0 (Or.inl rfl), next_fst]
  rfl

/-- C8, the code at the failing input.  On the engine of `test/initial_sequence.cpp`
constructed from the seed 1 (`n = 17`, cursor 0), the range `peek` of 3 values at distance
17 writes the tempered words 0, 1, 2 of the engine itself, which are its first three
values, while the three values that follow `discard(17)` are others. -/
theorem peek_range_reads_own_words :
    peek_range test_engine (mk test_engine 1) 3 17 =
      [16195260583, 97171563497, 583029380751] ∧
    (next_many test_engine 3 (mk test_engine 1)).1 =
      [16195260583, 97171563497, 583029380751] ∧
    (next_many test_engine 3 (discard test_engine (mk test_engine 1) 17)).1 =
      [97167088281, 582998346279, 3498098867124] := by
  unfold peek_range
  rw [discard_eq_advance test_engine (by decide) (by decide) _ (by decide)]
  decide!

/-! ## Peek on a store -/

theorem put_copy_self (s : peek_store) (v : mersenne_twister_state) :
    (s.put .copy v).self = s.self := rfl

theorem put_copy_copy (s : peek_store) (v : mersenne_twister_state) :
    (s.put .copy v).copy = v := rfl

theorem store_through_copy (dest : destination) (j v : Nat) (s : peek_store) :
    (store_through dest j v s).copy = s.copy := by
  cases dest <;> rfl

/-- The value returned by a call of `peek(distance)` is the one of `peek`. -/
theorem peek_call_value (P : Params) (st : mersenne_twister_state) (d : Nat) :
    (peek_call P st d).1 = peek P st d := by
  unfold peek_call peek
  split <;> rfl

theorem peek_for_store_left (P : Params) (dest : destination) (o : peek_object) :
    ∀ (count j i : Nat) (s : peek_store),
      (peek_for_store P dest o count j i s).2 = count - (P.n - i) := by
  intro count
  induction count with
  | zero => intro j i s; simp [peek_for_store]
  | succ count ih =>
    intro j i s
    rw [peek_for_store]
    split
    · rw [ih]; omega
    · show count + 1 = _
      omega

theorem peek_for_store_copy (P : Params) (dest : destination) (o : peek_object) :
    ∀ (count j i : Nat) (s : peek_store),
      (peek_for_store P dest o count j i s).1.copy = s.copy := by
  intro count
  induction count with
  | zero => intro j i s; rfl
  | succ count ih =>
    intro j i s
    rw [peek_for_store]
    split
    · rw [ih, store_through_copy]
    · rfl

/-- The store distinguishes the two objects: `discard` called on the engine itself, in
place of the local copy, moves the cursor of the engine. -/
theorem call_discard_self_moves :
    (call_discard test_engine .self 1 (declare_copy (mk test_engine 1))).self.i = 1 ∧
      (call_discard test_engine .copy 1 (declare_copy (mk test_engine 1))).self.i = 0 := by
  unfold call_discard
  rw [discard_eq_advance test_engine (by decide) (by decide) _ (by decide),
    discard_eq_advance test_engine (by decide) (by decide) _ (by decide)]
  exact ⟨rfl, rfl⟩

theorem transition_fold_length (P : Params) (l : List Nat) :
    ∀ X : List Nat, (l.foldl (transition_step P) X).length = X.length := by
  induction l with
  | nil => intro X; rfl
  | cons i l ih =>
    intro X
    rw [List.foldl_cons, ih, transition_step_eq, List.length_set]

theorem transition_algorithm_length (P : Params) (X : List Nat) :
    (transition_algorithm P X).length = X.length :=
  transition_fold_length P _ X

theorem transition_iterate_length (P : Params) (k : Nat) (X : List Nat) :
    ((transition_algorithm P)^[k] X).length = X.length := by
  induction k with
  | zero => rfl
  | succ k ih => rw [Function.iterate_succ_apply', transition_algorithm_length, ih]

theorem discard_words_length (P : Params) (hn : 0 < P.n) (st : mersenne_twister_state)
    (z : Nat) : (discard P st z).X.length = st.X.length := by
  unfold discard
  rw [discard_loop_eq P hn z]
  simp only
  split
  · show (transition_algorithm P _).length = _
    rw [transition_algorithm_length, transition_iterate_length]
  · show ((transition_algorithm P)^[z / P.n] st.X).length = _
    rw [transition_iterate_length]

theorem store_through_buffer_get (j v : Nat) (s : peek_store) (o : peek_object) :
    (store_through .buffer j v s).get o = s.get o := by
  cases o <;> rfl

theorem peek_for_store_fst (P : Params) (o : peek_object) :
    ∀ (count j i : Nat) (s : peek_store),
      (peek_for_store P .buffer o count j i s).1.buffer =
        s.buffer ++ (peek_for P (s.get o).X count i).1 := by
  intro count
  induction count with
  | zero => intro j i s; simp [peek_for_store, peek_for]
  | succ count ih =>
    intro j i s
    rw [peek_for_store, peek_for]
    split
    · rw [ih, store_through_buffer_get]
      show (s.buffer ++ [_]) ++ _ = s.buffer ++ (_ :: _)
      rw [List.append_assoc]
      rfl
    · simp

theorem peek_for_left (P : Params) (X : List Nat) :
    ∀ (count i : Nat), (peek_for P X count i).2 = count - (P.n - i) := by
  intro count
  induction count with
  | zero => intro i; simp [peek_for]
  | succ count ih =>
    intro i
    rw [peek_for]
    split
    · show (peek_for P X count (i + 1)).2 = _
      rw [ih]; omega
    · show count + 1 = _
      omega

theorem peek_for_take (P : Params) (X : List Nat) (hlen : X.length = P.n) :
    ∀ (count i : Nat),
      (peek_for P X count i).1 = ((X.map (scramble P)).drop i).take count := by
  intro count
  induction count with
  | zero => intro i; simp [peek_for]
  | succ count ih =>
    intro i
    rw [peek_for]
    split
    · rename_i hi
      show scramble P (X.getD i 0) :: (peek_for P X count (i + 1)).1 = _
      have hi2 : i < (X.map (scramble P)).length := by rw [List.length_map, hlen]; exact hi
      rw [ih, List.drop_eq_getElem_cons hi2, List.take_succ_cons, List.getElem_map,
        List.getD_eq_getElem X 0 (by omega)]
    · rename_i hi
      rw [List.drop_eq_nil_of_le (by rw [List.length_map, hlen]; omega)]
      rfl

theorem peek_while_store_buffer (P : Params) :
    ∀ (fuel count j : Nat) (s : peek_store), s.copy.X.length = P.n →
      (peek_while_store P .buffer fuel count j s).1.buffer =
        s.buffer ++ peek_blocks P fuel s.copy.X count := by
  intro fuel
  induction fuel with
  | zero => intro count j s _; simp [peek_while_store, peek_blocks]
  | succ fuel ih =>
    intro count j s hlen
    have hl := peek_for_store_left P .buffer .copy count j 0
      (call_transition_algorithm P .copy s)
    have hb := peek_for_store_fst P .copy count j 0 (call_transition_algorithm P .copy s)
    have hc := peek_for_store_copy P .buffer .copy count j 0
      (call_transition_algorithm P .copy s)
    have hT : (transition_algorithm P s.copy.X).length = P.n := by
      rw [transition_algorithm_length, hlen]
    have e1 : ((call_transition_algorithm P .copy s).get .copy).X =
        transition_algorithm P s.copy.X := rfl
    have e2 : (call_transition_algorithm P .copy s).buffer = s.buffer := rfl
    have e3 : (call_transition_algorithm P .copy s).copy.X =
        transition_algorithm P s.copy.X := rfl
    rw [e1, peek_for_take P _ hT, e2, List.drop_zero] at hb
    rw [peek_while_store, peek_blocks, hT]
    by_cases h : count ≤ P.n
    · rw [if_pos (by omega), if_pos h, hb]
    · rw [if_neg (by omega), if_neg h, ih _ _ _ (by rw [hc, e3]; exact hT), hb, hc, e3, hl,
        List.append_assoc]
      rfl

/-- The values that the range `peek` stores in a destination that is no part of the engine
are those of `peek_range`. -/
theorem peek_range_call_buffer (P : Params) (hn : 0 < P.n) (st : mersenne_twister_state)
    (hlen : st.X.length = P.n) (count distance : Nat) :
    (peek_range_call P st .buffer count distance).1.buffer = peek_range P st count distance := by
  unfold peek_range_call peek_range_from peek_range
  simp only
  have hl := peek_for_store_left P .buffer .self count 0 (discard P st distance).i
    (call_discard P .copy distance (declare_copy st))
  have hb := peek_for_store_fst P .self count 0 (discard P st distance).i
    (call_discard P .copy distance (declare_copy st))
  have hc := peek_for_store_copy P .buffer .self count 0 (discard P st distance).i
    (call_discard P .copy distance (declare_copy st))
  have e1 : ((call_discard P .copy distance (declare_copy st)).get .self).X = st.X := rfl
  have e2 : (call_discard P .copy distance (declare_copy st)).buffer = [] := rfl
  have e3 : (call_discard P .copy distance (declare_copy st)).copy = discard P st distance := rfl
  have e4 : ((call_discard P .copy distance (declare_copy st)).get .copy).i =
      (discard P st distance).i := rfl
  rw [e1, e2, List.nil_append] at hb
  rw [e4, peek_for_left]
  by_cases h : count - (P.n - (discard P st distance).i) = 0
  · rw [if_pos (by rw [hl]; exact h), if_pos h, hb]
  · rw [if_neg (by rw [hl]; exact h), if_neg h,
      peek_while_store_buffer P _ _ _ _ (by rw [hc, e3, discard_words_length P hn, hlen]),
      hb, hc, e3, hl]

/-! ## Scalar seeding is bit-exact -/

theorem seed_recurrence_succ (P : Params) (v j : Nat) (h0 : 0 < j) :
    seed_recurrence P v j =
      (P.f * (seed_recurrence P v (j - 1) ^^^ (seed_recurrence P v (j - 1) >>> (P.w - 2))) + j)
        % 2 ^ P.w := by
  obtain ⟨i, rfl⟩ : ∃ i, j = i + 1 := ⟨j - 1, by omega⟩
  rw [seed_recurrence, Nat.add_sub_cancel, Nat.shiftRight_eq_div_pow]

theorem seed_words_eq (P : Params) (h : P.w ≤ P.bits) (hn : 0 < P.n)
    (st : mersenne_twister_state) (hlen : st.X.length = P.n) (v : Nat) :
    seed_words P st v = (List.range P.n).map (seed_recurrence P v) := by
  obtain ⟨hl, hg⟩ := seed_words_spec P h hn (seed_recurrence P v) v rfl
    (fun j h0 _ => seed_recurrence_succ P v j h0) st hlen
  apply ext_getD
  · simp [hl]
  · intro p hp
    rw [hg p (by omega), List.range_eq_range', getD_map_range' _ _ _ _ (by omega), Nat.zero_add]

theorem seed_recurrence_mod (P : Params) (v : Nat) :
    ∀ j, seed_recurrence P (v % 2 ^ P.w) j = seed_recurrence P v j := by
  intro j
  induction j with
  | zero => simp [seed_recurrence]
  | succ j ih => rw [seed_recurrence, seed_recurrence, ih]

theorem seed_recurrence_bits (P : Params) (N v : Nat) :
    ∀ j, seed_recurrence { P with bits := N } v j = seed_recurrence P v j := by
  intro j
  induction j with
  | zero => rfl
  | succ j ih => rw [seed_recurrence, seed_recurrence, ih]

theorem max_value_bits (P : Params) (h : P.w ≤ P.bits) (N : Nat) (hN : P.w ≤ N) :
    max_value { P with bits := N } = max_value P := by
  rw [max_value_eq P h, max_value_eq { P with bits := N } hN]

/-- The transition does not depend on the native width, as long as this holds `w` bits. -/
theorem transition_algorithm_bits (P : Params) (h : P.w ≤ P.bits) (ha : P.a ≤ max_value P)
    (N : Nat) (hN : P.w ≤ N) (X : List Nat) :
    transition_algorithm { P with bits := N } X = transition_algorithm P X := by
  have hstep : transition_step { P with bits := N } = transition_step P := by
    funext Y i
    rw [transition_step_eq, transition_step_eq,
      twist_word_eq { P with bits := N } hN (by rw [max_value_bits P h N hN]; exact ha),
      twist_word_eq P h ha]
    rfl
  unfold transition_algorithm
  rw [hstep]

/-- C10. Scalar seeding is bit-exact and independent of the native integer width: for every
valid parameter set and every seed value `v`, `seed(v)` yields cursor 0 and the words of
one transition applied to the array `y` with `y_0 = v mod 2^w` and
`y_j = (f * (y_{j-1} xor floor(y_{j-1} / 2^(w-2))) + j) mod 2^w` in exact integer
arithmetic; only the low `w` bits of `v` are used; and every native width `N ≥ w` gives
the same state. -/
theorem seed_bit_exact (P : Params) (hv : Valid P) (st : mersenne_twister_state)
    (hlen : st.X.length = P.n) (v : Nat) :
    seed P st v =
        { X := transition_algorithm P ((List.range P.n).map (seed_recurrence P v)), i := 0 } ∧
      seed P st (v % 2 ^ P.w) = seed P st v ∧
      ∀ N, P.w ≤ N → seed { P with bits := N } st v = seed P st v := by
  obtain ⟨-, hw, hm0, hm, -, -, -, -, -, -, ha, -, -, -, -⟩ := hv
  have hn : 0 < P.n := by omega
  have key : ∀ u, seed P st u =
      { X := transition_algorithm P ((List.range P.n).map (seed_recurrence P u)), i := 0 } :=
    fun u => by rw [seed_eq, seed_words_eq P hw hn st hlen]
  refine ⟨key v, ?_, fun N hN => ?_⟩
  · rw [key, key]
    congr 2
    apply List.map_congr_left
    intro j _
    exact seed_recurrence_mod P v j
  · rw [key, seed_eq, seed_words_eq { P with bits := N } hN hn st hlen,
      transition_algorithm_bits P hw ha N hN]
    congr 2
    apply List.map_congr_left
    intro j _
    exact seed_recurrence_bits P N v j

theorem seed_bit_exact_witness :
    Valid test_engine ∧
      (advance test_engine 3 (mk test_engine 5)).X.length = test_engine.n ∧
      (seed test_engine (advance test_engine 3 (mk test_engine 5)) (2 ^ 50 + 1) =
          { X := transition_algorithm test_engine
              ((List.range test_engine.n).map (seed_recurrence test_engine (2 ^ 50 + 1))),
            i := 0 } ∧
        seed test_engine (advance test_engine 3 (mk test_engine 5))
            ((2 ^ 50 + 1) % 2 ^ test_engine.w) =
          seed test_engine (advance test_engine 3 (mk test_engine 5)) (2 ^ 50 + 1) ∧
        ∀ N, test_engine.w ≤ N →
          seed { test_engine with bits := N } (advance test_engine 3 (mk test_engine 5))
              (2 ^ 50 + 1) =
            seed test_engine (advance test_engine 3 (mk test_engine 5)) (2 ^ 50 + 1)) :=
  ⟨by decide, by decide!,
    seed_bit_exact test_engine (by decide) _ (by decide!) (2 ^ 50 + 1)⟩



/-! ## Tempering -/

theorem testBit_false_of_lt {b w i : Nat} (hb : b < 2 ^ w) (hi : w ≤ i) : b.testBit i = false :=
  Nat.testBit_lt_two_pow (lt_of_lt_of_le hb (Nat.pow_le_pow_right (by decide) hi))

theorem mod_and_of_lt (y N w b : Nat) (hwN : w ≤ N) (hb : b < 2 ^ w) :
    (y % 2 ^ N) &&& b = (y % 2 ^ w) &&& b := by
  apply Nat.eq_of_testBit_eq
  intro i
  simp only [Nat.testBit_and, Nat.testBit_mod_two_pow]
  by_cases hi : i < w
  · have : i < N := by omega
    simp [hi, this]
  · rw [testBit_false_of_lt hb (by omega)]
    simp

theorem shiftRight_le_self (x k : Nat) : x >>> k ≤ x := by
  rw [Nat.shiftRight_eq_div_pow]
  exact Nat.div_le_self _ _

theorem rshift_eq_div (P : Params) (k x : Nat) (hx : x < 2 ^ P.w) :
    rshift P k x = x / 2 ^ k := by
  unfold rshift
  by_cases hk : k ≥ P.w
  · rw [if_pos hk]
    symm
    exact Nat.div_eq_of_lt (lt_of_lt_of_le hx (Nat.pow_le_pow_right (by decide) hk))
  · rw [if_neg hk, Nat.shiftRight_eq_div_pow]

theorem lshift_and_eq (P : Params) (h : P.w ≤ P.bits) (k x b : Nat) (hb : b < 2 ^ P.w) :
    lshift P k x &&& b = (x * 2 ^ k % 2 ^ P.w) &&& b := by
  unfold lshift
  by_cases hk : k ≥ P.w
  · rw [if_pos hk]
    have : x * 2 ^ k % 2 ^ P.w = 0 :=
      Nat.mod_eq_zero_of_dvd (Dvd.dvd.mul_left (Nat.pow_dvd_pow 2 hk) _)
    rw [this]
  · rw [if_neg hk, Nat.shiftLeft_eq, mod_and_of_lt _ _ _ _ h hb]

theorem rshift_le (P : Params) (k x : Nat) : rshift P k x ≤ x := by
  unfold rshift
  split
  · exact Nat.zero_le _
  · exact shiftRight_le_self x k

/-- The tempering transform of the source on a `w`-bit word, in exact arithmetic. -/
theorem scramble_eq_reference (P : Params) (h : P.w ≤ P.bits) (hb : P.b < 2 ^ P.w)
    (hc : P.c < 2 ^ P.w) (x : Nat) (hx : x < 2 ^ P.w) :
    scramble P x = temper_reference P x := by
  unfold scramble temper_reference
  simp only
  have h1 : x ^^^ (rshift P P.u x &&& P.d) = x ^^^ ((x / 2 ^ P.u) &&& P.d) := by
    rw [rshift_eq_div P _ x hx]
  have hz1 : x ^^^ ((x / 2 ^ P.u) &&& P.d) < 2 ^ P.w := by
    apply Nat.xor_lt_two_pow hx
    exact lt_of_le_of_lt Nat.and_le_left (lt_of_le_of_lt (Nat.div_le_self _ _) hx)
  rw [h1]
  set z1 := x ^^^ ((x / 2 ^ P.u) &&& P.d) with hz1def
  rw [lshift_and_eq P h P.s z1 P.b hb]
  have hz2 : z1 ^^^ ((z1 * 2 ^ P.s % 2 ^ P.w) &&& P.b) < 2 ^ P.w :=
    Nat.xor_lt_two_pow hz1 (Nat.and_lt_two_pow _ hb)
  set z2 := z1 ^^^ ((z1 * 2 ^ P.s % 2 ^ P.w) &&& P.b) with hz2def
  rw [lshift_and_eq P h P.t z2 P.c hc]
  have hz3 : z2 ^^^ ((z2 * 2 ^ P.t % 2 ^ P.w) &&& P.c) < 2 ^ P.w :=
    Nat.xor_lt_two_pow hz2 (Nat.and_lt_two_pow _ hc)
  set z3 := z2 ^^^ ((z2 * 2 ^ P.t % 2 ^ P.w) &&& P.c) with hz3def
  rw [and_max_value P h, Nat.mod_eq_of_lt hz3, rshift_eq_div P _ z3 hz3]

/-- Every tempered value fits in `w` bits, whatever native value is tempered. -/
theorem scramble_le (P : Params) (h : P.w ≤ P.bits) (x : Nat) : scramble P x ≤ max_value P := by
  rw [le_max_value_iff P h]
  unfold scramble
  simp only
  set z := (x ^^^ rshift P P.u x &&& P.d ^^^
    lshift P P.s (x ^^^ rshift P P.u x &&& P.d) &&& P.b ^^^
    lshift P P.t (x ^^^ rshift P P.u x &&& P.d ^^^
      lshift P P.s (x ^^^ rshift P P.u x &&& P.d) &&& P.b) &&& P.c) &&& max_value P with hz
  have hzlt : z < 2 ^ P.w := Nat.and_lt_two_pow _ (max_value_lt P h)
  exact Nat.xor_lt_two_pow hzlt (lt_of_le_of_lt (rshift_le P _ z) hzlt)

/-- C11. Tempering equals its `w`-bit mathematical definition: for every valid parameter set
(so for every native width `N ≥ w`) and every word `x ≤ max_value`, `scramble(x)` is `z4` of
`temper_reference`; replacing the native width by any `N ≥ w` gives the same value; and a
shift by the full word width `w` contributes zero. -/
theorem scramble_equals_definition (P : Params) (hv : Valid P) (x : Nat)
    (hx : x ≤ max_value P) :
    scramble P x = temper_reference P x ∧
      (∀ N, P.w ≤ N → scramble { P with bits := N } x = scramble P x) ∧
      (∀ y, rshift P P.w y = 0 ∧ lshift P P.w y = 0) := by
  obtain ⟨-, hw, -, -, -, -, -, -, -, -, -, hb, hc, -, -⟩ := hv
  have hb' := (le_max_value_iff P hw _).1 hb
  have hc' := (le_max_value_iff P hw _).1 hc
  have hx' := (le_max_value_iff P hw _).1 hx
  refine ⟨scramble_eq_reference P hw hb' hc' x hx', fun N hN => ?_, fun y => ?_⟩
  · rw [scramble_eq_reference P hw hb' hc' x hx',
      scramble_eq_reference { P with bits := N } hN hb' hc' x hx']
    rfl
  · unfold rshift lshift
    simp

theorem scramble_equals_definition_witness :
    Valid mt19937_64 ∧ 12345678901234567890 ≤ max_value mt19937_64 ∧
      (scramble mt19937_64 12345678901234567890 =
          temper_reference mt19937_64 12345678901234567890 ∧
        (∀ N, mt19937_64.w ≤ N →
          scramble { mt19937_64 with bits := N } 12345678901234567890 =
            scramble mt19937_64 12345678901234567890) ∧
        (∀ y, rshift mt19937_64 mt19937_64.w y = 0 ∧ lshift mt19937_64 mt19937_64.w y = 0)) :=
  ⟨by decide, by decide,
    scramble_equals_definition mt19937_64 (by decide) 12345678901234567890 (by decide)⟩

/-! ## Output range -/

theorem generate_for_le (P : Params) (h : P.w ≤ P.bits) (X : List Nat) :
    ∀ (count i : Nat), ∀ z ∈ (generate_for P X count i).1, z ≤ max_value P := by
  intro count
  induction count with
  | zero => intro i z hz; simp [generate_for] at hz
  | succ count ih =>
    intro i z hz
    rw [generate_for] at hz
    split at hz
    · simp only [List.mem_cons] at hz
      rcases hz with rfl | hz
      · exact scramble_le P h _
      · exact ih (i + 1) z hz
    · simp at hz

theorem generate_multiple_le (P : Params) (h : P.w ≤ P.bits) :
    ∀ (fuel : Nat) (st : mersenne_twister_state) (count : Nat),
      ∀ z ∈ (generate_multiple P fuel st count).1, z ≤ max_value P := by
  intro fuel
  induction fuel with
  | zero => intro st count z hz; simp [generate_multiple] at hz
  | succ fuel ih =>
    intro st count z hz
    rw [generate_multiple] at hz
    have hfor := generate_for_le P h st.X count st.i
    rcases hg : generate_for P st.X count st.i with ⟨out, i', rest⟩
    rw [hg] at hz hfor
    cases rest with
    | zero => exact hfor z (by simpa using hz)
    | succ rest =>
      simp only [List.mem_append, List.mem_cons] at hz
      rcases hz with hz | rfl | hz
      · exact hfor z hz
      · exact scramble_le P h _
      · exact ih _ _ z hz

theorem peek_for_le (P : Params) (h : P.w ≤ P.bits) (X : List Nat) :
    ∀ (count i : Nat), ∀ z ∈ (peek_for P X count i).1, z ≤ max_value P := by
  intro count
  induction count with
  | zero => intro i z hz; simp [peek_for] at hz
  | succ count ih =>
    intro i z hz
    rw [peek_for] at hz
    split at hz
    · simp only [List.mem_cons] at hz
      rcases hz with rfl | hz
      · exact scramble_le P h _
      · exact ih (i + 1) z hz
    · simp at hz

theorem peek_blocks_le (P : Params) (h : P.w ≤ P.bits) :
    ∀ (fuel : Nat) (X : List Nat) (count : Nat),
      ∀ z ∈ peek_blocks P fuel X count, z ≤ max_value P := by
  intro fuel
  induction fuel with
  | zero => intro X count z hz; simp [peek_blocks] at hz
  | succ fuel ih =>
    intro X count z hz
    rw [peek_blocks] at hz
    have htake : ∀ z ∈ (List.map (scramble P) (transition_algorithm P X)).take count,
        z ≤ max_value P := by
      intro z hz
      obtain ⟨y, -, rfl⟩ := List.mem_map.1 (List.mem_of_mem_take hz)
      exact scramble_le P h _
    split at hz
    · exact htake z hz
    · rcases List.mem_append.1 hz with hz | hz
      · exact htake z hz
      · exact ih _ _ z hz

theorem peek_le (P : Params) (h : P.w ≤ P.bits) (st : mersenne_twister_state) (d : Nat) :
    peek P st d ≤ max_value P := by
  unfold peek
  split
  · exact scramble_le P h _
  · exact scramble_le P h _

/-- C12. Output range: `max_value` equals `2^w - 1` for every `3 ≤ w ≤ N`, and for every
valid parameter set `scramble(x) ≤ max_value` for every native value `x`, also one with bits
above bit `w - 1`; hence every value returned by `operator()()`, written by the bulk
operation or returned or written by `peek` lies in `[0, 2^w - 1]`. -/
theorem output_range (P : Params) (hv : Valid P) :
    max_value P = 2 ^ P.w - 1 ∧ (∀ x, scramble P x ≤ max_value P) ∧
      (∀ st, (next P st).1 ≤ max_value P) ∧
      (∀ st L, ∀ z ∈ (fill P st L).1, z ≤ max_value P) ∧
      (∀ st d, peek P st d ≤ max_value P) ∧
      (∀ st L d, ∀ z ∈ peek_range P st L d, z ≤ max_value P) := by
  have hw : P.w ≤ P.bits := hv.2.1
  refine ⟨max_value_eq P hw, scramble_le P hw, fun st => ?_, fun st L => ?_, peek_le P hw,
    fun st L d z hz => ?_⟩
  · rw [next_fst]
    exact scramble_le P hw _
  · exact generate_multiple_le P hw _ st L
  · unfold peek_range at hz
    simp only at hz
    split at hz
    · exact peek_for_le P hw _ _ _ z hz
    · rcases List.mem_append.1 hz with hz | hz
      · exact peek_for_le P hw _ _ _ z hz
      · exact peek_blocks_le P hw _ _ _ z hz

theorem output_range_witness :
    Valid test_engine ∧
      (max_value test_engine = 2 ^ test_engine.w - 1 ∧
        (∀ x, scramble test_engine x ≤ max_value test_engine) ∧
        (∀ st, (next test_engine st).1 ≤ max_value test_engine) ∧
        (∀ st L, ∀ z ∈ (fill test_engine st L).1, z ≤ max_value test_engine) ∧
        (∀ st d, peek test_engine st d ≤ max_value test_engine) ∧
        (∀ st L d, ∀ z ∈ peek_range test_engine st L d, z ≤ max_value test_engine)) :=
  ⟨by decide, output_range test_engine (by decide)⟩

/-! ## The state invariant -/

theorem reference_upper_mask_lt (P : Params) : reference_upper_mask P < 2 ^ P.w := by
  rw [reference_upper_mask_eq]
  exact Nat.mod_lt _ (Nat.two_pow_pos _)

theorem reference_lower_mask_lt (P : Params) : reference_lower_mask P < 2 ^ P.w := by
  unfold reference_lower_mask
  have : 2 ^ P.w - 1 < 2 ^ P.w := by
    have := Nat.two_pow_pos P.w
    omega
  exact Nat.xor_lt_two_pow this (reference_upper_mask_lt P)

/-- The word written by a transition step fits in `w` bits when the word it starts from
does, whatever the two words are from which the feedback is computed. -/
theorem twist_word_lt (P : Params) (h : P.w ≤ P.bits) (ha : P.a ≤ max_value P)
    (x0 x1 xm : Nat) (hxm : xm < 2 ^ P.w) : twist_word P x0 x1 xm < 2 ^ P.w := by
  rw [twist_word_eq P h ha]
  have hY : (x0 &&& reference_upper_mask P) ||| (x1 &&& reference_lower_mask P) < 2 ^ P.w :=
    Nat.or_lt_two_pow (Nat.and_lt_two_pow _ (reference_upper_mask_lt P))
      (Nat.and_lt_two_pow _ (reference_lower_mask_lt P))
  apply Nat.xor_lt_two_pow
  · exact Nat.xor_lt_two_pow hxm (lt_of_le_of_lt (shiftRight_le_self _ _) hY)
  · split
    · exact (le_max_value_iff P h _).1 ha
    · exact Nat.two_pow_pos _

theorem getD_le_of_forall (X : List Nat) (B : Nat) (hX : ∀ x ∈ X, x ≤ B) (j : Nat) :
    X.getD j 0 ≤ B := by
  by_cases hj : j < X.length
  · rw [List.getD_eq_getElem _ _ hj]
    exact hX _ (List.getElem_mem _)
  · rw [List.getD_eq_default _ _ (by omega)]
    exact Nat.zero_le _

theorem forall_set_le (X : List Nat) (B : Nat) (hX : ∀ x ∈ X, x ≤ B) (i v : Nat) (hv : v ≤ B) :
    ∀ x ∈ X.set i v, x ≤ B := by
  intro x hx
  rcases List.mem_or_eq_of_mem_set hx with hx | rfl
  · exact hX x hx
  · exact hv

theorem transition_step_words (P : Params) (h : P.w ≤ P.bits) (ha : P.a ≤ max_value P)
    (X : List Nat) (i : Nat) (hX : ∀ x ∈ X, x ≤ max_value P) :
    ∀ x ∈ transition_step P X i, x ≤ max_value P := by
  rw [transition_step_eq]
  apply forall_set_le X _ hX
  rw [le_max_value_iff P h]
  apply twist_word_lt P h ha
  rw [← le_max_value_iff P h]
  exact getD_le_of_forall X _ hX _

theorem transition_fold_words (P : Params) (h : P.w ≤ P.bits) (ha : P.a ≤ max_value P)
    (l : List Nat) :
    ∀ X : List Nat, (∀ x ∈ X, x ≤ max_value P) →
      (l.foldl (transition_step P) X).length = X.length ∧
        ∀ x ∈ l.foldl (transition_step P) X, x ≤ max_value P := by
  induction l with
  | nil => intro X hX; exact ⟨rfl, hX⟩
  | cons i l ih =>
    intro X hX
    rw [List.foldl_cons]
    obtain ⟨hl, hw⟩ := ih (transition_step P X i) (transition_step_words P h ha X i hX)
    refine ⟨?_, hw⟩
    rw [hl, transition_step_eq, List.length_set]

/-- The transition keeps the number of words and the bound on the words. -/
theorem transition_algorithm_words (P : Params) (h : P.w ≤ P.bits) (ha : P.a ≤ max_value P)
    (X : List Nat) (hX : ∀ x ∈ X, x ≤ max_value P) :
    (transition_algorithm P X).length = X.length ∧
      ∀ x ∈ transition_algorithm P X, x ≤ max_value P :=
  transition_fold_words P h ha _ X hX

theorem next_invariant (P : Params) (h : P.w ≤ P.bits) (ha : P.a ≤ max_value P)
    (st : mersenne_twister_state) (hst : state_invariant P st) :
    state_invariant P (next P st).2 := by
  obtain ⟨hl, hw, hi⟩ := hst
  obtain ⟨tl, tw⟩ := transition_algorithm_words P h ha st.X hw
  by_cases hlast : st.i + 1 = P.n
  · have e := next_of_last P st.X st.i hlast
    rw [e]
    exact ⟨by rw [tl, hl], tw, by show 0 < P.n; omega⟩
  · have e := next_of_lt P st.X st.i hlast
    rw [e]
    exact ⟨hl, hw, by show st.i + 1 < P.n; omega⟩

theorem advance_invariant (P : Params) (h : P.w ≤ P.bits) (ha : P.a ≤ max_value P)
    (st : mersenne_twister_state) (hst : state_invariant P st) (k : Nat) :
    state_invariant P (advance P k st) := by
  induction k with
  | zero => exact hst
  | succ k ih =>
    rw [advance_succ]
    exact next_invariant P h ha _ ih

theorem seed_recurrence_lt (P : Params) (v j : Nat) : seed_recurrence P v j < 2 ^ P.w := by
  cases j with
  | zero => exact Nat.mod_lt _ (Nat.two_pow_pos _)
  | succ j =>
    rw [seed_recurrence]
    exact Nat.mod_lt _ (Nat.two_pow_pos _)

theorem seed_invariant (P : Params) (hv : Valid P) (st : mersenne_twister_state)
    (hlen : st.X.length = P.n) (v : Nat) : state_invariant P (seed P st v) := by
  obtain ⟨-, hw, hm0, hm, -, -, -, -, -, -, ha, -, -, -, -⟩ := hv
  have hn : 0 < P.n := by omega
  rw [seed_eq, seed_words_eq P hw hn st hlen]
  have hwords : ∀ x ∈ (List.range P.n).map (seed_recurrence P v), x ≤ max_value P := by
    intro x hx
    obtain ⟨j, -, rfl⟩ := List.mem_map.1 hx
    exact (le_max_value_iff P hw _).2 (seed_recurrence_lt P v j)
  obtain ⟨tl, tw⟩ := transition_algorithm_words P hw ha _ hwords
  exact ⟨by rw [tl]; simp, tw, hn⟩

/-- C13. State invariant: for every valid parameter set, 'every word `X[j] ≤ max_value` and
cursor `i < n`' (on the array of `n` words) is established by `seed(v)` from any prior state
and any `v`, and is preserved by the transition, by `operator()()`, by the bulk operation
for every length and by `discard(k)` for every `k`. -/
theorem state_invariant_holds (P : Params) (hv : Valid P) :
    (∀ st v, st.X.length = P.n → state_invariant P (seed P st v)) ∧
      ∀ st, state_invariant P st →
        state_invariant P { X := transition_algorithm P st.X, i := st.i } ∧
        state_invariant P (next P st).2 ∧
        (∀ L, state_invariant P (fill P st L).2) ∧
        ∀ k, state_invariant P (discard P st k) := by
  have hw : P.w ≤ P.bits := hv.2.1
  have ha : P.a ≤ max_value P := hv.2.2.2.2.2.2.2.2.2.2.1
  refine ⟨fun st v hlen => seed_invariant P hv st hlen v, fun st hst => ⟨?_, ?_, ?_, ?_⟩⟩
  · obtain ⟨tl, tw⟩ := transition_algorithm_words P hw ha st.X hst.2.1
    exact ⟨by rw [tl]; exact hst.1, tw, hst.2.2⟩
  · exact next_invariant P hw ha st hst
  · intro L
    have : (fill P st L).2 = advance P L st := by
      unfold fill
      rw [generate_multiple_spec P (L + 1) L st hst.2.2 (by omega), next_many_snd]
    rw [this]
    exact advance_invariant P hw ha st hst L
  · intro k
    rw [discard_eq_advance P (by have := hst.2.2; omega) hv.1 st hst.2.2]
    exact advance_invariant P hw ha st hst k

theorem state_invariant_holds_witness :
    Valid test_engine ∧
      ((∀ st v, st.X.length = test_engine.n → state_invariant test_engine (seed test_engine st v)) ∧
        ∀ st, state_invariant test_engine st →
          state_invariant test_engine { X := transition_algorithm test_engine st.X, i := st.i } ∧
          state_invariant test_engine (next test_engine st).2 ∧
          (∀ L, state_invariant test_engine (fill test_engine st L).2) ∧
          ∀ k, state_invariant test_engine (discard test_engine st k)) :=
  ⟨by decide, state_invariant_holds test_engine (by decide)⟩

/-! ## Seeding from a seed sequence -/

set_option maxRecDepth 100000 in
/-- C14, the code at the failing input.  For the engine type `mt` of `test/equality.cpp`
(3-bit words in `unsigned long long`, so `k = 1` and the seed sequence fills the state
directly) and a seed sequence that generates the word `0xffffffff` everywhere, `seed(q)`
leaves the word `X[0] = 4294967292` above `max_value = 7`: the invariant does not hold.  On
the scratch-buffer path (a native type that is not a standard one) the same input gives a
state that satisfies the invariant. -/
theorem seed_seq_direct_fill_unmasked :
    Valid mt ∧ max_value mt = 7 ∧
      (seed_seq mt true fun _ => 4294967295).X.getD 0 0 = 4294967292 ∧
      ¬ state_invariant mt (seed_seq mt true fun _ => 4294967295) ∧
      state_invariant mt (seed_seq mt false fun _ => 4294967295) := by
  decide!

theorem getD_set_ne (X : List Nat) (i j v : Nat) (h : j ≠ i) :
    (X.set i v).getD j 0 = X.getD j 0 := by
  simp only [List.getD_eq_getElem?_getD]
  rw [List.getElem?_set_ne (fun e => h e.symm)]

theorem getD_replicate_zero (n j : Nat) : (List.replicate n 0).getD j 0 = 0 := by
  by_cases hj : j < n
  · rw [List.getD_eq_getElem _ _ (by simpa using hj)]
    simp
  · rw [List.getD_eq_default _ _ (by simpa using hj)]

theorem set_replicate_zero (n i : Nat) : (List.replicate n 0).set i 0 = List.replicate n 0 := by
  apply ext_getD
  · simp
  · intro p _
    by_cases hp : p = i
    · subst hp
      by_cases hlt : p < n
      · rw [getD_set _ _ _ _ (by simpa using hlt), if_pos rfl, getD_replicate_zero]
      · rw [List.set_eq_of_length_le (by simpa using hlt)]
    · rw [getD_set_ne _ _ _ _ hp]

theorem twist_word_zero (P : Params) : twist_word P 0 0 0 = 0 := by
  unfold twist_word
  simp

/-- One transition step leaves an all-zero array all zero. -/
theorem transition_step_zero (P : Params) (i : Nat) :
    transition_step P (List.replicate P.n 0) i = List.replicate P.n 0 := by
  rw [transition_step_eq]
  simp only [getD_replicate_zero, twist_word_zero, set_replicate_zero]

theorem transition_fold_zero (P : Params) (l : List Nat) :
    l.foldl (transition_step P) (List.replicate P.n 0) = List.replicate P.n 0 := by
  induction l with
  | nil => rfl
  | cons i l ih => rw [List.foldl_cons, transition_step_zero, ih]

/-- The steps of the transition other than the first leave the word 0 alone. -/
theorem transition_fold_getD_zero (P : Params) (l : List Nat) (hl : ∀ i ∈ l, i ≠ 0) :
    ∀ X : List Nat, (l.foldl (transition_step P) X).getD 0 0 = X.getD 0 0 := by
  induction l with
  | nil => intro X; rfl
  | cons i l ih =>
    intro X
    rw [List.foldl_cons, ih (fun j hj => hl j (List.mem_cons_of_mem _ hj)),
      transition_step_eq, getD_set_ne _ _ _ _ (Ne.symm (hl i (List.mem_cons_self _ _)))]

theorem transition_algorithm_unfold (P : Params) (hn : 0 < P.n) (X : List Nat) :
    transition_algorithm P X =
      (List.range' 1 (P.n - 1)).foldl (transition_step P) (transition_step P X 0) := by
  unfold transition_algorithm
  have : P.n = (P.n - 1) + 1 := by omega
  rw [List.range_eq_range']
  conv_lhs => rw [this, List.range'_succ]
  rfl

theorem pack_word_zero (P : Params) (len idx : Nat) :
    pack_word P ((List.range len).map fun _ => 0) idx = 0 := by
  unfold pack_word
  have hget : ∀ j, ((List.range len).map fun _ => 0).getD j 0 = 0 := by
    intro j
    by_cases hj : j < len
    · rw [List.getD_eq_getElem _ _ (by simpa using hj)]
      simp
    · rw [List.getD_eq_default _ _ (by simpa using hj)]
  have hfold : ∀ l : List Nat, l.foldl (fun x j =>
      x ||| ((((List.range len).map fun _ => 0).getD (idx * seed_seq_k P + j) 0 % 2 ^ P.bits)
        <<< (32 * j)) % 2 ^ P.bits) 0 = 0 := by
    intro l
    induction l with
    | nil => rfl
    | cons j l ih =>
      rw [List.foldl_cons, hget]
      simp only [Nat.zero_mod, Nat.zero_shiftLeft, Nat.or_zero]
      exact ih
  rw [hfold]
  simp

/-- A seed sequence that generates only zero words fills the state with zero words. -/
theorem seed_seq_fill_zero (P : Params) (standard_type : Bool) :
    seed_seq_fill P standard_type (fun _ => 0) = List.replicate P.n 0 := by
  unfold seed_seq_fill
  split
  · rename_i h
    rw [h.1, Nat.mul_one]
    apply List.eq_replicate_iff.2
    refine ⟨by simp, fun b hb => ?_⟩
    obtain ⟨p, -, rfl⟩ := List.mem_map.1 hb
    simp
  · apply List.eq_replicate_iff.2
    refine ⟨by simp, fun b hb => ?_⟩
    obtain ⟨p, -, rfl⟩ := List.mem_map.1 hb
    exact pack_word_zero P _ p

theorem seed_seq_words_zero (P : Params) (standard_type : Bool) :
    seed_seq_words P standard_type (fun _ => 0) = (List.replicate P.n 0).set 0 (max_value P) := by
  unfold seed_seq_words
  simp only [seed_seq_fill_zero, getD_replicate_zero]
  rw [if_pos]
  refine ⟨?_, ?_⟩
  · unfold rshift
    split <;> simp
  · simp
/-! ## The all-zero seed sequence -/

theorem testBit_reference_upper_mask (P : Params) (i : Nat) :
    (reference_upper_mask P).testBit i = (decide (P.r ≤ i) && decide (i < P.w)) := by
  unfold reference_upper_mask
  simp only [Nat.testBit_and, Nat.testBit_shiftLeft, Nat.testBit_two_pow_sub_one]
  by_cases h1 : P.r ≤ i <;> by_cases h2 : i < P.w <;> simp [h1, h2]
  omega

theorem max_and_upper (P : Params) : (2 ^ P.w - 1) &&& reference_upper_mask P =
    reference_upper_mask P := by
  rw [Nat.and_comm, Nat.and_pow_two_sub_one_eq_mod, Nat.mod_eq_of_lt (reference_upper_mask_lt P)]

theorem upper_mod_two (P : Params) (hw : 0 < P.w) :
    reference_upper_mask P % 2 = 1 ↔ P.r = 0 := by
  have h := testBit_reference_upper_mask P 0
  rw [Nat.testBit_zero] at h
  by_cases hr : P.r = 0
  · simp [hr, hw] at h
    simp [hr, h]
  · have hr' : ¬ P.r ≤ 0 := by omega
    simp [hr'] at h
    simp [hr, h]

theorem upper_or_lower (P : Params) :
    ((2 ^ P.w - 1) &&& reference_upper_mask P) ||| ((2 ^ P.w - 1) &&& reference_lower_mask P) =
      2 ^ P.w - 1 := by
  apply Nat.eq_of_testBit_eq
  intro i
  unfold reference_lower_mask
  simp only [Nat.testBit_or, Nat.testBit_and, Nat.testBit_xor, Nat.testBit_two_pow_sub_one,
    testBit_reference_upper_mask]
  by_cases h1 : P.r ≤ i <;> by_cases h2 : i < P.w <;> simp [h1, h2]

theorem max_mod_two (w : Nat) (hw : 0 < w) : (2 ^ w - 1) % 2 = 1 := by
  have h := Nat.testBit_two_pow_sub_one w 0
  rw [Nat.testBit_zero, decide_eq_decide] at h
  exact h.2 hw

theorem max_xor_shift (w : Nat) (hw : 0 < w) : (2 ^ w - 1) ^^^ ((2 ^ w - 1) >>> 1) = 2 ^ (w - 1) := by
  apply Nat.eq_of_testBit_eq
  intro i
  simp only [Nat.testBit_xor, Nat.testBit_shiftRight, Nat.testBit_two_pow_sub_one,
    Nat.testBit_two_pow]
  by_cases h1 : i < w <;> by_cases h2 : 1 + i < w <;> by_cases h3 : w - 1 = i <;>
    simp [h1, h2, h3] <;> omega

/-- The word 0 written by the first transition step when the word after it is zero. -/
theorem twist_first_of_zero (P : Params) (hv : Valid P) (xm : Nat) :
    twist_word P (max_value P) 0 xm =
      xm ^^^ (reference_upper_mask P >>> 1) ^^^ (if P.r = 0 then P.a else 0) := by
  obtain ⟨-, hw, -, -, hw3, -, -, -, -, -, ha, -, -, -, -⟩ := hv
  rw [twist_word_eq P hw ha, max_value_eq P hw, max_and_upper, Nat.zero_and, Nat.or_zero]
  congr 1
  by_cases hr : P.r = 0
  · rw [if_pos hr, if_pos ((upper_mod_two P (by omega)).2 hr)]
  · rw [if_neg hr, if_neg (fun h => hr ((upper_mod_two P (by omega)).1 h))]

/-- The word 0 written by the first transition step of an engine with a single word. -/
theorem twist_first_of_single (P : Params) (hv : Valid P) :
    twist_word P (max_value P) (max_value P) (max_value P) = 2 ^ (P.w - 1) ^^^ P.a := by
  obtain ⟨-, hw, -, -, hw3, -, -, -, -, -, ha, -, -, -, -⟩ := hv
  rw [twist_word_eq P hw ha, max_value_eq P hw, upper_or_lower,
    if_pos (max_mod_two P.w (by omega)), max_xor_shift P.w (by omega)]

theorem upper_shift_ne_zero (P : Params) (hw3 : 2 < P.w) (h2 : P.r < P.w) :
    reference_upper_mask P >>> 1 ≠ 0 := by
  intro h
  have hb : (reference_upper_mask P >>> 1).testBit (P.w - 2) = true := by
    rw [Nat.testBit_shiftRight, testBit_reference_upper_mask]
    have e1 : P.r ≤ 1 + (P.w - 2) := by omega
    have e2 : 1 + (P.w - 2) < P.w := by omega
    simp [e1, e2]
  rw [h, Nat.zero_testBit] at hb
  exact Bool.noConfusion hb

theorem upper_eq_zero_of_full (P : Params) (h : P.r = P.w) : reference_upper_mask P = 0 := by
  apply Nat.eq_of_testBit_eq
  intro i
  rw [testBit_reference_upper_mask, Nat.zero_testBit, h]
  by_cases h1 : P.w ≤ i <;> by_cases h2 : i < P.w <;> simp [h1, h2]
  omega

theorem upper_eq_max_of_zero (P : Params) (h : P.r = 0) : reference_upper_mask P = 2 ^ P.w - 1 := by
  apply Nat.eq_of_testBit_eq
  intro i
  rw [testBit_reference_upper_mask, Nat.testBit_two_pow_sub_one, h]
  simp

theorem max_xor_upper_shift_ne_zero (P : Params) (hw3 : 2 < P.w) :
    (2 ^ P.w - 1) ^^^ (reference_upper_mask P >>> 1) ≠ 0 := by
  intro h
  have hb : ((2 ^ P.w - 1) ^^^ (reference_upper_mask P >>> 1)).testBit (P.w - 1) = true := by
    rw [Nat.testBit_xor, Nat.testBit_shiftRight, testBit_reference_upper_mask,
      Nat.testBit_two_pow_sub_one]
    have e1 : P.w - 1 < P.w := by omega
    have e2 : ¬ 1 + (P.w - 1) < P.w := by omega
    simp [e1, e2]
  rw [h, Nat.zero_testBit] at hb
  exact Bool.noConfusion hb

/-- The word 0 written by the first transition step of `seed(Sseq&)` on an all-zero seed
sequence is zero exactly for the degenerate parameter sets. -/
theorem twist_first_eq_zero_iff (P : Params) (hv : Valid P) :
    twist_word P (max_value P) (if P.n = 1 then max_value P else 0)
        (if P.m = P.n then max_value P else 0) = 0 ↔ degenerate_params P := by
  have hv' := hv
  obtain ⟨-, hw, hm0, hm, hw3, hr, -, -, -, -, ha, -, -, -, -⟩ := hv'
  unfold degenerate_params
  by_cases hn1 : P.n = 1
  · have hmn : P.m = P.n := by omega
    rw [if_pos hn1, if_pos hmn, twist_first_of_single P hv, Nat.xor_eq_zero]
    constructor
    · intro h
      exact Or.inl ⟨hmn, Or.inl hn1, h.symm⟩
    · rintro (⟨-, -, h⟩ | ⟨h, -⟩)
      · exact h.symm
      · omega
  · rw [if_neg hn1, twist_first_of_zero P hv]
    by_cases hmn : P.m = P.n
    · rw [if_pos hmn, max_value_eq P hw]
      by_cases hr0 : P.r = 0
      · rw [if_pos hr0, upper_eq_max_of_zero P hr0, max_xor_shift P.w (by omega), Nat.xor_eq_zero]
        constructor
        · intro h
          exact Or.inl ⟨hmn, Or.inr hr0, h.symm⟩
        · rintro (⟨-, -, h⟩ | ⟨h, -⟩)
          · exact h.symm
          · omega
      · rw [if_neg hr0, Nat.xor_zero]
        constructor
        · intro h
          exact absurd h (max_xor_upper_shift_ne_zero P hw3)
        · rintro (⟨-, h, -⟩ | ⟨h, -⟩)
          · omega
          · omega
    · rw [if_neg hmn, Nat.zero_xor]
      have hlt : P.m < P.n := by omega
      by_cases hr0 : P.r = 0
      · rw [if_pos hr0, upper_eq_max_of_zero P hr0, Nat.xor_eq_zero, Nat.shiftRight_eq_div_pow,
          Nat.pow_one]
        constructor
        · intro h
          exact Or.inr ⟨hlt, Or.inr ⟨hr0, h.symm⟩⟩
        · rintro (⟨h, -⟩ | ⟨-, h | ⟨-, h⟩⟩)
          · omega
          · omega
          · exact h.symm
      · rw [if_neg hr0, Nat.xor_zero]
        by_cases hrw : P.r = P.w
        · rw [upper_eq_zero_of_full P hrw]
          constructor
          · intro _
            exact Or.inr ⟨hlt, Or.inl hrw⟩
          · intro _
            rfl
        · constructor
          · intro h
            exact absurd h (upper_shift_ne_zero P hw3 (by omega))
          · rintro (⟨h, -⟩ | ⟨-, h | ⟨h, -⟩⟩)
            · omega
            · omega
            · omega

/-- After `seed(Sseq&)` on an all-zero seed sequence every word is zero exactly when the word
0 written by the first transition step is zero. -/
theorem seed_seq_zero_all_zero_iff (P : Params) (hn : 0 < P.n) (hm : P.m ≤ P.n) (hm0 : 0 < P.m)
    (standard_type : Bool) :
    (∀ x ∈ (seed_seq P standard_type fun _ => 0).X, x = 0) ↔
      twist_word P (max_value P) (if P.n = 1 then max_value P else 0)
        (if P.m = P.n then max_value P else 0) = 0 := by
  unfold seed_seq
  simp only
  rw [seed_seq_words_zero, transition_algorithm_unfold P hn, transition_step_eq, List.set_set]
  have hlen : (List.replicate P.n 0).length = P.n := by simp
  have h0 : ((List.replicate P.n 0).set 0 (max_value P)).getD 0 0 = max_value P := by
    rw [getD_set _ _ _ _ (by omega), if_pos rfl]
  have h1 : ((List.replicate P.n 0).set 0 (max_value P)).getD ((0 + 1) % P.n) 0 =
      if P.n = 1 then max_value P else 0 := by
    by_cases hn1 : P.n = 1
    · have e : (0 + 1) % P.n = 0 := by rw [hn1]
      rw [if_pos hn1, e]
      exact h0
    · rw [if_neg hn1, Nat.zero_add, Nat.mod_eq_of_lt (by omega), getD_set_ne _ _ _ _ (by omega),
        getD_replicate_zero]
  have hmm : ((List.replicate P.n 0).set 0 (max_value P)).getD ((0 + P.m) % P.n) 0 =
      if P.m = P.n then max_value P else 0 := by
    by_cases hmn : P.m = P.n
    · have e : (0 + P.m) % P.n = 0 := by rw [Nat.zero_add, hmn, Nat.mod_self]
      rw [if_pos hmn, e]
      exact h0
    · rw [if_neg hmn, Nat.zero_add, Nat.mod_eq_of_lt (by omega), getD_set_ne _ _ _ _ (by omega),
        getD_replicate_zero]
  rw [h0, h1, hmm]
  set v0 := twist_word P (max_value P) (if P.n = 1 then max_value P else 0)
    (if P.m = P.n then max_value P else 0) with hv0
  constructor
  · intro h
    have hget := transition_fold_getD_zero P (List.range' 1 (P.n - 1))
      (fun i hi => by
        have := (List.mem_range'_1.1 hi).1
        omega)
      ((List.replicate P.n 0).set 0 v0)
    rw [getD_set _ _ _ _ (by omega), if_pos rfl] at hget
    rw [← hget]
    have := getD_le_of_forall _ 0 (fun x hx => le_of_eq (h x hx)) 0
    omega
  · intro h x hx
    rw [h, set_replicate_zero, transition_fold_zero] at hx
    exact List.eq_of_mem_replicate hx

/-- C15, counterexample.  For the valid parameter set `full_mask_engine` (`r = w`) and for
the valid parameter set `cancelling_engine` (`r = 0`, `a = max_value >> 1`), `seed(Sseq&)`
on a seed sequence that generates only zero words leaves no non-zero state word. -/
theorem zero_source_leaves_zero_state :
    (Valid full_mask_engine ∧
      ¬ ∃ x ∈ (seed_seq full_mask_engine true fun _ => 0).X, x ≠ 0) ∧
    (Valid cancelling_engine ∧
      ¬ ∃ x ∈ (seed_seq cancelling_engine true fun _ => 0).X, x ≠ 0) := by
  decide!

/-- C15, amended.  For every valid parameter set, `seed(Sseq&)` on a seed sequence that
generates only zero words leaves at least one non-zero state word if and only if the
parameter set is not degenerate, that is, it is none of: `m = n` with `n = 1` or `r = 0`,
and `a = 2^(w-1)`; `m < n` with `r = w`; `m < n` with `r = 0` and `a = max_value >> 1`. -/
theorem zero_source_nonzero_iff (P : Params) (hv : Valid P) (standard_type : Bool)
    (q : Nat → Nat) (hq : ∀ p, q p = 0) :
    (∃ x ∈ (seed_seq P standard_type q).X, x ≠ 0) ↔ ¬ degenerate_params P := by
  have hq' : q = fun _ => 0 := funext hq
  subst hq'
  have hv' := hv
  obtain ⟨-, -, hm0, hm, -⟩ := hv'
  rw [← twist_first_eq_zero_iff P hv,
    ← seed_seq_zero_all_zero_iff P (by omega) hm hm0 standard_type]
  constructor
  · rintro ⟨x, hx, hne⟩ h
    exact hne (h x hx)
  · intro h
    by_contra hcon
    apply h
    intro x hx
    by_contra hne
    exact hcon ⟨x, hx, hne⟩

theorem zero_source_nonzero_iff_witness :
    Valid mt19937 ∧ (∀ p : Nat, (fun _ : Nat => 0) p = 0) ∧
      ((∃ x ∈ (seed_seq mt19937 true fun _ => 0).X, x ≠ 0) ↔ ¬ degenerate_params mt19937) :=
  ⟨by decide, fun _ => rfl,
    zero_source_nonzero_iff mt19937 (by decide) true (fun _ => 0) (fun _ => rfl)⟩

/-! ## Equality -/

theorem operator_eq_loop_iff (x y : mersenne_twister_state) (l : List Nat) :
    operator_eq_loop x y l = true ↔ (∀ j ∈ l, x.X.getD j 0 = y.X.getD j 0) ∧ x.i = y.i := by
  induction l with
  | nil => simp [operator_eq_loop]
  | cons j js ih =>
    rw [operator_eq_loop, List.forall_mem_cons]
    by_cases h : x.X.getD j 0 = y.X.getD j 0
    · rw [if_neg (fun hc => bne_iff_ne.1 hc h), ih]
      exact ⟨fun ⟨a, b⟩ => ⟨⟨h, a⟩, b⟩, fun ⟨⟨_, a⟩, b⟩ => ⟨a, b⟩⟩
    · rw [if_pos (bne_iff_ne.2 h)]
      exact ⟨fun hf => absurd hf (by decide), fun ⟨⟨a, _⟩, _⟩ => absurd a h⟩

theorem operator_eq_iff (P : Params) (x y : mersenne_twister_state) :
    operator_eq P x y = true ↔ (∀ j, j < P.n → x.X.getD j 0 = y.X.getD j 0) ∧ x.i = y.i := by
  unfold operator_eq
  rw [operator_eq_loop_iff]
  simp only [List.mem_range]

theorem operator_eq_iff_eq (P : Params) (x y : mersenne_twister_state)
    (hx : x.X.length = P.n) (hy : y.X.length = P.n) : operator_eq P x y = true ↔ x = y := by
  rw [operator_eq_iff]
  constructor
  · rintro ⟨hw, hi⟩
    have hX : x.X = y.X := ext_getD _ _ (by rw [hx, hy]) (fun p hp => hw p (by omega))
    cases x
    cases y
    simp only at hX hi
    rw [hX, hi]
  · rintro rfl
    exact ⟨fun _ _ => rfl, rfl⟩

/-- C16. Equality is exact structural equality of the state: for two engines of the same
parameter set, `x == y` holds if and only if `X[j]` is equal for every `0 ≤ j < n` and the
cursors are equal (so, on arrays of `n` words, if and only if the states are the same);
`x != y` is its negation; engines with different cursors are never equal. -/
theorem equality_is_structural (P : Params) (x y : mersenne_twister_state) :
    (operator_eq P x y = true ↔
        (∀ j, j < P.n → x.X.getD j 0 = y.X.getD j 0) ∧ x.i = y.i) ∧
      (x.X.length = P.n → y.X.length = P.n → (operator_eq P x y = true ↔ x = y)) ∧
      operator_ne P x y = !operator_eq P x y ∧
      (x.i ≠ y.i → operator_eq P x y = false ∧ operator_ne P x y = true) := by
  refine ⟨operator_eq_iff P x y, operator_eq_iff_eq P x y, rfl, fun h => ?_⟩
  have hf : operator_eq P x y = false := by
    cases hb : operator_eq P x y
    · rfl
    · exact absurd ((operator_eq_iff P x y).1 hb).2 h
  exact ⟨hf, by rw [operator_ne, hf]; rfl⟩

theorem next_cursor (P : Params) (st : mersenne_twister_state) :
    (next P st).2.i = if st.i + 1 = P.n then 0 else st.i + 1 := by
  unfold next
  simp only
  split <;> rfl

theorem advance_mk_cursor (P : Params) (hn : 0 < P.n) (v k : Nat) :
    (advance P k (mk P v)).i = k % P.n := by
  rw [advance_eq P hn _ (by rw [mk_i]; exact hn), mk_i, Nat.zero_add]

/-- C17, counterexample.  For the valid parameter set `single_word_engine` (`n = 1`), the
engine constructed from the seed 0 and the engine obtained from it by one call of
`operator()()` compare equal. -/
theorem single_word_advance_equal :
    Valid single_word_engine ∧
      operator_eq single_word_engine (next single_word_engine (mk single_word_engine 0)).2
        (mk single_word_engine 0) = true := by
  decide!

/-- C17, amended.  For every valid parameter set and every engine reachable by scalar seeding
followed by any number of calls of `operator()()`, the engine obtained by one more call
compares equal to it only when `n = 1` and the transition leaves the single state word
unchanged; for every `n ≥ 2` advancing by one call breaks equality. -/
theorem advance_breaks_equality (P : Params) (hv : Valid P) (v k : Nat) :
    (2 ≤ P.n →
      operator_eq P (next P (advance P k (mk P v))).2 (advance P k (mk P v)) = false ∧
        operator_ne P (next P (advance P k (mk P v))).2 (advance P k (mk P v)) = true) ∧
      (operator_eq P (next P (advance P k (mk P v))).2 (advance P k (mk P v)) = true ↔
        P.n = 1 ∧
          transition_algorithm P (advance P k (mk P v)).X = (advance P k (mk P v)).X) := by
  have hw : P.w ≤ P.bits := hv.2.1
  have ha : P.a ≤ max_value P := hv.2.2.2.2.2.2.2.2.2.2.1
  have hn : 0 < P.n := by
    have h1 := hv.2.2.1
    have h2 := hv.2.2.2.1
    omega
  have hinv : state_invariant P (advance P k (mk P v)) :=
    advance_invariant P hw ha _ (seed_invariant P hv _ (by simp) v) k
  have hinv' := next_invariant P hw ha _ hinv
  have hcur := next_cursor P (advance P k (mk P v))
  have hne : 2 ≤ P.n →
      operator_eq P (next P (advance P k (mk P v))).2 (advance P k (mk P v)) = false := by
    intro h2
    cases hb : operator_eq P (next P (advance P k (mk P v))).2 (advance P k (mk P v))
    · rfl
    · have hc := ((operator_eq_iff P _ _).1 hb).2
      rw [hcur] at hc
      have hi := hinv.2.2
      split at hc <;> omega
  refine ⟨fun h2 => ⟨hne h2, by rw [operator_ne, hne h2]; rfl⟩, ?_⟩
  rw [operator_eq_iff_eq P _ _ hinv'.1 hinv.1]
  constructor
  · intro h
    have hn1 : P.n = 1 := by
      by_contra hcon
      have := hne (by omega)
      rw [(operator_eq_iff_eq P _ _ hinv'.1 hinv.1).2 h] at this
      exact Bool.noConfusion this
    refine ⟨hn1, ?_⟩
    have hi := hinv.2.2
    have hlast : (advance P k (mk P v)).i + 1 = P.n := by omega
    have e := next_of_last P (advance P k (mk P v)).X (advance P k (mk P v)).i hlast
    have hX := congrArg mersenne_twister_state.X h
    rw [show next P (advance P k (mk P v)) =
      next P { X := (advance P k (mk P v)).X, i := (advance P k (mk P v)).i } from rfl, e] at hX
    exact hX
  · rintro ⟨hn1, hT⟩
    have hi := hinv.2.2
    have hlast : (advance P k (mk P v)).i + 1 = P.n := by omega
    have e := next_of_last P (advance P k (mk P v)).X (advance P k (mk P v)).i hlast
    rw [show next P (advance P k (mk P v)) =
      next P { X := (advance P k (mk P v)).X, i := (advance P k (mk P v)).i } from rfl, e]
    simp only
    rw [hT]
    have h0 : (advance P k (mk P v)).i = 0 := by omega
    cases hE : advance P k (mk P v) with
    | mk X i =>
      rw [hE] at h0
      simp only at h0
      simp only [h0]

theorem advance_breaks_equality_witness :
    Valid test_engine ∧
      ((2 ≤ test_engine.n →
        operator_eq test_engine (next test_engine (advance test_engine 16 (mk test_engine 1))).2
            (advance test_engine 16 (mk test_engine 1)) = false ∧
          operator_ne test_engine (next test_engine (advance test_engine 16 (mk test_engine 1))).2
            (advance test_engine 16 (mk test_engine 1)) = true) ∧
        (operator_eq test_engine (next test_engine (advance test_engine 16 (mk test_engine 1))).2
            (advance test_engine 16 (mk test_engine 1)) = true ↔
          test_engine.n = 1 ∧
            transition_algorithm test_engine (advance test_engine 16 (mk test_engine 1)).X =
              (advance test_engine 16 (mk test_engine 1)).X)) :=
  ⟨by decide, advance_breaks_equality test_engine (by decide) 1 16⟩

/-! ## The equality test of `test/equality.cpp` -/

set_option maxRecDepth 100000 in
/-- The word 1 of the engine `mt` seeded with 0, after 0, 1 and 2 further transitions. -/
theorem mt_word_one :
    ((transition_algorithm mt)^[0] (mk mt 0).X).getD 1 0 = 2 ∧
    ((transition_algorithm mt)^[1] (mk mt 0).X).getD 1 0 = 3 ∧
    ((transition_algorithm mt)^[2] (mk mt 0).X).getD 1 0 = 5 := by
  decide!

/-- C18. For the test parameter set `mt` (64-bit native type, `w = 3`, `n = 32`, `m = 1`,
every other parameter 0) and the engine constructed from the seed 0: for all `i`, `j` in
`[0, 65)`, the engine advanced by `i` calls of `operator()()` compares equal to the engine
advanced by `j` calls if and only if `i = j`. -/
theorem equality_after_advancing (i j : Nat) (hi : i < 65) (hj : j < 65) :
    operator_eq mt (advance mt i (mk mt 0)) (advance mt j (mk mt 0)) = true ↔ i = j := by
  constructor
  · intro h
    obtain ⟨hw, hc⟩ := (operator_eq_iff mt _ _).1 h
    have h1 := hw 1 (by decide)
    rw [advance_mk_cursor mt (by decide), advance_mk_cursor mt (by decide)] at hc
    rw [advance_eq mt (by decide) _ (by rw [mk_i]; decide),
      advance_eq mt (by decide) _ (by rw [mk_i]; decide), mk_i] at h1
    simp only [Nat.zero_add] at h1
    have hn : mt.n = 32 := rfl
    rw [hn] at hc h1
    obtain ⟨w0, w1, w2⟩ := mt_word_one
    have hqi : i / 32 < 3 := by omega
    have hqj : j / 32 < 3 := by omega
    have hq : i / 32 = j / 32 := by
      generalize i / 32 = qi at h1 hqi
      generalize j / 32 = qj at h1 hqj
      interval_cases qi <;> interval_cases qj <;> first
        | rfl
        | (simp only [w0, w1, w2] at h1; omega)
    omega
  · rintro rfl
    exact (operator_eq_iff mt _ _).2 ⟨fun _ _ => rfl, rfl⟩

theorem equality_after_advancing_witness :
    (33 : Nat) < 65 ∧ (1 : Nat) < 65 ∧
      (operator_eq mt (advance mt 33 (mk mt 0)) (advance mt 1 (mk mt 0)) = true ↔
        (33 : Nat) = 1) :=
  ⟨by decide, by decide, equality_after_advancing 33 1 (by decide) (by decide)⟩

/-! ## Serialization -/

theorem state_read_write (P : Params) (st : mersenne_twister_state)
    (hlen : st.X.length = P.n) : state_read P (operator_write st) = st := by
  unfold state_read operator_write
  have hX : ((List.range P.n).map fun j => (st.X ++ [st.i]).getD j 0) = st.X := by
    apply ext_getD
    · simp [hlen]
    · intro p hp
      have hp' : p < P.n := by simpa using hp
      rw [List.range_eq_range', getD_map_range' _ _ _ _ hp', Nat.zero_add,
        List.getD_append _ _ _ _ (by omega)]
  have hi : (st.X ++ [st.i]).getD P.n 0 = st.i := by
    rw [List.getD_append_right _ _ _ _ (by omega), hlen, Nat.sub_self]
    rfl
  rw [hX, hi]

theorem state_read_fields (P : Params) (X : List Nat) (c : Nat) (hlen : X.length = P.n) :
    state_read P (X ++ [c]) = { X := X, i := c } :=
  state_read_write P { X := X, i := c } hlen

/-- C19. Serialization round trip: with the serialized form the sequence of the `n` words in
index order followed by the cursor, for every engine whose state satisfies the invariant,
reading what was written yields the same engine (same words, same cursor; the
normalization of `cursor == n` does not fire), and all its subsequent values and states are
those of the original. -/
theorem serialization_round_trip (P : Params) (st : mersenne_twister_state)
    (hst : state_invariant P st) :
    operator_read P (operator_write st) = st ∧
      operator_eq P (operator_read P (operator_write st)) st = true ∧
      ∀ count, next_many P count (operator_read P (operator_write st)) =
        next_many P count st := by
  obtain ⟨hlen, -, hi⟩ := hst
  have h : operator_read P (operator_write st) = st := by
    unfold operator_read
    simp only
    rw [state_read_write P st hlen, if_neg (by omega)]
  refine ⟨h, ?_, fun count => by rw [h]⟩
  rw [h]
  exact (operator_eq_iff P st st).2 ⟨fun _ _ => rfl, rfl⟩

theorem serialization_round_trip_witness :
    state_invariant test_engine (advance test_engine 20 (mk test_engine 1)) ∧
      (operator_read test_engine (operator_write (advance test_engine 20 (mk test_engine 1))) =
          advance test_engine 20 (mk test_engine 1) ∧
        operator_eq test_engine
          (operator_read test_engine (operator_write (advance test_engine 20 (mk test_engine 1))))
          (advance test_engine 20 (mk test_engine 1)) = true ∧
        ∀ count, next_many test_engine count
            (operator_read test_engine
              (operator_write (advance test_engine 20 (mk test_engine 1)))) =
          next_many test_engine count (advance test_engine 20 (mk test_engine 1))) :=
  ⟨by decide!, serialization_round_trip test_engine _ (by decide!)⟩

/-- C20. Deserialization normalizes the deferred-transition representation: when the fields
read are `n` words and a cursor equal to `n`, the engine has cursor 0 and the words of one
transition applied to the words read; when the cursor read is less than `n`, words and
cursor are taken unchanged.  In both cases the engine has a cursor below `n`, and when the
words read are at most `max_value` it satisfies the state invariant. -/
theorem deserialization_normalizes (P : Params) (hv : Valid P) (X : List Nat) (c : Nat)
    (hlen : X.length = P.n) (hwords : ∀ x ∈ X, x ≤ max_value P) (hc : c ≤ P.n) :
    (c = P.n → operator_read P (X ++ [c]) = { X := transition_algorithm P X, i := 0 }) ∧
      (c < P.n → operator_read P (X ++ [c]) = { X := X, i := c }) ∧
      (operator_read P (X ++ [c])).i < P.n ∧
      state_invariant P (operator_read P (X ++ [c])) := by
  obtain ⟨-, hw, hm0, hm, -, -, -, -, -, -, ha, -, -, -, -⟩ := hv
  have hn : 0 < P.n := by omega
  have h1 : c = P.n → operator_read P (X ++ [c]) = { X := transition_algorithm P X, i := 0 } := by
    intro h
    unfold operator_read
    simp only
    rw [state_read_fields P X c hlen, if_pos h]
  have h2 : c < P.n → operator_read P (X ++ [c]) = { X := X, i := c } := by
    intro h
    unfold operator_read
    simp only
    rw [state_read_fields P X c hlen, if_neg (by simp only; omega)]
  obtain ⟨tl, tw⟩ := transition_algorithm_words P hw ha X hwords
  have h3 : state_invariant P (operator_read P (X ++ [c])) := by
    by_cases h : c = P.n
    · rw [h1 h]
      exact ⟨by rw [tl, hlen], tw, hn⟩
    · rw [h2 (by omega)]
      exact ⟨hlen, hwords, by show c < P.n; omega⟩
  exact ⟨h1, h2, h3.2.2, h3⟩

theorem deserialization_normalizes_witness :
    Valid test_engine ∧ (mk test_engine 1).X.length = test_engine.n ∧
      (∀ x ∈ (mk test_engine 1).X, x ≤ max_value test_engine) ∧ 17 ≤ test_engine.n ∧
      ((17 = test_engine.n → operator_read test_engine ((mk test_engine 1).X ++ [17]) =
          { X := transition_algorithm test_engine (mk test_engine 1).X, i := 0 }) ∧
        (17 < test_engine.n → operator_read test_engine ((mk test_engine 1).X ++ [17]) =
          { X := (mk test_engine 1).X, i := 17 }) ∧
        (operator_read test_engine ((mk test_engine 1).X ++ [17])).i < test_engine.n ∧
        state_invariant test_engine (operator_read test_engine ((mk test_engine 1).X ++ [17]))) :=
  ⟨by decide, by decide!, by decide!, by decide,
    deserialization_normalizes test_engine (by decide) _ 17 (by decide!) (by decide!)
      (by decide)⟩

/-! ## Conversion between native types -/

theorem scramble_bits (P : Params) (h : P.w ≤ P.bits) (hb : P.b ≤ max_value P)
    (hc : P.c ≤ max_value P) (N : Nat) (hN : P.w ≤ N) (x : Nat) (hx : x ≤ max_value P) :
    scramble { P with bits := N } x = scramble P x := by
  have hb' := (le_max_value_iff P h _).1 hb
  have hc' := (le_max_value_iff P h _).1 hc
  have hx' := (le_max_value_iff P h _).1 hx
  rw [scramble_eq_reference P h hb' hc' x hx',
    scramble_eq_reference { P with bits := N } hN hb' hc' x hx']
  rfl

/-- On a state that satisfies the invariant, `operator()()` does not depend on the native
width, as long as this holds `w` bits. -/
theorem next_bits (P : Params) (hv : Valid P) (N : Nat) (hN : P.w ≤ N)
    (st : mersenne_twister_state) (hst : state_invariant P st) :
    next { P with bits := N } st = next P st := by
  obtain ⟨-, hw, -, -, -, -, -, -, -, -, ha, hb, hc, -, -⟩ := hv
  unfold next
  simp only
  rw [scramble_bits P hw hb hc N hN _ (getD_le_of_forall _ _ hst.2.1 _),
    transition_algorithm_bits P hw ha N hN]

theorem next_many_bits (P : Params) (hv : Valid P) (N : Nat) (hN : P.w ≤ N) :
    ∀ (count : Nat) (st : mersenne_twister_state), state_invariant P st →
      next_many { P with bits := N } count st = next_many P count st := by
  intro count
  induction count with
  | zero => intro st _; rfl
  | succ count ih =>
    intro st hst
    rw [next_many, next_many, next_bits P hv N hN st hst,
      ih _ (next_invariant P hv.2.1 hv.2.2.2.2.2.2.2.2.2.2.1 st hst)]

/-- The conversion keeps a state whose words fit in the destination type. -/
theorem convert_eq (P : Params) (h : P.w ≤ P.bits) (N : Nat) (hN : P.w ≤ N)
    (st : mersenne_twister_state) (hst : state_invariant P st) : convert P N st = st := by
  obtain ⟨hlen, hwords, -⟩ := hst
  unfold convert
  have hX : ((List.range P.n).map fun j => st.X.getD j 0 % 2 ^ N) = st.X := by
    apply ext_getD
    · simp [hlen]
    · intro p hp
      have hp' : p < P.n := by simpa using hp
      rw [List.range_eq_range', getD_map_range' _ _ _ _ hp', Nat.zero_add]
      apply Nat.mod_eq_of_lt
      exact lt_of_lt_of_le ((le_max_value_iff P h _).1 (getD_le_of_forall _ _ hwords p))
        (Nat.pow_le_pow_right (by decide) hN)
  rw [hX]

/-- C21. Conversion between engines that differ only in native storage type is value- and
behaviour-preserving: for every valid parameter set of native width `N1`, every native width
`N2 ≥ w` and every engine of width `N1` that satisfies the invariant, the converted engine
of width `N2` has the same words and the same cursor, `operator()()` on it returns the same
value, the two engines after the call again correspond under the conversion, and the whole
output streams agree. -/
theorem conversion_preserves (P : Params) (hv : Valid P) (N2 : Nat) (hN2 : P.w ≤ N2)
    (st : mersenne_twister_state) (hst : state_invariant P st) :
    (convert P N2 st).X = st.X ∧ (convert P N2 st).i = st.i ∧
      (next { P with bits := N2 } (convert P N2 st)).1 = (next P st).1 ∧
      (next { P with bits := N2 } (convert P N2 st)).2 = convert P N2 (next P st).2 ∧
      ∀ count, (next_many { P with bits := N2 } count (convert P N2 st)).1 =
        (next_many P count st).1 := by
  have hw : P.w ≤ P.bits := hv.2.1
  have ha : P.a ≤ max_value P := hv.2.2.2.2.2.2.2.2.2.2.1
  have hconv := convert_eq P hw N2 hN2 st hst
  have hconv' := convert_eq P hw N2 hN2 _ (next_invariant P hw ha st hst)
  rw [hconv, hconv', next_bits P hv N2 hN2 st hst]
  exact ⟨rfl, rfl, rfl, rfl, fun count => by rw [next_many_bits P hv N2 hN2 count st hst]⟩

theorem conversion_preserves_witness :
    Valid test_engine ∧ test_engine.w ≤ 128 ∧
      state_invariant test_engine (advance test_engine 20 (mk test_engine 1)) ∧
      ((convert test_engine 128 (advance test_engine 20 (mk test_engine 1))).X =
          (advance test_engine 20 (mk test_engine 1)).X ∧
        (convert test_engine 128 (advance test_engine 20 (mk test_engine 1))).i =
          (advance test_engine 20 (mk test_engine 1)).i ∧
        (next { test_engine with bits := 128 }
            (convert test_engine 128 (advance test_engine 20 (mk test_engine 1)))).1 =
          (next test_engine (advance test_engine 20 (mk test_engine 1))).1 ∧
        (next { test_engine with bits := 128 }
            (convert test_engine 128 (advance test_engine 20 (mk test_engine 1)))).2 =
          convert test_engine 128 (next test_engine (advance test_engine 20 (mk test_engine 1))).2 ∧
        ∀ count, (next_many { test_engine with bits := 128 } count
            (convert test_engine 128 (advance test_engine 20 (mk test_engine 1)))).1 =
          (next_many test_engine count (advance test_engine 20 (mk test_engine 1))).1) :=
  ⟨by decide, by decide, by decide!,
    conversion_preserves test_engine (by decide) 128 (by decide) _ (by decide!)⟩

/-! ## Parameter validation, the self test and discard -/

/-- The static assertions hold of a parameter set if and only if `0 < m ≤ n`, `3 ≤ w ≤ N`,
`r ≤ w`, each of `u, s, t, l` is at most `w`, and each of `a, b, c, d, f` is at most
`2^w - 1`, which is `max_value` whenever they hold; a set that violates one of these
conditions fails an assertion. -/
theorem static_asserts_iff (P : Params) :
    (static_asserts P ↔
      (0 < P.m ∧ P.m ≤ P.n) ∧ (3 ≤ P.w ∧ P.w ≤ P.bits) ∧ P.r ≤ P.w ∧
        (P.u ≤ P.w ∧ P.s ≤ P.w ∧ P.t ≤ P.w ∧ P.l ≤ P.w) ∧
        (P.a ≤ 2 ^ P.w - 1 ∧ P.b ≤ 2 ^ P.w - 1 ∧ P.c ≤ 2 ^ P.w - 1 ∧ P.d ≤ 2 ^ P.w - 1 ∧
          P.f ≤ 2 ^ P.w - 1)) ∧
      (static_asserts P → max_value P = 2 ^ P.w - 1) ∧
      ((P.m = 0 ∨ P.n < P.m ∨ P.w < 3 ∨ P.bits < P.w ∨ P.w < P.r ∨ P.w < P.u ∨ P.w < P.s ∨
          P.w < P.t ∨ P.w < P.l ∨ 2 ^ P.w - 1 < P.a ∨ 2 ^ P.w - 1 < P.b ∨ 2 ^ P.w - 1 < P.c ∨
          2 ^ P.w - 1 < P.d ∨ 2 ^ P.w - 1 < P.f) → ¬ static_asserts P) := by
  have key : static_asserts P ↔
      (0 < P.m ∧ P.m ≤ P.n) ∧ (3 ≤ P.w ∧ P.w ≤ P.bits) ∧ P.r ≤ P.w ∧
        (P.u ≤ P.w ∧ P.s ≤ P.w ∧ P.t ≤ P.w ∧ P.l ≤ P.w) ∧
        (P.a ≤ 2 ^ P.w - 1 ∧ P.b ≤ 2 ^ P.w - 1 ∧ P.c ≤ 2 ^ P.w - 1 ∧ P.d ≤ 2 ^ P.w - 1 ∧
          P.f ≤ 2 ^ P.w - 1) := by
    unfold static_asserts
    constructor
    · rintro ⟨hw, hm0, hm, hw3, hr, hu, hs, ht, hl, ha, hb, hc, hd, hf⟩
      rw [max_value_eq P hw] at ha hb hc hd hf
      exact ⟨⟨hm0, hm⟩, ⟨hw3, hw⟩, hr, ⟨hu, hs, ht, hl⟩, ha, hb, hc, hd, hf⟩
    · rintro ⟨⟨hm0, hm⟩, ⟨hw3, hw⟩, hr, ⟨hu, hs, ht, hl⟩, ha, hb, hc, hd, hf⟩
      rw [max_value_eq P hw]
      exact ⟨hw, hm0, hm, hw3, hr, hu, hs, ht, hl, ha, hb, hc, hd, hf⟩
  refine ⟨key, fun h => max_value_eq P h.1, fun hbad h => ?_⟩
  obtain ⟨⟨hm0, hm⟩, ⟨hw3, hw⟩, hr, ⟨hu, hs, ht, hl⟩, ha, hb, hc, hd, hf⟩ := key.1 h
  omega

theorem max_value_initializer_narrow (int_bits : Nat) (P : Params) (h : P.bits < int_bits) :
    max_value_initializer int_bits P = -1 := by
  unfold max_value_initializer
  rw [if_pos h]
  show Int.negSucc (0 >>> (P.bits - P.w)) = Int.negSucc 0
  rw [Nat.zero_shiftRight]

theorem max_value_initializer_wide (int_bits : Nat) (P : Params) (h : int_bits ≤ P.bits) :
    max_value_initializer int_bits P = (max_value P : Int) := by
  unfold max_value_initializer max_value
  rw [if_neg (by omega)]

theorem max_value_well_formed_iff (int_bits : Nat) (P : Params) :
    max_value_well_formed int_bits P ↔ int_bits ≤ P.bits := by
  unfold max_value_well_formed
  constructor
  · intro h
    by_contra hn
    rw [max_value_initializer_narrow int_bits P (by omega)] at h
    omega
  · intro h
    rw [max_value_initializer_wide int_bits P h]
    refine ⟨Int.natCast_nonneg _, ?_⟩
    have h1 : max_value P < 2 ^ P.bits := by
      unfold max_value
      have := Nat.two_pow_pos P.bits
      have := shiftRight_le_self (2 ^ P.bits - 1) (P.bits - P.w)
      omega
    exact_mod_cast h1

/-- Acceptance by the header: a parameter set is accepted exactly when the native type is
not narrower than `int` and the conditions of the specification hold. -/
theorem accepted_iff (int_bits : Nat) (P : Params) :
    accepted int_bits P ↔ int_bits ≤ P.bits ∧ parameters_consistent P := by
  unfold accepted parameters_consistent
  rw [max_value_well_formed_iff, (static_asserts_iff P).1]

/-- C22, the code at the failing input.  The parameter set `short_engine` over
`unsigned short` meets every condition of `parameters_consistent`, and every static
assertion of the header holds of it; but the initialiser of `max_value` has the
value -1 of type `int`, which list-initialisation may not narrow to `unsigned short`, so
the header does not accept the set where `int` has 32 bits.  The same parameters are
accepted over a native type of 32 bits, and over `unsigned short` where `int` has 16 bits
and the promotion is to `unsigned int`. -/
theorem narrow_type_rejected :
    parameters_consistent short_engine ∧ static_asserts short_engine ∧
      max_value_initializer 32 short_engine = -1 ∧
      ¬ max_value_well_formed 32 short_engine ∧
      ¬ accepted 32 short_engine ∧
      accepted 32 { short_engine with bits := 32 } ∧ accepted 16 short_engine := by
  decide

theorem default_seed_mt19937 : default_seed mt19937 = 5489 := by decide

theorem default_seed_mt19937_64 : default_seed mt19937_64 = 5489 := by decide

/-- C23. Header self test: for the default-constructed standard 32-bit engine `mt19937`
(seeded with `default_seed = 5489`), `peek(10000)` equals 4123659995, and for the
default-constructed `mt19937_64`, `peek(10000)` equals 9981545732273789042. -/
theorem self_test :
    peek mt19937 (mk_default mt19937) 10000 = 4123659995 ∧
    peek mt19937_64 (mk_default mt19937_64) 10000 = 9981545732273789042 := by
  unfold mk_default
  rw [default_seed_mt19937, default_seed_mt19937_64,
    peek_far mt19937 _ 10000 (by decide) (by rw [mk_i]; decide),
    peek_far mt19937_64 _ 10000 (by decide) (by rw [mk_i]; decide)]
  exact ⟨mt19937_after_discard, mt19937_64_after_discard⟩

/-- C24. Discard reaches exactly the state of repeated generation: for every valid parameter
set, every engine with cursor `c < n` and every `k`, `discard(k)` leaves the words and the
cursor left by `k` successive calls of `operator()()`: the cursor is `(c + k) mod n` and the
words are those reached by `floor((c + k) / n)` transitions. -/
theorem discard_reaches_state (P : Params) (hv : Valid P) (st : mersenne_twister_state)
    (hi : st.i < P.n) (k : Nat) :
    discard P st k = (next_many P k st).2 ∧
      (discard P st k).i = (st.i + k) % P.n ∧
      (discard P st k).X = (transition_algorithm P)^[(st.i + k) / P.n] st.X := by
  have hn : 0 < P.n := by omega
  rw [next_many_snd, discard_eq_advance P hn hv.1 st hi, advance_eq P hn st hi]
  exact ⟨rfl, rfl, rfl⟩

theorem discard_reaches_state_witness :
    Valid test_engine ∧ (advance test_engine 5 (mk test_engine 1)).i < test_engine.n ∧
      (discard test_engine (advance test_engine 5 (mk test_engine 1)) 40 =
          (next_many test_engine 40 (advance test_engine 5 (mk test_engine 1))).2 ∧
        (discard test_engine (advance test_engine 5 (mk test_engine 1)) 40).i =
          ((advance test_engine 5 (mk test_engine 1)).i + 40) % test_engine.n ∧
        (discard test_engine (advance test_engine 5 (mk test_engine 1)) 40).X =
          (transition_algorithm test_engine)^[
            ((advance test_engine 5 (mk test_engine 1)).i + 40) / test_engine.n]
            (advance test_engine 5 (mk test_engine 1)).X) :=
  ⟨by decide, by decide, discard_reaches_state test_engine (by decide) _ (by decide) 40⟩

/-! ## Packing of the words of a seed sequence -/

theorem getD_map_range (f : Nat → Nat) (n p : Nat) (hp : p < n) :
    ((List.range n).map f).getD p 0 = f p := by
  rw [List.range_eq_range', getD_map_range' _ _ _ _ hp, Nat.zero_add]

theorem foldl_congr_mem (f g : Nat → Nat → Nat) (l : List Nat)
    (h : ∀ x j, j ∈ l → f x j = g x j) : ∀ x0, l.foldl f x0 = l.foldl g x0 := by
  induction l with
  | nil => intro x0; rfl
  | cons j l ih =>
    intro x0
    rw [List.foldl_cons, List.foldl_cons, h x0 j (List.mem_cons_self _ _)]
    exact ih (fun x j' hj' => h x j' (List.mem_cons_of_mem _ hj')) _

theorem chunk_sum_succ (c : Nat → Nat) (j k m : Nat) :
    ((List.range (m + 1)).map fun q => c (j * k + q) * 2 ^ (32 * q)).sum =
      ((List.range m).map fun q => c (j * k + q) * 2 ^ (32 * q)).sum +
        c (j * k + m) * 2 ^ (32 * m) := by
  rw [List.range_succ, List.map_append, List.sum_append]
  simp

/-- The sum of `m` chunks below `2^32` is below `2^(32 * m)`. -/
theorem chunk_sum_lt (c : Nat → Nat) (hc : ∀ p, c p < 2 ^ 32) (j k : Nat) :
    ∀ m, ((List.range m).map fun q => c (j * k + q) * 2 ^ (32 * q)).sum < 2 ^ (32 * m) := by
  intro m
  induction m with
  | zero => simp
  | succ m ih =>
    rw [chunk_sum_succ]
    have h1 : c (j * k + m) * 2 ^ (32 * m) ≤ (2 ^ 32 - 1) * 2 ^ (32 * m) :=
      Nat.mul_le_mul_right _ (by have := hc (j * k + m); omega)
    have h2 : 2 ^ (32 * (m + 1)) = 2 ^ 32 * 2 ^ (32 * m) := by
      rw [← Nat.pow_add]
      congr 1
      omega
    have h3 : (2 ^ 32 - 1) * 2 ^ (32 * m) = 2 ^ 32 * 2 ^ (32 * m) - 2 ^ (32 * m) := by
      rw [Nat.sub_mul, Nat.one_mul]
    have h4 : 2 ^ (32 * m) ≤ 2 ^ 32 * 2 ^ (32 * m) :=
      Nat.le_mul_of_pos_left _ (Nat.two_pow_pos 32)
    omega

/-- The loop `x |= static_cast<result_type>(*p++) << (32u * j)` accumulates the sum of the
chunks, reduced to the native width. -/
theorem pack_fold_eq (B : Nat) (c : Nat → Nat) (hc : ∀ p, c p < 2 ^ 32) (j k : Nat) :
    ∀ m, (List.range m).foldl
        (fun x q => x ||| ((c (j * k + q) % 2 ^ B) <<< (32 * q)) % 2 ^ B) 0 =
      ((List.range m).map fun q => c (j * k + q) * 2 ^ (32 * q)).sum % 2 ^ B := by
  intro m
  induction m with
  | zero => simp
  | succ m ih =>
    rw [List.range_succ, List.foldl_append, ih, ← List.range_succ, chunk_sum_succ]
    simp only [List.foldl_cons, List.foldl_nil]
    have hS := chunk_sum_lt c hc j k m
    set S := ((List.range m).map fun q => c (j * k + q) * 2 ^ (32 * q)).sum with hSdef
    apply Nat.eq_of_testBit_eq
    intro i
    have e : S + c (j * k + m) * 2 ^ (32 * m) = 2 ^ (32 * m) * c (j * k + m) + S := by
      rw [Nat.mul_comm, Nat.add_comm]
    rw [e]
    simp only [Nat.testBit_or, Nat.testBit_mod_two_pow, Nat.testBit_shiftLeft,
      Nat.testBit_mul_pow_two_add _ hS]
    by_cases hB : i < B
    · by_cases hi : i < 32 * m
      · have h1 : ¬ i ≥ 32 * m := by omega
        simp [hB, hi, h1]
      · have h1 : i ≥ 32 * m := by omega
        have h2 : i - 32 * m < B := by omega
        have h3 : S.testBit i = false := testBit_false_of_lt hS (by omega)
        simp [hB, hi, h1, h2, h3]
    · simp [hB]

theorem seed_seq_k_pos (P : Params) (hw : 0 < P.w) : 0 < seed_seq_k P := by
  unfold seed_seq_k
  split
  · rename_i h
    have := Nat.div_add_mod P.w 32
    omega
  · omega

theorem seed_seq_k_eq (P : Params) : seed_seq_k P = (P.w + 31) / 32 := by
  unfold seed_seq_k
  split <;> omega

/-- The word with index `idx` packed from the words generated by the seed sequence. -/
theorem pack_word_eq (P : Params) (h : P.w ≤ P.bits) (q : Nat → Nat) (hq : ∀ p, q p < 2 ^ 32)
    (idx : Nat) (hidx : idx < P.n) :
    pack_word P ((List.range (P.n * seed_seq_k P)).map q) idx =
      chunk_sum q idx (seed_seq_k P) % 2 ^ P.w := by
  unfold pack_word chunk_sum
  have hget : ∀ j, j ∈ List.range (seed_seq_k P) →
      ((List.range (P.n * seed_seq_k P)).map q).getD (idx * seed_seq_k P + j) 0 =
        q (idx * seed_seq_k P + j) := by
    intro j hj
    have hj' : j < seed_seq_k P := List.mem_range.1 hj
    have hlt : idx * seed_seq_k P + j < P.n * seed_seq_k P := by
      have h1 : (idx + 1) * seed_seq_k P ≤ P.n * seed_seq_k P :=
        Nat.mul_le_mul_right _ (by omega)
      rw [Nat.add_mul, Nat.one_mul] at h1
      omega
    rw [getD_map_range _ _ _ hlt]
  have hfold : (List.range (seed_seq_k P)).foldl
      (fun x j => x ||| ((((List.range (P.n * seed_seq_k P)).map q).getD
        (idx * seed_seq_k P + j) 0 % 2 ^ P.bits) <<< (32 * j)) % 2 ^ P.bits) 0 =
      (List.range (seed_seq_k P)).foldl
        (fun x j => x ||| ((q (idx * seed_seq_k P + j) % 2 ^ P.bits) <<< (32 * j)) % 2 ^ P.bits)
        0 :=
    foldl_congr_mem _ _ _ (fun x j hj => by simp only [hget j hj]) 0
  rw [hfold, pack_fold_eq P.bits q hq idx (seed_seq_k P) (seed_seq_k P), and_max_value P h,
    mod_bits_mod_w P h]

/-- C25. Entropy-source packing: on the scratch-buffer path (`k = ceil(w/32) ≥ 2`, or a native
type below 32 bits or not one of the standard unsigned types), for a seed sequence that
generates the words `c_0, ..., c_{n*k-1}`, each below `2^32`, the state word with index `j`
after the packing, before the degenerate-state check and the transition, equals
`(sum over 0 ≤ q < k of c_{j*k+q} * 2^(32*q)) mod 2^w`: chunk 0 is the least significant
and the packed word is masked to `w` bits. -/
theorem packing_of_chunks (P : Params) (hv : Valid P) (standard_type : Bool) (c : Nat → Nat)
    (hc : ∀ p, c p < 2 ^ 32)
    (hpath : ¬ (seed_seq_k P = 1 ∧ P.bits ≥ 32 ∧ standard_type = true)) (j : Nat)
    (hj : j < P.n) :
    seed_seq_k P = (P.w + 31) / 32 ∧
      (seed_seq_fill P standard_type c).length = P.n ∧
      (seed_seq_fill P standard_type c).getD j 0 = chunk_sum c j (seed_seq_k P) % 2 ^ P.w := by
  refine ⟨seed_seq_k_eq P, ?_, ?_⟩
  · unfold seed_seq_fill
    rw [if_neg hpath]
    simp
  · unfold seed_seq_fill
    rw [if_neg hpath, getD_map_range _ _ _ hj]
    exact pack_word_eq P hv.2.1 c hc j hj

theorem packing_of_chunks_witness :
    Valid mt19937_64 ∧ (∀ p, (fun p => (p * 2654435761 + 12345) % 2 ^ 32) p < 2 ^ 32) ∧
      ¬ (seed_seq_k mt19937_64 = 1 ∧ mt19937_64.bits ≥ 32 ∧ true = true) ∧ 7 < mt19937_64.n ∧
      (seed_seq_k mt19937_64 = (mt19937_64.w + 31) / 32 ∧
        (seed_seq_fill mt19937_64 true fun p => (p * 2654435761 + 12345) % 2 ^ 32).length =
          mt19937_64.n ∧
        (seed_seq_fill mt19937_64 true fun p => (p * 2654435761 + 12345) % 2 ^ 32).getD 7 0 =
          chunk_sum (fun p => (p * 2654435761 + 12345) % 2 ^ 32) 7 (seed_seq_k mt19937_64) %
            2 ^ mt19937_64.w) :=
  ⟨by decide, fun p => Nat.mod_lt _ (by decide), by decide, by decide,
    packing_of_chunks mt19937_64 (by decide) true _ (fun p => Nat.mod_lt _ (by decide))
      (by decide) 7 (by decide)⟩

/-! ## The degenerate-state correction and the all-zero state -/

theorem all_range'_zero_iff (X : List Nat) (n : Nat) :
    (List.range' 1 (n - 1)).all (fun i => X.getD i 0 == 0) = true ↔
      ∀ j, 1 ≤ j → j < n → X.getD j 0 = 0 := by
  rw [List.all_eq_true]
  constructor
  · intro h j h1 hj
    have := h j (List.mem_range'_1.2 ⟨h1, by omega⟩)
    exact beq_iff_eq.1 this
  · intro h j hj
    have hj' := List.mem_range'_1.1 hj
    exact beq_iff_eq.2 (h j hj'.1 (by omega))

/-- C26. Degenerate-state correction in entropy seeding happens exactly under the stated
condition: with `W` the words after the fill, `W[0] ≤ max_value`, if `floor(W[0] / 2^r) = 0`
and `W[j] = 0` for every `1 ≤ j < n`, then the array handed to the transition is `W` with
`W[0]` replaced by `max_value`; otherwise it is `W` unchanged.  The final state is one
transition of that array, with cursor 0. -/
theorem degenerate_correction (P : Params) (hv : Valid P) (standard_type : Bool)
    (q : Nat → Nat)
    (hW : (seed_seq_fill P standard_type q).getD 0 0 ≤ max_value P) :
    ((seed_seq_fill P standard_type q).getD 0 0 / 2 ^ P.r = 0 ∧
        (∀ j, 1 ≤ j → j < P.n → (seed_seq_fill P standard_type q).getD j 0 = 0) →
      seed_seq_words P standard_type q =
        (seed_seq_fill P standard_type q).set 0 (max_value P)) ∧
    (¬ ((seed_seq_fill P standard_type q).getD 0 0 / 2 ^ P.r = 0 ∧
        (∀ j, 1 ≤ j → j < P.n → (seed_seq_fill P standard_type q).getD j 0 = 0)) →
      seed_seq_words P standard_type q = seed_seq_fill P standard_type q) ∧
    seed_seq P standard_type q =
      { X := transition_algorithm P (seed_seq_words P standard_type q), i := 0 } := by
  have hlt := (le_max_value_iff P hv.2.1 _).1 hW
  have hcond : (rshift P P.r ((seed_seq_fill P standard_type q).getD 0 0) = 0 ∧
      (List.range' 1 (P.n - 1)).all
        (fun i => (seed_seq_fill P standard_type q).getD i 0 == 0) = true) ↔
      ((seed_seq_fill P standard_type q).getD 0 0 / 2 ^ P.r = 0 ∧
        (∀ j, 1 ≤ j → j < P.n → (seed_seq_fill P standard_type q).getD j 0 = 0)) := by
    rw [rshift_eq_div P _ _ hlt, all_range'_zero_iff]
  refine ⟨fun h => ?_, fun h => ?_, rfl⟩
  · unfold seed_seq_words
    simp only
    rw [if_pos (hcond.2 h)]
  · unfold seed_seq_words
    simp only
    rw [if_neg (fun hc => h (hcond.1 hc))]

theorem degenerate_correction_witness :
    Valid mt19937_64 ∧
      (seed_seq_fill mt19937_64 true fun p => if p = 0 then 5 else 0).getD 0 0 ≤
        max_value mt19937_64 ∧
      (((seed_seq_fill mt19937_64 true fun p => if p = 0 then 5 else 0).getD 0 0 /
            2 ^ mt19937_64.r = 0 ∧
          (∀ j, 1 ≤ j → j < mt19937_64.n →
            (seed_seq_fill mt19937_64 true fun p => if p = 0 then 5 else 0).getD j 0 = 0) →
        seed_seq_words mt19937_64 true (fun p => if p = 0 then 5 else 0) =
          (seed_seq_fill mt19937_64 true fun p => if p = 0 then 5 else 0).set 0
            (max_value mt19937_64)) ∧
      (¬ ((seed_seq_fill mt19937_64 true fun p => if p = 0 then 5 else 0).getD 0 0 /
            2 ^ mt19937_64.r = 0 ∧
          (∀ j, 1 ≤ j → j < mt19937_64.n →
            (seed_seq_fill mt19937_64 true fun p => if p = 0 then 5 else 0).getD j 0 = 0)) →
        seed_seq_words mt19937_64 true (fun p => if p = 0 then 5 else 0) =
          seed_seq_fill mt19937_64 true fun p => if p = 0 then 5 else 0) ∧
      seed_seq mt19937_64 true (fun p => if p = 0 then 5 else 0) =
        { X := transition_algorithm mt19937_64
            (seed_seq_words mt19937_64 true fun p => if p = 0 then 5 else 0), i := 0 }) :=
  ⟨by decide, by decide!,
    degenerate_correction mt19937_64 (by decide) true _ (by decide!)⟩

theorem transition_algorithm_zero (P : Params) :
    transition_algorithm P (List.replicate P.n 0) = List.replicate P.n 0 :=
  transition_fold_zero P _

theorem scramble_zero (P : Params) : scramble P 0 = 0 := by
  unfold scramble rshift lshift
  simp

theorem advance_zero_words (P : Params) (i k : Nat) :
    (advance P k { X := List.replicate P.n 0, i := i }).X = List.replicate P.n 0 := by
  induction k with
  | zero => rfl
  | succ k ih =>
    rw [advance_succ]
    unfold next
    simp only
    split
    · simp only
      rw [ih, transition_algorithm_zero]
    · exact ih

/-- C27. The all-zero state persists under the transition: for every parameter set, one
transition applied to `n` zero words yields `n` zero words, `scramble(0) = 0`, and an engine
whose words are all zero keeps all-zero words and returns 0 from every call of
`operator()()`, whatever its cursor. -/
theorem zero_state_persists (P : Params) (i k : Nat) :
    transition_algorithm P (List.replicate P.n 0) = List.replicate P.n 0 ∧
      scramble P 0 = 0 ∧
      (advance P k { X := List.replicate P.n 0, i := i }).X = List.replicate P.n 0 ∧
      (next P (advance P k { X := List.replicate P.n 0, i := i })).1 = 0 ∧
      (next_many P k { X := List.replicate P.n 0, i := i }).1 = List.replicate k 0 := by
  have hnext : ∀ j, (next P (advance P j { X := List.replicate P.n 0, i := i })).1 = 0 := by
    intro j
    rw [next_fst, advance_zero_words, getD_replicate_zero, scramble_zero]
  refine ⟨transition_algorithm_zero P, scramble_zero P, advance_zero_words P i k, hnext k, ?_⟩
  rw [next_many_fst]
  apply List.eq_replicate_iff.2
  refine ⟨by simp, fun b hb => ?_⟩
  obtain ⟨j, -, rfl⟩ := List.mem_map.1 hb
  exact hnext j

/-! ## The re-mask inside tempering -/

theorem scramble_eq_third (P : Params) (x : Nat) :
    scramble P x = (scramble_third P x &&& max_value P) ^^^
      rshift P P.l (scramble_third P x &&& max_value P) := rfl

/-- On a `w`-bit word the value after the third tempering step fits in `w` bits, because the
masks `b` and `c` do. -/
theorem scramble_third_lt (P : Params) (hb : P.b < 2 ^ P.w) (hc : P.c < 2 ^ P.w) (x : Nat)
    (hx : x < 2 ^ P.w) : scramble_third P x < 2 ^ P.w := by
  unfold scramble_third
  simp only
  have hz1 : x ^^^ (rshift P P.u x &&& P.d) < 2 ^ P.w :=
    Nat.xor_lt_two_pow hx (lt_of_le_of_lt Nat.and_le_left (lt_of_le_of_lt (rshift_le P _ x) hx))
  have hz2 : x ^^^ (rshift P P.u x &&& P.d) ^^^
      (lshift P P.s (x ^^^ (rshift P P.u x &&& P.d)) &&& P.b) < 2 ^ P.w :=
    Nat.xor_lt_two_pow hz1 (Nat.and_lt_two_pow _ hb)
  exact Nat.xor_lt_two_pow hz2 (Nat.and_lt_two_pow _ hc)

theorem remask_identity (P : Params) (hv : Valid P) (x : Nat) (hx : x ≤ max_value P) :
    scramble_third P x ≤ max_value P ∧
      scramble_third P x &&& max_value P = scramble_third P x ∧
      scramble_without_remask P x = scramble P x := by
  obtain ⟨-, hw, -, -, -, -, -, -, -, -, -, hb, hc, -, -⟩ := hv
  have hlt := scramble_third_lt P ((le_max_value_iff P hw _).1 hb)
    ((le_max_value_iff P hw _).1 hc) x ((le_max_value_iff P hw _).1 hx)
  have hand : scramble_third P x &&& max_value P = scramble_third P x := by
    rw [and_max_value P hw, Nat.mod_eq_of_lt hlt]
  refine ⟨(le_max_value_iff P hw _).2 hlt, hand, ?_⟩
  rw [scramble_eq_third, hand]
  rfl

/-- C28, counterexample.  There is no valid parameter set with native width above `w` and no
word `x ≤ max_value` for which the value after the third tempering step exceeds `max_value`
or for which leaving out the step `z &= max_value` changes `scramble(x)`. -/
theorem remask_never_needed_on_words :
    ¬ ∃ (P : Params) (x : Nat), Valid P ∧ P.w < P.bits ∧ x ≤ max_value P ∧
      (max_value P < scramble_third P x ∨ scramble_without_remask P x ≠ scramble P x) := by
  rintro ⟨P, x, hv, -, hx, h⟩
  obtain ⟨h1, -, h3⟩ := remask_identity P hv x hx
  rcases h with h | h
  · omega
  · exact h h3

/-- C28, amended.  The re-mask inside tempering leaves state words unchanged: for every valid
parameter set and every word `x ≤ max_value`, the value `z` after the third tempering step
is at most `max_value`, so the step `z &= max_value` does not change it and leaving that
step out does not change `scramble(x)`. -/
theorem remask_unchanged_on_words (P : Params) (hv : Valid P) (x : Nat)
    (hx : x ≤ max_value P) :
    scramble_third P x ≤ max_value P ∧
      scramble_third P x &&& max_value P = scramble_third P x ∧
      scramble_without_remask P x = scramble P x :=
  remask_identity P hv x hx

theorem remask_unchanged_on_words_witness :
    Valid test_engine ∧ 2 ^ 47 - 1 ≤ max_value test_engine ∧
      (scramble_third test_engine (2 ^ 47 - 1) ≤ max_value test_engine ∧
        scramble_third test_engine (2 ^ 47 - 1) &&& max_value test_engine =
          scramble_third test_engine (2 ^ 47 - 1) ∧
        scramble_without_remask test_engine (2 ^ 47 - 1) = scramble test_engine (2 ^ 47 - 1)) :=
  ⟨by decide, by decide, remask_unchanged_on_words test_engine (by decide) _ (by decide)⟩

/-- The re-mask changes the result for a native value above `max_value`: on the engine of
`test/initial_sequence.cpp` (47-bit words in 64 bits) and `x = 2^63`. -/
theorem remask_changes_native_value :
    Valid test_engine ∧ test_engine.w < test_engine.bits ∧ 2 ^ 63 < 2 ^ test_engine.bits ∧
      scramble test_engine (2 ^ 63) = 0 ∧
      scramble_without_remask test_engine (2 ^ 63) = 9223372041149743104 := by
  decide

/-! ## Single-value peek across a transition, and tempering with `l = 0` -/

/-- C29. Actual behaviour of the single-value `peek` across a transition: for every valid
parameter set, every engine with cursor `c < n` and every distance `d` with `d ≥ 1` and
`d ≥ n - c`, `peek(d)` equals the value returned by `operator()()` after `discard(d - 1)`,
which is the `d`-th, not the `(d+1)`-th, of the successive values; and when `n - c ≥ 2`,
`peek(n - c) = peek(n - c - 1)`. -/
theorem peek_across_boundary (P : Params) (hv : Valid P) (st : mersenne_twister_state)
    (hi : st.i < P.n) (d : Nat) (hd1 : 1 ≤ d) (hd : d ≥ P.n - st.i) :
    peek P st d = (next P (discard P st (d - 1))).1 ∧
      (next_many P d st).1.getLast? = some (peek P st d) ∧
      (2 ≤ P.n - st.i → peek P st (P.n - st.i) = peek P st (P.n - st.i - 1)) := by
  have hn : 0 < P.n := by omega
  have hfar := peek_far P st d (by omega) hd
  refine ⟨hfar, ?_, fun h2 => ?_⟩
  · have e : d = (d - 1) + 1 := by omega
    rw [hfar, discard_eq_advance P hn hv.1 st hi]
    conv_lhs => rw [e]
    exact next_many_getLast P (d - 1) st
  · rw [peek_far P st (P.n - st.i) (by omega) (le_refl _),
      peek_near P st (P.n - st.i - 1) (Or.inr (by omega)),
      discard_eq_advance P hn hv.1 st hi, next_fst, advance_eq P hn st hi]
    have e1 : st.i + (P.n - st.i - 1) = P.n - 1 := by omega
    rw [e1, Nat.div_eq_of_lt (by omega), Nat.mod_eq_of_lt (by omega)]
    rfl

theorem peek_across_boundary_witness :
    Valid test_engine ∧ (advance test_engine 5 (mk test_engine 1)).i < test_engine.n ∧
      1 ≤ 12 ∧ 12 ≥ test_engine.n - (advance test_engine 5 (mk test_engine 1)).i ∧
      (peek test_engine (advance test_engine 5 (mk test_engine 1)) 12 =
          (next test_engine
            (discard test_engine (advance test_engine 5 (mk test_engine 1)) (12 - 1))).1 ∧
        (next_many test_engine 12 (advance test_engine 5 (mk test_engine 1))).1.getLast? =
          some (peek test_engine (advance test_engine 5 (mk test_engine 1)) 12) ∧
        (2 ≤ test_engine.n - (advance test_engine 5 (mk test_engine 1)).i →
          peek test_engine (advance test_engine 5 (mk test_engine 1))
              (test_engine.n - (advance test_engine 5 (mk test_engine 1)).i) =
            peek test_engine (advance test_engine 5 (mk test_engine 1))
              (test_engine.n - (advance test_engine 5 (mk test_engine 1)).i - 1))) :=
  ⟨by decide, by decide, by decide, by decide,
    peek_across_boundary test_engine (by decide) _ (by decide) 12 (by decide) (by decide)⟩

theorem generate_for_forall (P : Params) (p : Nat → Prop) (hp : ∀ y, p (scramble P y))
    (X : List Nat) : ∀ (count i : Nat), ∀ z ∈ (generate_for P X count i).1, p z := by
  intro count
  induction count with
  | zero => intro i z hz; simp [generate_for] at hz
  | succ count ih =>
    intro i z hz
    rw [generate_for] at hz
    split at hz
    · simp only [List.mem_cons] at hz
      rcases hz with rfl | hz
      · exact hp _
      · exact ih (i + 1) z hz
    · simp at hz

theorem generate_multiple_forall (P : Params) (p : Nat → Prop) (hp : ∀ y, p (scramble P y)) :
    ∀ (fuel : Nat) (st : mersenne_twister_state) (count : Nat),
      ∀ z ∈ (generate_multiple P fuel st count).1, p z := by
  intro fuel
  induction fuel with
  | zero => intro st count z hz; simp [generate_multiple] at hz
  | succ fuel ih =>
    intro st count z hz
    rw [generate_multiple] at hz
    have hfor := generate_for_forall P p hp st.X count st.i
    rcases hg : generate_for P st.X count st.i with ⟨out, i', rest⟩
    rw [hg] at hz hfor
    cases rest with
    | zero => exact hfor z (by simpa using hz)
    | succ rest =>
      simp only [List.mem_append, List.mem_cons] at hz
      rcases hz with hz | rfl | hz
      · exact hfor z hz
      · exact hp _
      · exact ih _ _ z hz

theorem peek_for_forall (P : Params) (p : Nat → Prop) (hp : ∀ y, p (scramble P y))
    (X : List Nat) : ∀ (count i : Nat), ∀ z ∈ (peek_for P X count i).1, p z := by
  intro count
  induction count with
  | zero => intro i z hz; simp [peek_for] at hz
  | succ count ih =>
    intro i z hz
    rw [peek_for] at hz
    split at hz
    · simp only [List.mem_cons] at hz
      rcases hz with rfl | hz
      · exact hp _
      · exact ih (i + 1) z hz
    · simp at hz

theorem peek_blocks_forall (P : Params) (p : Nat → Prop) (hp : ∀ y, p (scramble P y)) :
    ∀ (fuel : Nat) (X : List Nat) (count : Nat), ∀ z ∈ peek_blocks P fuel X count, p z := by
  intro fuel
  induction fuel with
  | zero => intro X count z hz; simp [peek_blocks] at hz
  | succ fuel ih =>
    intro X count z hz
    rw [peek_blocks] at hz
    have htake : ∀ z ∈ (List.map (scramble P) (transition_algorithm P X)).take count, p z := by
      intro z hz
      obtain ⟨y, -, rfl⟩ := List.mem_map.1 (List.mem_of_mem_take hz)
      exact hp _
    split at hz
    · exact htake z hz
    · rcases List.mem_append.1 hz with hz | hz
      · exact htake z hz
      · exact ih _ _ z hz

theorem scramble_of_l_zero (P : Params) (hw : 0 < P.w) (hl : P.l = 0) (x : Nat) :
    scramble P x = 0 := by
  rw [scramble_eq_third, hl]
  unfold rshift
  rw [if_neg (by omega), Nat.shiftRight_zero, Nat.xor_self]

/-- C30. Tempering degenerates when `tempering_l = 0`: for every valid parameter set with
`l = 0` and every `x`, `scramble(x) = 0`, so every value of `operator()()`, of the bulk
operation and of `peek` is 0, and the values returned by `operator()()` on any two engines
are equal.  The engine type `mt` of the copy and equality tests is such a parameter set. -/
theorem tempering_degenerates (P : Params) (hv : Valid P) (hl : P.l = 0) :
    (∀ x, scramble P x = 0) ∧ (∀ st, (next P st).1 = 0) ∧
      (∀ st L, ∀ z ∈ (fill P st L).1, z = 0) ∧ (∀ st d, peek P st d = 0) ∧
      (∀ st L d, ∀ z ∈ peek_range P st L d, z = 0) ∧
      (∀ a b, (next P a).1 = (next P b).1) ∧
      (Valid mt ∧ mt.l = 0) := by
  have hw : 0 < P.w := by
    have := hv.2.2.2.2.1
    omega
  have hs := scramble_of_l_zero P hw hl
  have hnext : ∀ st, (next P st).1 = 0 := fun st => by rw [next_fst, hs]
  refine ⟨hs, hnext, fun st L => ?_, fun st d => ?_, fun st L d z hz => ?_,
    fun a b => by rw [hnext a, hnext b], by decide⟩
  · exact generate_multiple_forall P (fun z => z = 0) hs _ st L
  · unfold peek
    split
    · exact hs _
    · exact hs _
  · unfold peek_range at hz
    simp only at hz
    split at hz
    · exact peek_for_forall P (fun z => z = 0) hs _ _ _ z hz
    · rcases List.mem_append.1 hz with hz | hz
      · exact peek_for_forall P (fun z => z = 0) hs _ _ _ z hz
      · exact peek_blocks_forall P (fun z => z = 0) hs _ _ _ z hz

theorem tempering_degenerates_witness :
    Valid mt ∧ mt.l = 0 ∧
      ((∀ x, scramble mt x = 0) ∧ (∀ st, (next mt st).1 = 0) ∧
        (∀ st L, ∀ z ∈ (fill mt st L).1, z = 0) ∧ (∀ st d, peek mt st d = 0) ∧
        (∀ st L d, ∀ z ∈ peek_range mt st L d, z = 0) ∧
        (∀ a b, (next mt a).1 = (next mt b).1) ∧
        (Valid mt ∧ mt.l = 0)) :=
  ⟨by decide, by decide, tempering_degenerates mt (by decide) (by decide)⟩

/-! ## Cursor arithmetic -/

theorem operator_eq_false_of_cursor (P : Params) (x y : mersenne_twister_state)
    (h : x.i ≠ y.i) : operator_eq P x y = false ∧ operator_ne P x y = true := by
  have hf : operator_eq P x y = false := by
    cases hb : operator_eq P x y
    · rfl
    · exact absurd ((operator_eq_iff P x y).1 hb).2 h
  exact ⟨hf, by rw [operator_ne, hf]; rfl⟩

/-- C31. Cursor arithmetic: for every valid parameter set and every engine with cursor `c < n`,
after `k` successive calls of `operator()()` the cursor equals `(c + k) mod n`; consequently
two copies of the engine advanced by `i` and by `j` calls with `i` not congruent to `j`
modulo `n` compare unequal. -/
theorem cursor_arithmetic (P : Params) (st : mersenne_twister_state)
    (hc : st.i < P.n) (k : Nat) :
    (advance P k st).i = (st.i + k) % P.n ∧ (next_many P k st).2.i = (st.i + k) % P.n ∧
      ∀ i j, i % P.n ≠ j % P.n →
        operator_eq P (advance P i st) (advance P j st) = false ∧
          operator_ne P (advance P i st) (advance P j st) = true := by
  have hn : 0 < P.n := by omega
  have hcur : ∀ k, (advance P k st).i = (st.i + k) % P.n := fun k => by
    rw [advance_eq P hn st hc]
  refine ⟨hcur k, by rw [next_many_snd]; exact hcur k, fun i j hij => ?_⟩
  apply operator_eq_false_of_cursor
  rw [hcur, hcur]
  intro h
  exact hij (Nat.ModEq.add_left_cancel' st.i h)

theorem cursor_arithmetic_witness :
    Valid mt ∧ (mk mt 0).i < mt.n ∧
      ((advance mt 40 (mk mt 0)).i = ((mk mt 0).i + 40) % mt.n ∧
        (next_many mt 40 (mk mt 0)).2.i = ((mk mt 0).i + 40) % mt.n ∧
        ∀ i j, i % mt.n ≠ j % mt.n →
          operator_eq mt (advance mt i (mk mt 0)) (advance mt j (mk mt 0)) = false ∧
            operator_ne mt (advance mt i (mk mt 0)) (advance mt j (mk mt 0)) = true) :=
  ⟨by decide, by decide, cursor_arithmetic mt _ (by decide) 40⟩

/-! ## Index safety -/

theorem read_checked_of_lt (P : Params) (X : List Nat) (k : Nat) (hk : k < P.n) :
    read_checked P X k = some (X.getD k 0) := by
  unfold read_checked
  rw [if_pos hk]

theorem write_checked_of_lt (P : Params) (X : List Nat) (k v : Nat) (hk : k < P.n) :
    write_checked P X k v = some (X.set k v) := by
  unfold write_checked
  rw [if_pos hk]

/-- The three reads and the write of a transition step are inside the array. -/
theorem transition_step_checked_eq (P : Params) (X : List Nat) (i : Nat) (hi : i < P.n) :
    transition_step_checked P X i = some (transition_step P X i) := by
  have hn : 0 < P.n := by omega
  unfold transition_step_checked transition_step
  rw [read_checked_of_lt P X i hi, read_checked_of_lt P X _ (Nat.mod_lt _ hn),
    read_checked_of_lt P X _ (Nat.mod_lt _ hn)]
  simp only [Option.bind_eq_bind, Option.some_bind]
  rw [write_checked_of_lt P X i _ hi]

theorem transition_fold_checked (P : Params) (l : List Nat) (hl : ∀ i ∈ l, i < P.n) :
    ∀ X, l.foldlM (transition_step_checked P) X = some (l.foldl (transition_step P) X) := by
  induction l with
  | nil => intro X; rfl
  | cons i l ih =>
    intro X
    rw [List.foldlM_cons, transition_step_checked_eq P X i (hl i (List.mem_cons_self _ _)),
      List.foldl_cons]
    simp only [Option.bind_eq_bind, Option.some_bind]
    exact ih (fun j hj => hl j (List.mem_cons_of_mem _ hj)) _

theorem transition_algorithm_checked_eq (P : Params) (X : List Nat) :
    transition_algorithm_checked P X = some (transition_algorithm P X) :=
  transition_fold_checked P _ (fun _ hi => List.mem_range.1 hi) X

theorem next_checked_eq (P : Params) (st : mersenne_twister_state) (hi : st.i < P.n) :
    next_checked P st = some (next P st) := by
  unfold next_checked next
  rw [read_checked_of_lt P _ _ hi, transition_algorithm_checked_eq]
  simp only [Option.bind_eq_bind, Option.some_bind]
  split <;> rfl

theorem discard_loop_checked_eq (P : Params) (z : Nat) :
    ∀ X, discard_loop_checked P X z = some (discard_loop P X z) := by
  induction z using Nat.strong_induction_on with
  | _ z ih =>
    intro X
    rw [discard_loop_checked, discard_loop]
    by_cases h : 0 < P.n ∧ z ≥ P.n
    · rw [dif_pos h, dif_pos h, transition_algorithm_checked_eq]
      exact ih (z - P.n) (by omega) _
    · rw [dif_neg h, dif_neg h]

theorem discard_checked_eq (P : Params) (st : mersenne_twister_state) (z : Nat) :
    discard_checked P st z = some (discard P st z) := by
  unfold discard_checked discard
  rw [discard_loop_checked_eq]
  simp only [Option.bind_eq_bind, Option.some_bind, transition_algorithm_checked_eq]
  split <;> rfl

theorem generate_for_checked_eq (P : Params) (X : List Nat) :
    ∀ count i, generate_for_checked P X count i = some (generate_for P X count i) := by
  intro count
  induction count with
  | zero => intro i; rfl
  | succ count ih =>
    intro i
    rw [generate_for_checked, generate_for]
    by_cases h : i < P.n - 1
    · rw [if_pos h, if_pos h, read_checked_of_lt P X i (by omega), ih]
      rfl
    · rw [if_neg h, if_neg h]

theorem generate_multiple_checked_eq (P : Params) (hn : 0 < P.n) :
    ∀ fuel st count,
      generate_multiple_checked P fuel st count = some (generate_multiple P fuel st count) := by
  intro fuel
  induction fuel with
  | zero => intro st count; rfl
  | succ fuel ih =>
    intro st count
    rw [generate_multiple_checked, generate_multiple, generate_for_checked_eq]
    simp only [Option.bind_eq_bind, Option.some_bind]
    rcases generate_for P st.X count st.i with ⟨out, i', rest⟩
    cases rest with
    | zero => rfl
    | succ rest =>
      simp only
      rw [read_checked_of_lt P _ _ (by omega), transition_algorithm_checked_eq]
      simp only [Option.bind_eq_bind, Option.some_bind]
      rw [ih]
      rfl

theorem discard_cursor_lt (P : Params) (hv : Valid P) (st : mersenne_twister_state)
    (hi : st.i < P.n) (k : Nat) : (discard P st k).i < P.n := by
  have hn : 0 < P.n := by omega
  rw [discard_eq_advance P hn hv.1 st hi, advance_eq P hn st hi]
  exact Nat.mod_lt _ hn

theorem peek_checked_eq (P : Params) (hv : Valid P) (st : mersenne_twister_state)
    (hi : st.i < P.n) (d : Nat) : peek_checked P st d = some (peek P st d) := by
  unfold peek_checked peek
  by_cases h : d ≠ 0 ∧ d ≥ P.n - st.i
  · rw [if_pos h, if_pos h, discard_checked_eq]
    simp only [Option.bind_eq_bind, Option.some_bind]
    rw [read_checked_of_lt P _ _ (discard_cursor_lt P hv st hi (d - 1))]
    rfl
  · rw [if_neg h, if_neg h, read_checked_of_lt P _ _ (by omega)]
    rfl

/-- C32. Index safety under the invariant: for every valid parameter set and every engine
with cursor below `n`, every access to the array made by the transition, by `operator()()`,
by the bulk operation, by `discard(k)` followed by `operator()()` and by `peek(d)` for every
`d` (the in-window branch `X[i + d]` and the copy branch `X[copy.i]`) uses an index in
`[0, n)`: the bounds-checked operations return the results of the operations. -/
theorem index_safety (P : Params) (hv : Valid P) (st : mersenne_twister_state)
    (hi : st.i < P.n) :
    transition_algorithm_checked P st.X = some (transition_algorithm P st.X) ∧
      next_checked P st = some (next P st) ∧
      (∀ L, fill_checked P st L = some (fill P st L)) ∧
      (∀ k, (discard_checked P st k).bind (next_checked P) = some (next P (discard P st k))) ∧
      (∀ d, peek_checked P st d = some (peek P st d)) ∧
      (∀ d, ¬ (d ≠ 0 ∧ d ≥ P.n - st.i) → st.i + d < P.n) ∧
      (∀ d, (discard P st d).i < P.n) := by
  have hn : 0 < P.n := by omega
  refine ⟨transition_algorithm_checked_eq P _, next_checked_eq P st hi,
    fun L => generate_multiple_checked_eq P hn _ st L, fun k => ?_,
    fun d => peek_checked_eq P hv st hi d, fun d h => by omega,
    fun d => discard_cursor_lt P hv st hi d⟩
  rw [discard_checked_eq, Option.some_bind]
  exact next_checked_eq P _ (discard_cursor_lt P hv st hi k)

theorem index_safety_witness :
    Valid test_engine ∧ (advance test_engine 5 (mk test_engine 1)).i < test_engine.n ∧
      (transition_algorithm_checked test_engine (advance test_engine 5 (mk test_engine 1)).X =
          some (transition_algorithm test_engine (advance test_engine 5 (mk test_engine 1)).X) ∧
        next_checked test_engine (advance test_engine 5 (mk test_engine 1)) =
          some (next test_engine (advance test_engine 5 (mk test_engine 1))) ∧
        (∀ L, fill_checked test_engine (advance test_engine 5 (mk test_engine 1)) L =
          some (fill test_engine (advance test_engine 5 (mk test_engine 1)) L)) ∧
        (∀ k, (discard_checked test_engine (advance test_engine 5 (mk test_engine 1)) k).bind
            (next_checked test_engine) =
          some (next test_engine
            (discard test_engine (advance test_engine 5 (mk test_engine 1)) k))) ∧
        (∀ d, peek_checked test_engine (advance test_engine 5 (mk test_engine 1)) d =
          some (peek test_engine (advance test_engine 5 (mk test_engine 1)) d)) ∧
        (∀ d, ¬ (d ≠ 0 ∧ d ≥ test_engine.n - (advance test_engine 5 (mk test_engine 1)).i) →
          (advance test_engine 5 (mk test_engine 1)).i + d < test_engine.n) ∧
        (∀ d, (discard test_engine (advance test_engine 5 (mk test_engine 1)) d).i <
          test_engine.n)) :=
  ⟨by decide, by decide, index_safety test_engine (by decide) _ (by decide)⟩

/-- Outside the invariant the read of `operator()()` leaves the array: with the cursor at
`n` the bounds-checked call fails. -/
theorem next_checked_out_of_bounds :
    next_checked test_engine { X := (mk test_engine 1).X, i := 17 } = none := by
  decide

end mersenne_twister_engine

end freestanding_mersenne_twister
